import Mathlib

/-!
iouringcp: copy a file through an io_uring submission/completion ring.

A shallow embedding of `src/iouringcp.cc`.

* The C locals and globals of `copy_file` become the fields of `State`.
* `liburing`, the kernel, `malloc`/`free` and the clock are outside the
  program.  Every answer they give is taken from an `Env` record, one record
  per step, so a run of `copy_file` is a fold of `copy_file_step` over a list
  of `Env`s and a statement over all lists is a statement over every
  behaviour of the adapter.
* The ring and the heap are the list `State.ops`: one `Request` per live
  `io_data` allocation, holding the header, the payload bytes that follow it,
  and whether its submission entry has been flushed to the kernel.
* The adapter is a ring of `QD` submission entries; a successful
  `io_uring_submit` hands every prepared entry to the kernel, a failed one
  none; the kernel completes only entries it has been handed.
* Machine integers are `Nat`/`Int`; the conversions that can wrap
  (`unsigned long` counters, `size_t` subtraction, the mixed `off_t`/`size_t`
  subtraction of `write_left`, the `int` product of the budget,
  `useconds_t`) are explicit.  Sums of `off_t` values stay below the probed
  size and are left exact.
* `Trace` is a run recorded together with what it has queued: the offset and
  length of every request `queue_read` appends and the number of writes
  `queue_write` adds.  `chunk`, `chunks` and `n_chunks` are the chunk list in
  the words of the specification, to compare the record with.
-/

namespace IoUringCp

/-! ## Constants and machine integers -/

/-- The queue depth, `#define QD 64`. -/
def QD : Nat := 64

/-- The chunk size, `#define BS (32*1024)`. -/
def BS : Nat := 32 * 1024

/-- The errno value `EAGAIN` on Linux. -/
def EAGAIN : Int := 11

/-- The errno value `ERANGE` on Linux. -/
def ERANGE : Int := 34

/-- Conversion to a 64-bit unsigned type (`unsigned long`, `size_t`). -/
def u64 (n : Int) : Nat := (n % 18446744073709551616).toNat

/-- Conversion to a 32-bit unsigned type (`unsigned int`, `useconds_t`). -/
def u32 (n : Int) : Nat := (n % 4294967296).toNat

/-- Conversion to a 64-bit two's complement type (`long`, `off_t`). -/
def s64 (n : Int) : Int :=
  (n + 9223372036854775808) % 18446744073709551616 - 9223372036854775808

/-- Conversion to a 32-bit two's complement type (`int`). -/
def s32 (n : Int) : Int := (n + 2147483648) % 4294967296 - 2147483648

/-! ## Data model -/

/-- The `struct iovec` of an `io_data`.  `iov_base` is kept as the distance
from the start of the payload (`data + 1` is position 0). -/
structure iovec where
  iov_base : Nat
  iov_len : Nat
deriving DecidableEq, Repr

/-- The header `struct io_data`. -/
structure io_data where
  read : Bool
  first_offset : Int
  offset : Int
  first_len : Nat
  iov : iovec
deriving DecidableEq, Repr

/-- One live allocation made by `queue_read`: the header, the payload bytes
that follow it in the same `malloc` block, and whether the submission entry
prepared for it has been flushed to the kernel. -/
structure Request where
  data : io_data
  payload : List Nat
  submitted : Bool
deriving DecidableEq, Repr

/-- The `struct timeval` filled by `gettimeofday`. -/
structure timeval where
  tv_sec : Int
  tv_usec : Int
deriving DecidableEq, Repr

/-- What `io_uring_wait_cqe` / `io_uring_peek_cqe` hand back: a negative
return value and no completion, or return value 0 and the completion of the
in-flight request at position `idx` with result `res`. -/
inductive CqeResult where
  | error (ret : Int)
  | completion (idx : Nat) (res : Int)
deriving DecidableEq, Repr

/-- The answers of everything outside the program that one step may ask for. -/
structure Env where
  now : timeval
  now2 : timeval
  malloc_ok : Bool
  submit_ret : Int
  cqe : CqeResult
deriving DecidableEq, Repr

/-- The calls that leave the program, in the order they are made.  `malloc`
carries the payload size, the header size is not counted. -/
inductive Call where
  | gettimeofday
  | usleep (usec : Nat)
  | malloc (size : Nat)
  | free
  | get_sqe
  | submit
  | wait_cqe
  | peek_cqe
  | cqe_seen
deriving DecidableEq, Repr

/-- The control points of `copy_file`. -/
inductive Loc where
  | loop_head
  | throttle
  | fill
  | flush
  | harvest
  | drain
  | returned (ret : Int)
  | assert_failed
deriving DecidableEq, Repr

/-- The variables of `copy_file`, the global `speed_limitation`, the ring and
heap (`ops`), the two files and the log of outside calls. -/
structure State where
  loc : Loc
  insize : Int
  write_left : Int
  offset : Int
  reads : Nat
  writes : Nat
  had_reads : Nat
  got_comp : Bool
  speed_limitation : Int
  speed_size : Int
  speed_size_limitation : Int
  speed_time : timeval
  ops : List Request
  src : List Nat
  dst : List Nat
  log : List Call
deriving DecidableEq, Repr

/-! ## The ring and the kernel -/

/-- Number of prepared submission entries not yet flushed. -/
def sq_pending (ops : List Request) : Nat :=
  ops.countP (fun r => !r.submitted)

/-- The call `io_uring_get_sqe` finds a free slot in a ring of `QD` entries. -/
def sqe_available (ops : List Request) : Bool :=
  decide (sq_pending ops < QD)

/-- The call `io_uring_submit`: on a non-negative return every prepared entry
has been handed to the kernel, on an error none has. -/
def io_uring_submit (s : State) (ret : Int) : State :=
  { s with
    ops := if 0 ≤ ret then s.ops.map (fun r => { r with submitted := true }) else s.ops
    log := s.log ++ [Call.submit] }

/-- Overwrite `bytes.length` bytes of `buf` from position `pos` on. -/
def splice (buf : List Nat) (pos : Nat) (bytes : List Nat) : List Nat :=
  buf.take pos ++ bytes ++ buf.drop (pos + bytes.length)

/-- Write `bytes` into file content `f` at offset `off`; a gap is zero-filled,
and writing nothing leaves the file as it is. -/
def pwrite (f : List Nat) (off : Nat) (bytes : List Nat) : List Nat :=
  match bytes with
  | [] => f
  | b :: bs =>
    f.take off ++ List.replicate (off - f.length) 0 ++ (b :: bs) ++
      f.drop (off + (b :: bs).length)

/-- The kernel finishes the in-flight request at position `idx` with result
`res`: a read has put `res` source bytes into the payload region, a write has
put `res` payload bytes into the destination; the request leaves the ring.
`none` when no such completion can be delivered (no request at `idx`, or its
entry was never flushed). -/
def complete (s : State) (idx : Nat) (res : Int) : Option (Request × State) :=
  match s.ops[idx]? with
  | none => none
  | some r =>
    if r.submitted then
      let rest := s.ops.take idx ++ s.ops.drop (idx + 1)
      if r.data.read then
        some ({ r with
                payload := splice r.payload r.data.iov.iov_base
                  ((s.src.drop r.data.offset.toNat).take res.toNat) },
              { s with ops := rest })
      else
        some (r,
              { s with
                ops := rest
                dst := pwrite s.dst r.data.offset.toNat
                  ((r.payload.drop r.data.iov.iov_base).take res.toNat) })
    else none

/-! ## `queue_prepped`, `queue_read`, `queue_write` -/

/-- Source `queue_prepped`: take a submission entry and prepare it from the
header (`readv` on the input when `data->read`, else `writev` on the output,
at `data->offset` over `data->iov`).  `none` is the failure of `assert(sqe)`. -/
def queue_prepped (s : State) (r : Request) : Option State :=
  if sqe_available s.ops then
    some { s with
           ops := s.ops ++ [{ r with submitted := false }]
           log := s.log ++ [Call.get_sqe] }
  else none

/-- The header that `queue_read` writes for a chunk of `size` bytes at `offset`. -/
def queue_read_data (size offset : Int) : io_data :=
  { read := true
    first_offset := offset
    offset := offset
    first_len := u64 size
    iov := { iov_base := 0, iov_len := u64 size } }

/-- Source `queue_read`: allocate header and payload, take a submission entry,
prepare a `readv`.  The second component is the return value (1 on failure
of `malloc` or of `io_uring_get_sqe`, else 0). -/
def queue_read (s : State) (malloc_ok : Bool) (size offset : Int) : State × Int :=
  if malloc_ok then
    if sqe_available s.ops then
      ({ s with
         ops := s.ops ++ [{ data := queue_read_data size offset
                            payload := List.replicate (u64 size) 0
                            submitted := false }]
         log := s.log ++ [Call.malloc (u64 size), Call.get_sqe] }, 0)
    else
      ({ s with log := s.log ++ [Call.malloc (u64 size), Call.get_sqe, Call.free] }, 1)
  else
    ({ s with log := s.log ++ [Call.malloc (u64 size)] }, 1)

/-- The header after the first four assignments of `queue_write`. -/
def queue_write_data (d : io_data) : io_data :=
  { d with
    read := false
    offset := d.first_offset
    iov := { iov_base := 0, iov_len := d.first_len } }

/-- Source `queue_write`: turn the header into a write of the whole original
range, prepare it and call `io_uring_submit` (its return value is dropped). -/
def queue_write (s : State) (r : Request) (submit_ret : Int) : Option State :=
  match queue_prepped s { r with data := queue_write_data r.data } with
  | none => none
  | some s1 => some (io_uring_submit s1 submit_ret)

/-! ## `copy_file` -/

/-- The per-window budget of line 178, `speed_limitation * 1024 * 1024 / 10`:
both products are `int` products (two's complement result), the quotient is
the truncating `int` division, and the value is then widened to `off_t`. -/
def speed_size_limitation_of (speed_limitation : Int) : Int :=
  Int.tdiv (s32 (s32 (speed_limitation * 1024) * 1024)) 10

/-- Entry of `copy_file` (lines 178-188) up to the first test of the main
loop.  `t0` is what the first `gettimeofday` stores in `speed_time`; without
throttling the call is not made and `t0` stands for the variable's
indeterminate initial value. -/
def copy_file_init (insize : Int) (speed_limitation : Int) (t0 : timeval)
    (src dst : List Nat) : State :=
  { loc := Loc.loop_head
    insize := insize
    write_left := insize
    offset := 0
    reads := 0
    writes := 0
    had_reads := 0
    got_comp := false
    speed_limitation := speed_limitation
    speed_size := 0
    speed_size_limitation := speed_size_limitation_of speed_limitation
    speed_time := t0
    ops := []
    src := src
    dst := dst
    log := if speed_limitation > 0 then [Call.gettimeofday] else [] }

/-- Line 190, the test `while (insize || write_left)`. -/
def loop_head_step (s : State) : State :=
  if s.insize ≠ 0 ∨ s.write_left ≠ 0 then { s with loc := Loc.throttle }
  else { s with loc := Loc.drain }

/-- Elapsed microseconds as stored in the `useconds_t speed_val` (line 196). -/
def elapsed (start now : timeval) : Nat :=
  u32 ((now.tv_sec * 1000000 + now.tv_usec) - (start.tv_sec * 1000000 + start.tv_usec))

/-- Lines 194-207, the throttle gate. -/
def throttle_gate (s : State) (env : Env) : State :=
  if s.speed_limitation > 0 then
    let speed_val := elapsed s.speed_time env.now
    if speed_val > 100000 then
      { s with
        speed_time := env.now
        speed_size := 0
        log := s.log ++ [Call.gettimeofday] }
    else if s.speed_size ≥ s.speed_size_limitation then
      let sleep_time := u32 (100000 - (speed_val : Int))
      { s with
        speed_time := env.now2
        speed_size := 0
        log := s.log ++ [Call.gettimeofday, Call.usleep sleep_time, Call.gettimeofday] }
    else
      { s with log := s.log ++ [Call.gettimeofday] }
  else s

/-- Lines 194-211: the gate, then `had_reads = reads`. -/
def throttle_step (s : State) (env : Env) : State :=
  let s1 := throttle_gate s env
  { s1 with had_reads := s1.reads, loc := Loc.fill }

/-- Lines 213-218: `this_size`, the remaining input capped at `BS`. -/
def chunk_size (insize : Int) : Int :=
  if insize > BS then BS else insize

/-- One pass through the body of `while (insize)` (lines 212-233); leaving
the loop moves to the flush at line 235. -/
def fill_step (s : State) (env : Env) : State :=
  if s.insize = 0 then { s with loc := Loc.flush }
  else if QD ≤ u64 ((s.reads : Int) + (s.writes : Int)) then { s with loc := Loc.flush }
  else
    let this_size := chunk_size s.insize
    if ¬ (s.insize > BS) ∧ this_size = 0 then { s with loc := Loc.flush }
    else
      match queue_read s env.malloc_ok this_size s.offset with
      | (s1, ret) =>
        if ret ≠ 0 then { s1 with loc := Loc.flush }
        else
          let s2 : State :=
            { s1 with
              insize := s1.insize - this_size
              offset := s1.offset + this_size
              speed_size := s1.speed_size + this_size
              reads := u64 ((s1.reads : Int) + 1) }
          if s2.speed_limitation > 0 ∧ s2.speed_size ≥ s2.speed_size_limitation then
            { s2 with loc := Loc.flush }
          else s2

/-- Lines 235-246: flush when the fill queued a read; an error leaves the main
loop through `break`, which continues at the drain loop of line 306. -/
def flush_step (s : State) (env : Env) : State :=
  if s.had_reads ≠ s.reads then
    let s1 := io_uring_submit s env.submit_ret
    if env.submit_ret < 0 then { s1 with loc := Loc.drain }
    else { s1 with got_comp := false, loc := Loc.harvest }
  else { s with got_comp := false, loc := Loc.harvest }

/-- Lines 280-282: the header after a short completion of `res` bytes. -/
def short_adjust (d : io_data) (res : Int) : io_data :=
  { d with
    iov := { iov_base := d.iov.iov_base + res.toNat
             iov_len := u64 ((d.iov.iov_len : Int) - res) }
    offset := d.offset + res }

/-- Lines 268-301: what the harvest pass does with the completion `res` of
request `r`, in the state `s` the delivery left. -/
def harvest_dispatch (s : State) (r : Request) (res : Int) (submit_ret : Int) : State :=
  if res < 0 then
    if res = -EAGAIN then
      match queue_prepped s r with
      | none => { s with loc := Loc.assert_failed }
      | some s1 => { s1 with log := s1.log ++ [Call.cqe_seen] }
    else { s with loc := Loc.returned 1 }
  else if u64 res ≠ r.data.iov.iov_len then
    match queue_prepped s { r with data := short_adjust r.data res } with
    | none => { s with loc := Loc.assert_failed }
    | some s1 => { s1 with log := s1.log ++ [Call.cqe_seen] }
  else if r.data.read then
    match queue_write s r submit_ret with
    | none => { s with loc := Loc.assert_failed }
    | some s1 =>
      { s1 with
        write_left := s64 (s1.write_left - (r.data.first_len : Int))
        reads := u64 ((s1.reads : Int) - 1)
        writes := u64 ((s1.writes : Int) + 1)
        log := s1.log ++ [Call.cqe_seen] }
  else
    { s with
      writes := u64 ((s.writes : Int) - 1)
      log := s.log ++ [Call.free, Call.cqe_seen] }

/-- Lines 250-259: the call that fetches a completion, `io_uring_wait_cqe` the
first time in a pass and `io_uring_peek_cqe` afterwards. -/
def cqe_call (s : State) : State :=
  { s with
    got_comp := true
    log := s.log ++ [if s.got_comp then Call.peek_cqe else Call.wait_cqe] }

/-- One pass through the body of `while (write_left)` (lines 247-302).  A
`-EAGAIN` from `io_uring_peek_cqe` means that nothing is ready.  An answer
the adapter cannot give (a non-negative return without a completion, a
completion of nothing in flight) leaves the state as it is. -/
def harvest_step (s : State) (env : Env) : State :=
  if s.write_left = 0 then { s with loc := Loc.loop_head }
  else
    match env.cqe with
    | CqeResult.error ret =>
      if 0 ≤ ret then s
      else if s.got_comp = true ∧ ret = -EAGAIN then { cqe_call s with loc := Loc.loop_head }
      else { cqe_call s with loc := Loc.returned 1 }
    | CqeResult.completion idx res =>
      match complete (cqe_call s) idx res with
      | none => s
      | some (r, s2) => harvest_dispatch s2 r res env.submit_ret

/-- One pass through `while (writes)` (lines 306-322), or the `return 0` of
line 324 when the test fails.  Line 310 returns 1 for every non-zero return
of `io_uring_wait_cqe`.  An answer the adapter cannot give (return 0 without
a completion, a completion of nothing in flight) leaves the state as it is. -/
def drain_step (s : State) (env : Env) : State :=
  if s.writes = 0 then { s with loc := Loc.returned 0 }
  else
    let s1 : State := { s with log := s.log ++ [Call.wait_cqe] }
    match env.cqe with
    | CqeResult.error ret =>
      if ret = 0 then s else { s1 with loc := Loc.returned 1 }
    | CqeResult.completion idx res =>
      match complete s1 idx res with
      | none => s
      | some (_, s2) =>
        if res < 0 then { s2 with loc := Loc.returned 1 }
        else
          { s2 with
            writes := u64 ((s2.writes : Int) - 1)
            log := s2.log ++ [Call.free, Call.cqe_seen] }

/-- One step of `copy_file` from the current control point. -/
def copy_file_step (s : State) (env : Env) : State :=
  match s.loc with
  | Loc.loop_head => loop_head_step s
  | Loc.throttle => throttle_step s env
  | Loc.fill => fill_step s env
  | Loc.flush => flush_step s env
  | Loc.harvest => harvest_step s env
  | Loc.drain => drain_step s env
  | Loc.returned _ => s
  | Loc.assert_failed => s

/-- A run of `copy_file`: one step per environment record. -/
def copy_file_run (envs : List Env) (s : State) : State :=
  envs.foldl copy_file_step s

/-- The value `copy_file` has returned, if it has. -/
def copy_file_ret (s : State) : Option Int :=
  match s.loc with
  | Loc.returned ret => some ret
  | _ => none

/-! ## `main`: the `--speed` option -/

/-- The C library's `isspace` in the "C" locale. -/
def isspace (c : Char) : Bool :=
  c.toNat = 32 ∨ (9 ≤ c.toNat ∧ c.toNat ≤ 13)

/-- The value of a character as a digit, letters counting from 10. -/
def digit_value (c : Char) : Option Nat :=
  if 48 ≤ c.toNat ∧ c.toNat ≤ 57 then some (c.toNat - 48)
  else if 97 ≤ c.toNat ∧ c.toNat ≤ 122 then some (c.toNat - 87)
  else if 65 ≤ c.toNat ∧ c.toNat ≤ 90 then some (c.toNat - 55)
  else none

/-- The text starts with a digit of the given base. -/
def has_digit (base : Nat) : List Char → Bool
  | [] => false
  | c :: _ =>
    match digit_value c with
    | some d => decide (d < base)
    | none => false

/-- Read the longest run of digits of the given base: the number read so far
and the text that follows. -/
def scan_digits (base : Nat) : List Char → Nat → Nat × List Char
  | [], acc => (acc, [])
  | c :: cs, acc =>
    match digit_value c with
    | some d => if d < base then scan_digits base cs (acc * base + d) else (acc, c :: cs)
    | none => (acc, c :: cs)

/-- The C library's `strtoul(nptr, &stop, 0)` on a 64-bit `unsigned long`, as
ISO C describes it: white space, an optional sign, base 16 after `0x`, base 8
after `0`, else base 10; no digits gives 0 and `stop = nptr`; a number above
`ULONG_MAX` gives `ULONG_MAX` and `errno = ERANGE`; a minus sign negates in
`unsigned long`.  Result: return value, `stop`, `errno` after the call. -/
def strtoul (nptr : List Char) (errno : Int) : Nat × List Char × Int :=
  let s1 := nptr.dropWhile isspace
  let signed : Bool × List Char :=
    match s1 with
    | c :: t => if c = '-' then (true, t) else if c = '+' then (false, t) else (false, s1)
    | [] => (false, s1)
  let s2 := signed.2
  let based : Nat × List Char :=
    match s2 with
    | c :: x :: t =>
      if c = '0' ∧ (x = 'x' ∨ x = 'X') ∧ has_digit 16 t then (16, t)
      else if c = '0' then (8, s2) else (10, s2)
    | c :: [] => if c = '0' then (8, s2) else (10, s2)
    | [] => (10, s2)
  if has_digit based.1 based.2 then
    let r := scan_digits based.1 based.2 0
    if r.1 > 18446744073709551615 then (18446744073709551615, r.2, ERANGE)
    else (if signed.1 then u64 (-(r.1 : Int)) else r.1, r.2, errno)
  else (0, nptr, errno)

/-- The macro `GET_LOWER_32BITS(v)`, `((v) & 0xFFFFFFFF)`. -/
def GET_LOWER_32BITS (v : Nat) : Nat := v &&& 0xFFFFFFFF

/-- Lines 353-359 of `main`, the case `'S'`: `Except.error 1` is `return 1`,
`Except.ok v` continues with `speed_limitation = v`.  `errno` is the value
`errno` has before the call (the program does not clear it). -/
def main_case_S (optarg : List Char) (errno : Int) : Except Int Int :=
  let r := strtoul optarg errno
  let speed_limitation := s32 (GET_LOWER_32BITS r.1)
  if r.2.1 ≠ [] ∨ ERANGE = r.2.2 ∨ speed_limitation ≤ 0 then Except.error 1
  else Except.ok speed_limitation

/-! ## Derived states and invariants -/

/-- Number of live requests whose header says read. -/
def n_reads (ops : List Request) : Nat := ops.countP (fun r => r.data.read)

/-- Number of live requests whose header says write. -/
def n_writes (ops : List Request) : Nat := ops.countP (fun r => !r.data.read)

/-- The control points inside the main loop. -/
def Loc.in_main : Loc → Bool
  | Loc.loop_head => true
  | Loc.throttle => true
  | Loc.fill => true
  | Loc.flush => true
  | Loc.harvest => true
  | _ => false

/-- The two counters count the live requests by kind. -/
def Counted (s : State) : Prop :=
  s.reads = n_reads s.ops ∧ s.writes = n_writes s.ops

/-- The counters stay within the queue depth, and inside the main loop they
count the live requests by kind. -/
def CountInv (s : State) : Prop :=
  s.reads + s.writes ≤ QD ∧ (s.loc.in_main = true → Counted s)

/-- The state after a successful `queue_read` and the bookkeeping of lines
225-228, continuing at control point `l`. -/
def fill_queued (s : State) (l : Loc) : State :=
  { s with
    loc := l
    ops := s.ops ++ [{ data := queue_read_data (chunk_size s.insize) s.offset
                       payload := List.replicate (u64 (chunk_size s.insize)) 0
                       submitted := false }]
    log := s.log ++ [Call.malloc (u64 (chunk_size s.insize)), Call.get_sqe]
    insize := s.insize - chunk_size s.insize
    offset := s.offset + chunk_size s.insize
    speed_size := s.speed_size + chunk_size s.insize
    reads := u64 ((s.reads : Int) + 1) }

/-- The state after the harvest pass has put request `r` back with header `d`
(lines 271-272 and 283-284). -/
def requeued (s : State) (r : Request) (d : io_data) : State :=
  { s with
    ops := s.ops ++ [{ r with data := d, submitted := false }]
    log := s.log ++ [Call.get_sqe] ++ [Call.cqe_seen] }

/-- The state after the harvest pass has turned the fully read request `r`
into a write (lines 293-296 and 301). -/
def rearmed (s : State) (r : Request) (submit_ret : Int) : State :=
  { s with
    ops := if 0 ≤ submit_ret then
        (s.ops ++ [{ r with data := queue_write_data r.data, submitted := false }]).map
          (fun q : Request => { q with submitted := true })
      else s.ops ++ [{ r with data := queue_write_data r.data, submitted := false }]
    write_left := s64 (s.write_left - (r.data.first_len : Int))
    reads := u64 ((s.reads : Int) - 1)
    writes := u64 ((s.writes : Int) + 1)
    log := s.log ++ [Call.get_sqe] ++ [Call.submit] ++ [Call.cqe_seen] }

/-- The state after the harvest pass has released a fully written request
(lines 298-301). -/
def released (s : State) : State :=
  { s with
    writes := u64 ((s.writes : Int) - 1)
    log := s.log ++ [Call.free, Call.cqe_seen] }

/-- Sum of the original lengths of the live requests that are still reads. -/
def read_sum (ops : List Request) : Int :=
  (ops.map (fun r => if r.data.read then (r.data.first_len : Int) else 0)).sum

/-- The bytes still to be written are the bytes not yet queued plus the bytes
of the reads in flight, and both remaining counts are valid `off_t` values. -/
def Balanced (s : State) : Prop :=
  0 ≤ s.insize ∧ s.write_left = s.insize + read_sum s.ops ∧
    s.write_left < 9223372036854775808

/-- Inside the main loop the state is balanced. -/
def BalInv (s : State) : Prop :=
  s.loc.in_main = true → Balanced s

/-- The header with which the harvest pass puts a request back: unchanged
after a negative (transient) result, advanced by `res` after a short one. -/
def requeue_data (d : io_data) (res : Int) : io_data :=
  if res < 0 then d else short_adjust d res

/-! ## Sample adapter answers for the concrete runs -/

/-- Every call succeeds and no completion is ready. -/
def env_idle : Env :=
  { now := { tv_sec := 0, tv_usec := 0 }
    now2 := { tv_sec := 0, tv_usec := 0 }
    malloc_ok := true
    submit_ret := 1
    cqe := CqeResult.error (-11) }

/-- As `env_idle`, but the completion call hands back request `idx` with
result `res`. -/
def env_cqe (idx : Nat) (res : Int) : Env :=
  { env_idle with cqe := CqeResult.completion idx res }

/-- As `env_idle`, but `io_uring_submit` fails with `-EBUSY`. -/
def env_submit_fails : Env :=
  { env_idle with submit_ret := -16 }

/-- Answers that take a copy without throttling from entry through one
queued read and its flush to the first completion wait. -/
def envs_one_read : List Env :=
  [env_idle, env_idle, env_idle, env_idle, env_idle]

/-- Answers that take a two-byte copy to the drain loop: the read completes
in full, its write is queued, the main loop ends. -/
def envs_to_drain : List Env :=
  envs_one_read ++ [env_cqe 0 2, env_idle, env_idle]

/-- The state of a two-byte copy of `[7, 9]` on arrival at the drain loop. -/
def state_at_drain : State :=
  copy_file_run envs_to_drain
    (copy_file_init 2 0 { tv_sec := 0, tv_usec := 0 } [7, 9] [])

/-! ## Further derived states, histories and sample answers -/

/-- The quantities that only the throttle gate and the pipeline fill write:
they are the same in `s2` as in `s`. -/
def SameInput (s s2 : State) : Prop :=
  s2.insize = s.insize ∧ s2.offset = s.offset ∧ s2.speed_size = s.speed_size ∧
    s2.speed_limitation = s.speed_limitation ∧
    s2.speed_size_limitation = s.speed_size_limitation ∧
    s2.speed_time = s.speed_time ∧ s2.src = s.src

/-- No assertion has failed and every live request is covered by a counter. -/
def SafeInv (s : State) : Prop :=
  s.loc ≠ Loc.assert_failed ∧ s.ops.length ≤ s.reads + s.writes

/-- As `env_idle`, but `malloc` fails. -/
def env_no_memory : Env :=
  { env_idle with malloc_ok := false }

/-- As `env_idle`, but the clock reads 4294.967301 s at the gate and
4295.067296 s after a sleep. -/
def env_late : Env :=
  { env_idle with
    now := { tv_sec := 4294, tv_usec := 967301 }
    now2 := { tv_sec := 4295, tv_usec := 67296 } }

/-- Answers that take a copy of five chunks at 1 MB/s to its second visit of
the throttle gate: four reads use up the budget of 104857 bytes, the first
of them completes, nothing else is ready. -/
def envs_budget_used : List Env :=
  [env_idle, env_idle, env_idle, env_idle, env_idle, env_idle, env_idle,
   env_cqe 0 32768, env_idle, env_idle]

/-- The state of that copy at the throttle gate: window start at time 0 and
131072 bytes admitted. -/
def state_budget_used : State :=
  copy_file_run envs_budget_used
    (copy_file_init 163840 1 { tv_sec := 0, tv_usec := 0 } (List.replicate 163840 0) [])

/-- The request as the kernel hands it back with result `res`: a read has
its payload region filled from the source `src`, a write is as it was. -/
def after_io (src : List Nat) (r : Request) (res : Int) : Request :=
  if r.data.read then
    { r with
      payload := splice r.payload r.data.iov.iov_base
        ((src.drop r.data.offset.toNat).take res.toNat) }
  else r

/-- With budget `B`: throttling is on, fewer than `B + BS` bytes are admitted
in the current window, and fewer than `B` when a pass of the fill starts. -/
def ThrottleInv (B : Int) (s : State) : Prop :=
  s.speed_limitation > 0 ∧ s.speed_size_limitation = B ∧ s.speed_size < B + BS ∧
    (s.loc = Loc.fill → s.speed_size < B)

/-- Both lengths of the header are values of a `size_t`. -/
def SizeOk (r : Request) : Prop :=
  r.data.iov.iov_len < 18446744073709551616 ∧ r.data.first_len < 18446744073709551616

/-- The original length of a request is that of a chunk: positive and at
most `BS`. -/
def PosLen (r : Request) : Prop :=
  0 < r.data.first_len ∧ r.data.first_len ≤ BS

/-- The region of a request inside its original range and its buffer:
`offset + iov_len = first_offset + first_len`, the buffer position is
`offset - first_offset`, `0 < iov_len ≤ first_len`, the payload is
`first_len` bytes long, and `first_len` is at most a chunk. -/
def Geometry (r : Request) : Prop :=
  r.data.offset + (r.data.iov.iov_len : Int) =
      r.data.first_offset + (r.data.first_len : Int) ∧
    (r.data.iov.iov_base : Int) = r.data.offset - r.data.first_offset ∧
    0 < r.data.iov.iov_len ∧ r.data.iov.iov_len ≤ r.data.first_len ∧
    r.payload.length = r.data.first_len ∧ r.data.first_len ≤ BS

/-- The adapter contract for one answer: a completion never reports more
bytes than the request asked for. -/
def contract_ok (s : State) (env : Env) : Bool :=
  match env.cqe with
  | CqeResult.error _ => true
  | CqeResult.completion idx res =>
    match s.ops[idx]? with
    | none => true
    | some r => decide (res ≤ (r.data.iov.iov_len : Int))

/-- The adapter contract along a run from state `s`. -/
def contract_run : List Env → State → Bool
  | [], _ => true
  | e :: t, s => contract_ok s e && contract_run t (copy_file_step s e)

/-- The reads that `queue_read` queues in the step from `s`, as pairs of
file offset and length: the requests that a pass of the fill appends. -/
def queued_by (s : State) (env : Env) : List (Int × Nat) :=
  if s.loc = Loc.fill then
    ((copy_file_step s env).ops.drop s.ops.length).map
      (fun r => (r.data.offset, r.data.iov.iov_len))
  else []

/-- The writes that `queue_write` queues in the step from `s`: the growth of
the number of live write requests (a write that is put back after a short or
transient completion leaves that number as it is). -/
def writes_added (s : State) (env : Env) : Nat :=
  n_writes (copy_file_step s env).ops - n_writes s.ops

/-- The state of `copy_file` together with the history of what it has queued. -/
structure Trace where
  state : State
  reads_queued : List (Int × Nat)
  writes_queued : Nat
deriving DecidableEq, Repr

/-- The start of a history. -/
def trace_init (s : State) : Trace :=
  { state := s, reads_queued := [], writes_queued := 0 }

/-- One step of `copy_file`, recorded. -/
def trace_step (t : Trace) (env : Env) : Trace :=
  { state := copy_file_step t.state env
    reads_queued := t.reads_queued ++ queued_by t.state env
    writes_queued := t.writes_queued + writes_added t.state env }

/-- A run of `copy_file`, recorded. -/
def trace_run (envs : List Env) (t : Trace) : Trace :=
  envs.foldl trace_step t

/-- Chunk `k` of a source of `N` bytes as the specification describes it:
file offset `k * BS` and length `min(BS, N - k * BS)`. -/
def chunk (N : Int) (k : Nat) : Int × Nat :=
  ((k : Int) * BS, (min (BS : Int) (N - (k : Int) * BS)).toNat)

/-- The chunks `0 .. m - 1` in order. -/
def chunks (N : Int) (m : Nat) : List (Int × Nat) :=
  (List.range m).map (chunk N)

/-- The number `ceil(N / BS)` of chunks of a source of `N` bytes. -/
def n_chunks (N : Int) : Nat :=
  ((N + ((BS : Int) - 1)) / BS).toNat

/-- The first `m` chunks have been queued, the cursor is behind them and the
rest of the source is still to be queued. -/
def ChunkInv (N : Int) (t : Trace) : Prop :=
  0 ≤ t.state.insize ∧ t.state.offset + t.state.insize = N ∧
    t.reads_queued = chunks N t.reads_queued.length ∧
    t.state.offset = min N ((t.reads_queued.length : Int) * BS) ∧
    (t.reads_queued.length : Int) * BS < N + BS

/-- Every read queued so far is in flight or has been turned into a write;
after the main loop all of them have been, and nothing is left to queue. -/
def WriteInv (t : Trace) : Prop :=
  (t.state.loc.in_main = true →
      t.writes_queued + n_reads t.state.ops = t.reads_queued.length) ∧
    (t.state.loc = Loc.drain ∨ t.state.loc = Loc.returned 0 →
      t.writes_queued = t.reads_queued.length ∧ t.state.insize = 0 ∧
        n_reads t.state.ops = 0)

/-- Answers that take a copy of exactly `BS` bytes from entry to `return 0`:
the read completes in full, then its write does. -/
def envs_one_chunk : List Env :=
  envs_one_read ++ [env_cqe 0 32768, env_idle, env_idle, env_cqe 0 32768, env_idle]

/-- The state of the five-chunk copy at 1 MB/s when it reaches the drain
loop through the `break` of line 239: after `state_budget_used` the gate
sleeps, the fill queues the fifth read, and the flush of that read fails.
The reads of chunks 1 to 3 and the write of chunk 0 are with the kernel. -/
def state_drain_with_reads : State :=
  copy_file_run [env_idle, env_idle, env_idle, env_submit_fails] state_budget_used

/-- The next state: in the drain loop the read of chunk 1 has completed in
full. -/
def state_read_freed : State :=
  copy_file_step state_drain_with_reads (env_cqe 0 32768)

/-- Answers for a copy of exactly `BS` bytes in which every call succeeds and
the read of the one chunk completes short, with 1 byte. -/
def envs_short_read : List Env :=
  envs_one_read ++ [env_cqe 0 1]

/-- The recorded run of that copy up to the short completion. -/
def trace_short_read : Trace :=
  trace_run envs_short_read
    (trace_init (copy_file_init 32768 0 { tv_sec := 0, tv_usec := 0 }
      (List.replicate 32768 7) []))

/-- A state of the main loop that cannot make progress: nothing is left to
queue, something is left to write, and no live request has been handed to the
kernel, so there is no flush to come and no completion to wait for. -/
def Stuck (s : State) : Prop :=
  (∀ r ∈ s.ops, r.submitted = false) ∧ s.insize = 0 ∧ s.write_left ≠ 0 ∧
    (s.loc = Loc.loop_head ∨ s.loc = Loc.throttle ∨
      (s.loc = Loc.fill ∧ s.had_reads = s.reads) ∨
      (s.loc = Loc.flush ∧ s.had_reads = s.reads) ∨
      s.loc = Loc.harvest ∨ s.loc = Loc.returned 1)

/-! ## Lemmas -/

theorem list_split_at {α : Type} (l : List α) (i : Nat) (a : α) (h : l[i]? = some a) :
    l = l.take i ++ a :: l.drop (i + 1) := by
  obtain ⟨hi, ha⟩ := List.getElem?_eq_some.mp h
  have h1 : l.drop i = a :: l.drop (i + 1) := by
    rw [List.drop_eq_getElem_cons hi, ha]
  calc l = l.take i ++ l.drop i := (List.take_append_drop i l).symm
    _ = l.take i ++ a :: l.drop (i + 1) := by rw [h1]

/-- What a delivered completion leaves: the request is taken out of the list,
its header is untouched, and only `ops` and `dst` of the state change. -/
theorem complete_some (s : State) (idx : Nat) (res : Int) (r : Request) (s2 : State)
    (h : complete s idx res = some (r, s2)) :
    ∃ r0 : Request, s.ops = s.ops.take idx ++ r0 :: s.ops.drop (idx + 1) ∧
      r0.submitted = true ∧ r.data = r0.data ∧ r.submitted = true ∧
      s2 = { s with ops := s.ops.take idx ++ s.ops.drop (idx + 1), dst := s2.dst } := by
  unfold complete at h
  cases hget : s.ops[idx]? with
  | none => simp [hget] at h
  | some r0 =>
    simp only [hget] at h
    refine ⟨r0, list_split_at _ _ _ hget, ?_⟩
    split at h
    · rename_i hs
      split at h
      · cases h
        exact ⟨hs, rfl, hs, rfl⟩
      · cases h
        exact ⟨hs, rfl, hs, rfl⟩
    · cases h

theorem n_reads_append (a b : List Request) : n_reads (a ++ b) = n_reads a + n_reads b := by
  simp [n_reads, List.countP_append]

theorem n_writes_append (a b : List Request) : n_writes (a ++ b) = n_writes a + n_writes b := by
  simp [n_writes, List.countP_append]

theorem n_reads_cons (r : Request) (l : List Request) :
    n_reads (r :: l) = n_reads l + (if r.data.read then 1 else 0) := by
  simp [n_reads, List.countP_cons]

theorem n_writes_cons (r : Request) (l : List Request) :
    n_writes (r :: l) = n_writes l + (if r.data.read then 0 else 1) := by
  cases h : r.data.read <;> simp [n_writes, List.countP_cons, h]

theorem n_reads_flushed (l : List Request) :
    n_reads (l.map (fun r => { r with submitted := true })) = n_reads l := by
  induction l with
  | nil => rfl
  | cons a t ih => simp [n_reads_cons, ih]

theorem n_writes_flushed (l : List Request) :
    n_writes (l.map (fun r => { r with submitted := true })) = n_writes l := by
  induction l with
  | nil => rfl
  | cons a t ih => simp [n_writes_cons, ih]

theorem countInv_of_counted (s : State) (hb : s.reads + s.writes ≤ QD) (hc : Counted s) :
    CountInv s := ⟨hb, fun _ => hc⟩

theorem countInv_of_left (s : State) (hb : s.reads + s.writes ≤ QD)
    (hl : s.loc.in_main = false) : CountInv s :=
  ⟨hb, fun h => by rw [hl] at h; cases h⟩

theorem countInv_loop_head {s : State} (hb : s.reads + s.writes ≤ QD) (hc : Counted s) :
    CountInv (loop_head_step s) := by
  unfold loop_head_step
  split
  · exact countInv_of_counted _ hb hc
  · exact countInv_of_left _ hb rfl

theorem throttle_gate_counters (s : State) (env : Env) :
    (throttle_gate s env).reads = s.reads ∧ (throttle_gate s env).writes = s.writes ∧
      (throttle_gate s env).ops = s.ops := by
  simp only [throttle_gate]
  split_ifs <;> exact ⟨rfl, rfl, rfl⟩

theorem countInv_throttle {s : State} (env : Env) (hb : s.reads + s.writes ≤ QD)
    (hc : Counted s) : CountInv (throttle_step s env) := by
  obtain ⟨h1, h2, h3⟩ := throttle_gate_counters s env
  apply countInv_of_counted _
  · show (throttle_gate s env).reads + (throttle_gate s env).writes ≤ QD
    rw [h1, h2]; exact hb
  · show (throttle_gate s env).reads = n_reads (throttle_gate s env).ops ∧
      (throttle_gate s env).writes = n_writes (throttle_gate s env).ops
    rw [h1, h2, h3]; exact hc

theorem n_reads_snoc (l : List Request) (r : Request) :
    n_reads (l ++ [r]) = n_reads l + (if r.data.read then 1 else 0) := by
  rw [n_reads_append, n_reads_cons]; simp [n_reads]

theorem n_writes_snoc (l : List Request) (r : Request) :
    n_writes (l ++ [r]) = n_writes l + (if r.data.read then 0 else 1) := by
  rw [n_writes_append, n_writes_cons]; simp [n_writes]

/-- The outcomes of one pass of the fill loop: the loop is left with nothing
queued (at most the log grows), or one read is queued. -/
theorem fill_step_cases (s : State) (env : Env) :
    (∃ lg, fill_step s env = { s with loc := Loc.flush, log := lg }) ∨
    (s.insize ≠ 0 ∧ u64 ((s.reads : Int) + (s.writes : Int)) < QD ∧
      env.malloc_ok = true ∧ sqe_available s.ops = true ∧
      ∃ l, (l = Loc.flush ∨ l = s.loc) ∧ fill_step s env = fill_queued s l) := by
  by_cases h0 : s.insize = 0
  · exact Or.inl ⟨s.log, by simp only [fill_step, h0, if_true]⟩
  by_cases h1 : QD ≤ u64 ((s.reads : Int) + (s.writes : Int))
  · exact Or.inl ⟨s.log, by simp only [fill_step, h0, h1, if_true, if_false]⟩
  have h2 : ¬ (¬ (s.insize > BS) ∧ chunk_size s.insize = 0) := by
    intro h; unfold chunk_size at h; rw [if_neg h.1] at h; exact h0 h.2
  by_cases h3 : env.malloc_ok = true
  · by_cases h4 : sqe_available s.ops = true
    · refine Or.inr ⟨h0, Nat.lt_of_not_le h1, h3, h4, ?_⟩
      by_cases h5 : s.speed_limitation > 0 ∧
          s.speed_size + chunk_size s.insize ≥ s.speed_size_limitation
      · exact ⟨Loc.flush, Or.inl rfl, by
          simp only [fill_step, queue_read, fill_queued, h0, h1, h2, h3, h4, h5, if_true,
            if_false, ne_eq, not_true_eq_false, and_self]⟩
      · exact ⟨s.loc, Or.inr rfl, by
          simp only [fill_step, queue_read, fill_queued, h0, h1, h2, h3, h4, h5, if_true,
            if_false, ne_eq, not_true_eq_false]⟩
    · exact Or.inl ⟨_, by
        simp only [fill_step, queue_read, h0, h1, h2, h3, h4, if_true, if_false, ne_eq,
          one_ne_zero, not_false_eq_true]; rfl⟩
  · exact Or.inl ⟨_, by
      simp only [fill_step, queue_read, h0, h1, h2, h3, if_true, if_false, ne_eq,
        one_ne_zero, not_false_eq_true]; rfl⟩

theorem countInv_fill {s : State} (env : Env) (hb : s.reads + s.writes ≤ QD)
    (hc : Counted s) : CountInv (fill_step s env) := by
  obtain ⟨hr, hw⟩ := hc
  rcases fill_step_cases s env with ⟨lg, h⟩ | ⟨_, hqd, _, _, l, _, h⟩
  · rw [h]; exact countInv_of_counted _ hb ⟨hr, hw⟩
  · have hb2 : s.reads + s.writes ≤ 64 := hb
    have hlt : s.reads + s.writes < 64 := by
      simp only [QD, u64] at hqd; omega
    have hu : u64 ((s.reads : Int) + 1) = s.reads + 1 := by
      simp only [u64]; omega
    rw [h]
    apply countInv_of_counted _
    · show u64 ((s.reads : Int) + 1) + s.writes ≤ QD
      rw [hu]; simp only [QD]; omega
    · refine ⟨?_, ?_⟩
      · show u64 ((s.reads : Int) + 1) = n_reads (s.ops ++ [_])
        rw [hu, n_reads_snoc, hr]; rfl
      · show s.writes = n_writes (s.ops ++ [_])
        rw [n_writes_snoc, hw]; rfl

theorem countInv_flush {s : State} (env : Env) (hb : s.reads + s.writes ≤ QD)
    (hc : Counted s) : CountInv (flush_step s env) := by
  obtain ⟨hr, hw⟩ := hc
  by_cases h1 : s.had_reads ≠ s.reads
  · by_cases h2 : env.submit_ret < 0
    · have : flush_step s env = { io_uring_submit s env.submit_ret with loc := Loc.drain } := by
        simp [flush_step, h1, h2]
      rw [this]; exact countInv_of_left _ hb rfl
    · have : flush_step s env =
          { io_uring_submit s env.submit_ret with got_comp := false, loc := Loc.harvest } := by
        simp [flush_step, h1, h2]
      rw [this]
      have h3 : 0 ≤ env.submit_ret := by omega
      refine countInv_of_counted _ hb ⟨?_, ?_⟩
      · show s.reads = n_reads (if 0 ≤ env.submit_ret then _ else _)
        rw [if_pos h3, n_reads_flushed]; exact hr
      · show s.writes = n_writes (if 0 ≤ env.submit_ret then _ else _)
        rw [if_pos h3, n_writes_flushed]; exact hw
  · have : flush_step s env = { s with got_comp := false, loc := Loc.harvest } := by
      simp [flush_step, h1]
    rw [this]; exact countInv_of_counted _ hb ⟨hr, hw⟩

/-- The outcomes of one pass of the harvest loop. -/
theorem harvest_step_cases (s : State) (env : Env) :
    harvest_step s env = s ∨
    harvest_step s env = { s with loc := Loc.loop_head } ∨
    (∃ ret, env.cqe = CqeResult.error ret ∧ ret < 0 ∧
      ((s.got_comp = true ∧ ret = -EAGAIN ∧
          harvest_step s env = { cqe_call s with loc := Loc.loop_head }) ∨
        harvest_step s env = { cqe_call s with loc := Loc.returned 1 })) ∨
    (s.write_left ≠ 0 ∧ ∃ idx res r s2, env.cqe = CqeResult.completion idx res ∧
      complete (cqe_call s) idx res = some (r, s2) ∧
      harvest_step s env = harvest_dispatch s2 r res env.submit_ret) := by
  by_cases h0 : s.write_left = 0
  · exact Or.inr (Or.inl (by simp only [harvest_step, h0, if_true]))
  cases hc : env.cqe with
  | error ret =>
    by_cases h1 : 0 ≤ ret
    · exact Or.inl (by simp only [harvest_step, h0, hc, h1, if_true, if_false])
    · refine Or.inr (Or.inr (Or.inl ⟨ret, rfl, by omega, ?_⟩))
      by_cases h2 : s.got_comp = true ∧ ret = -EAGAIN
      · exact Or.inl ⟨h2.1, h2.2, by
          simp only [harvest_step, h0, hc, if_false]; rw [if_neg h1, if_pos h2]⟩
      · exact Or.inr (by simp only [harvest_step, h0, hc, h1, h2, if_true, if_false])
  | completion idx res =>
    cases hk : complete (cqe_call s) idx res with
    | none => exact Or.inl (by simp only [harvest_step, h0, hc, hk, if_false])
    | some p =>
      obtain ⟨r, s2⟩ := p
      exact Or.inr (Or.inr (Or.inr ⟨h0, idx, res, r, s2, rfl, hk, by
        simp only [harvest_step, h0, hc, hk, if_false]⟩))

/-- The outcomes of one pass of the drain loop. -/
theorem drain_step_cases (s : State) (env : Env) :
    drain_step s env = s ∨
    (s.writes = 0 ∧ drain_step s env = { s with loc := Loc.returned 0 }) ∨
    (s.writes ≠ 0 ∧ ∃ ret, env.cqe = CqeResult.error ret ∧ ret ≠ 0 ∧
      drain_step s env = { s with log := s.log ++ [Call.wait_cqe], loc := Loc.returned 1 }) ∨
    (s.writes ≠ 0 ∧ ∃ idx res r s2, env.cqe = CqeResult.completion idx res ∧
      complete { s with log := s.log ++ [Call.wait_cqe] } idx res = some (r, s2) ∧
      ((res < 0 ∧ drain_step s env = { s2 with loc := Loc.returned 1 }) ∨
       (0 ≤ res ∧ drain_step s env =
          { s2 with
            writes := u64 ((s2.writes : Int) - 1)
            log := s2.log ++ [Call.free, Call.cqe_seen] }))) := by
  by_cases h0 : s.writes = 0
  · exact Or.inr (Or.inl ⟨h0, by simp only [drain_step, h0, if_true]⟩)
  cases hc : env.cqe with
  | error ret =>
    by_cases h1 : ret = 0
    · exact Or.inl (by simp only [drain_step, h0, hc, h1, if_true, if_false])
    · exact Or.inr (Or.inr (Or.inl ⟨h0, ret, rfl, h1, by
        simp only [drain_step, h0, hc, h1, if_false]⟩))
  | completion idx res =>
    cases hk : complete { s with log := s.log ++ [Call.wait_cqe] } idx res with
    | none => exact Or.inl (by simp only [drain_step, h0, hc, hk, if_false])
    | some p =>
      obtain ⟨r, s2⟩ := p
      refine Or.inr (Or.inr (Or.inr ⟨h0, idx, res, r, s2, rfl, hk, ?_⟩))
      by_cases h2 : res < 0
      · exact Or.inl ⟨h2, by simp only [drain_step, h0, hc, hk, h2, if_true, if_false]⟩
      · exact Or.inr ⟨by omega, by simp only [drain_step, h0, hc, hk, h2, if_false]⟩

/-- The outcomes of the dispatch of one completion in the harvest pass. -/
theorem harvest_dispatch_cases (s : State) (r : Request) (res : Int) (submit_ret : Int) :
    (res < 0 ∧ res ≠ -EAGAIN ∧
      harvest_dispatch s r res submit_ret = { s with loc := Loc.returned 1 }) ∨
    (sqe_available s.ops = false ∧
      harvest_dispatch s r res submit_ret = { s with loc := Loc.assert_failed }) ∨
    (sqe_available s.ops = true ∧ res = -EAGAIN ∧
      harvest_dispatch s r res submit_ret = requeued s r r.data) ∨
    (sqe_available s.ops = true ∧ 0 ≤ res ∧ u64 res ≠ r.data.iov.iov_len ∧
      harvest_dispatch s r res submit_ret = requeued s r (short_adjust r.data res)) ∨
    (sqe_available s.ops = true ∧ 0 ≤ res ∧ u64 res = r.data.iov.iov_len ∧
      r.data.read = true ∧ harvest_dispatch s r res submit_ret = rearmed s r submit_ret) ∨
    (0 ≤ res ∧ u64 res = r.data.iov.iov_len ∧ r.data.read = false ∧
      harvest_dispatch s r res submit_ret = released s) := by
  by_cases h0 : res < 0
  · by_cases h1 : res = -EAGAIN
    · by_cases h2 : sqe_available s.ops = true
      · refine Or.inr (Or.inr (Or.inl ⟨h2, h1, ?_⟩))
        simp only [harvest_dispatch, queue_prepped, requeued, h2, if_true]
        rw [if_pos h0, if_pos h1]
      · refine Or.inr (Or.inl ⟨by simpa using h2, ?_⟩)
        simp only [harvest_dispatch, queue_prepped, h2, if_false, Bool.false_eq_true]
        rw [if_pos h0, if_pos h1]
    · exact Or.inl ⟨h0, h1, by simp only [harvest_dispatch, h0, h1, if_true, if_false]⟩
  · have h0' : 0 ≤ res := by omega
    by_cases h1 : u64 res ≠ r.data.iov.iov_len
    · by_cases h2 : sqe_available s.ops = true
      · refine Or.inr (Or.inr (Or.inr (Or.inl ⟨h2, h0', h1, ?_⟩)))
        simp only [harvest_dispatch, queue_prepped, requeued, h0, h1, h2, if_true, if_false,
          ne_eq, not_false_eq_true]
      · refine Or.inr (Or.inl ⟨by simpa using h2, ?_⟩)
        simp only [harvest_dispatch, queue_prepped, h0, h1, h2, if_true, if_false, ne_eq,
          not_false_eq_true, Bool.false_eq_true]
    · have h1' : u64 res = r.data.iov.iov_len := by
        by_contra h; exact h1 h
      by_cases h3 : r.data.read = true
      · by_cases h2 : sqe_available s.ops = true
        · refine Or.inr (Or.inr (Or.inr (Or.inr (Or.inl ⟨h2, h0', h1', h3, ?_⟩))))
          simp only [harvest_dispatch, queue_write, queue_prepped, io_uring_submit, rearmed,
            h0, h1', h2, h3, if_true, if_false, ne_eq, not_true_eq_false]
        · refine Or.inr (Or.inl ⟨by simpa using h2, ?_⟩)
          simp only [harvest_dispatch, queue_write, queue_prepped, h0, h1', h2, h3, if_true,
            if_false, ne_eq, not_true_eq_false, Bool.false_eq_true]
      · refine Or.inr (Or.inr (Or.inr (Or.inr (Or.inr ⟨h0', h1', by simpa using h3, ?_⟩))))
        simp only [harvest_dispatch, released, h0, h1', h3, if_false, ne_eq,
          not_true_eq_false, Bool.false_eq_true]

theorem countInv_dispatch (s : State) (r : Request) (res submit_ret : Int)
    (hb : s.reads + s.writes ≤ QD)
    (hr : s.reads = n_reads s.ops + (if r.data.read then 1 else 0))
    (hw : s.writes = n_writes s.ops + (if r.data.read then 0 else 1)) :
    CountInv (harvest_dispatch s r res submit_ret) := by
  have hb2 : s.reads + s.writes ≤ 64 := hb
  rcases harvest_dispatch_cases s r res submit_ret with
    ⟨_, _, h⟩ | ⟨_, h⟩ | ⟨_, _, h⟩ | ⟨_, _, _, h⟩ | ⟨_, _, _, hread, h⟩ | ⟨_, _, hread, h⟩
  · rw [h]; exact countInv_of_left _ hb rfl
  · rw [h]; exact countInv_of_left _ hb rfl
  · rw [h]
    refine countInv_of_counted _ hb ⟨?_, ?_⟩
    · show s.reads = n_reads (s.ops ++ [_]); rw [n_reads_snoc]; exact hr
    · show s.writes = n_writes (s.ops ++ [_]); rw [n_writes_snoc]; exact hw
  · rw [h]
    refine countInv_of_counted _ hb ⟨?_, ?_⟩
    · show s.reads = n_reads (s.ops ++ [_]); rw [n_reads_snoc]; exact hr
    · show s.writes = n_writes (s.ops ++ [_]); rw [n_writes_snoc]; exact hw
  · rw [h]
    rw [hread] at hr hw
    simp only [if_true] at hr hw
    have h1 : u64 ((s.reads : Int) - 1) = s.reads - 1 := by simp only [u64]; omega
    have h2 : u64 ((s.writes : Int) + 1) = s.writes + 1 := by simp only [u64]; omega
    have h3 : n_reads (rearmed s r submit_ret).ops = n_reads s.ops := by
      show n_reads (if 0 ≤ submit_ret then _ else _) = _
      split
      · rw [n_reads_flushed, n_reads_snoc]; rfl
      · rw [n_reads_snoc]; rfl
    have h4 : n_writes (rearmed s r submit_ret).ops = n_writes s.ops + 1 := by
      show n_writes (if 0 ≤ submit_ret then _ else _) = _
      split
      · rw [n_writes_flushed, n_writes_snoc]; rfl
      · rw [n_writes_snoc]; rfl
    refine countInv_of_counted _ ?_ ⟨?_, ?_⟩
    · show u64 ((s.reads : Int) - 1) + u64 ((s.writes : Int) + 1) ≤ QD
      rw [h1, h2]; simp only [QD]; omega
    · show u64 ((s.reads : Int) - 1) = _
      rw [h1, h3]; omega
    · show u64 ((s.writes : Int) + 1) = _
      rw [h2, h4]; omega
  · rw [h]
    rw [hread] at hr hw
    simp only [Bool.false_eq_true, if_false] at hr hw
    have h2 : u64 ((s.writes : Int) - 1) = s.writes - 1 := by simp only [u64]; omega
    refine countInv_of_counted _ ?_ ⟨?_, ?_⟩
    · show s.reads + u64 ((s.writes : Int) - 1) ≤ QD
      rw [h2]; simp only [QD]; omega
    · exact hr
    · show u64 ((s.writes : Int) - 1) = n_writes s.ops
      rw [h2]; omega

/-- Taking one request out of the list: the counts by kind. -/
theorem counts_split (l : List Request) (i : Nat) (r0 : Request)
    (h : l = l.take i ++ r0 :: l.drop (i + 1)) :
    n_reads l = n_reads (l.take i ++ l.drop (i + 1)) + (if r0.data.read then 1 else 0) ∧
    n_writes l = n_writes (l.take i ++ l.drop (i + 1)) + (if r0.data.read then 0 else 1) := by
  constructor
  · conv_lhs => rw [h]
    rw [n_reads_append, n_reads_append, n_reads_cons]; omega
  · conv_lhs => rw [h]
    rw [n_writes_append, n_writes_append, n_writes_cons]; omega

theorem countInv_harvest {s : State} (env : Env) (hb : s.reads + s.writes ≤ QD)
    (hc : Counted s) : CountInv (harvest_step s env) := by
  rcases harvest_step_cases s env with h | h | ⟨_, _, _, ⟨_, _, h⟩ | h⟩ |
      ⟨_, idx, res, r, s2, _, hk, h⟩
  · rw [h]; exact countInv_of_counted _ hb hc
  · rw [h]; exact countInv_of_counted _ hb hc
  · rw [h]; exact countInv_of_counted _ hb hc
  · rw [h]; exact countInv_of_left _ hb rfl
  · rw [h]
    obtain ⟨r0, hsplit, _, hdata, _, hs2⟩ := complete_some _ _ _ _ _ hk
    obtain ⟨c1, c2⟩ := counts_split _ _ _ hsplit
    have e1 : s2.reads = s.reads := by
      have h := congrArg State.reads hs2; exact h
    have e2 : s2.writes = s.writes := by
      have h := congrArg State.writes hs2; exact h
    have e3 : s2.ops = s.ops.take idx ++ s.ops.drop (idx + 1) := by
      have h := congrArg State.ops hs2; exact h
    apply countInv_dispatch
    · rw [e1, e2]; exact hb
    · rw [e1, e3, hdata, hc.1]; exact c1
    · rw [e2, e3, hdata, hc.2]; exact c2

theorem drain_step_bound {s : State} (env : Env) (hl : s.loc = Loc.drain)
    (hb : s.reads + s.writes ≤ QD) :
    (drain_step s env).reads + (drain_step s env).writes ≤ QD ∧
      (drain_step s env).loc.in_main = false := by
  have hb2 : s.reads + s.writes ≤ 64 := hb
  have hm : s.loc.in_main = false := by rw [hl]; rfl
  rcases drain_step_cases s env with h | ⟨_, h⟩ | ⟨_, _, _, _, h⟩ |
      ⟨hw, idx, res, r, s2, _, hk, ⟨_, h⟩ | ⟨_, h⟩⟩
  · rw [h]; exact ⟨hb, hm⟩
  · rw [h]; exact ⟨hb, rfl⟩
  · rw [h]; exact ⟨hb, rfl⟩
  · rw [h]
    obtain ⟨r0, _, _, _, _, hs2⟩ := complete_some _ _ _ _ _ hk
    have e1 : s2.reads = s.reads := by
      have h := congrArg State.reads hs2; exact h
    have e2 : s2.writes = s.writes := by
      have h := congrArg State.writes hs2; exact h
    refine ⟨?_, rfl⟩
    show s2.reads + s2.writes ≤ QD
    rw [e1, e2]; exact hb
  · rw [h]
    obtain ⟨r0, _, _, _, _, hs2⟩ := complete_some _ _ _ _ _ hk
    have e1 : s2.reads = s.reads := by
      have h := congrArg State.reads hs2; exact h
    have e2 : s2.writes = s.writes := by
      have h := congrArg State.writes hs2; exact h
    have e4 : s2.loc = s.loc := by
      have h := congrArg State.loc hs2; exact h
    refine ⟨?_, ?_⟩
    · show s2.reads + u64 ((s2.writes : Int) - 1) ≤ QD
      rw [e1, e2]
      have h2 : u64 ((s.writes : Int) - 1) = s.writes - 1 := by simp only [u64]; omega
      rw [h2]; simp only [QD]; omega
    · show s2.loc.in_main = false
      rw [e4]; exact hm

/-- Every step of `copy_file` keeps the counter invariant. -/
theorem countInv_step (s : State) (env : Env) (h : CountInv s) :
    CountInv (copy_file_step s env) := by
  obtain ⟨hb, hc⟩ := h
  unfold copy_file_step
  cases hl : s.loc with
  | loop_head => exact countInv_loop_head hb (hc (by rw [hl]; rfl))
  | throttle => exact countInv_throttle env hb (hc (by rw [hl]; rfl))
  | fill => exact countInv_fill env hb (hc (by rw [hl]; rfl))
  | flush => exact countInv_flush env hb (hc (by rw [hl]; rfl))
  | harvest => exact countInv_harvest env hb (hc (by rw [hl]; rfl))
  | drain =>
    obtain ⟨h1, h2⟩ := drain_step_bound env hl hb
    exact countInv_of_left _ h1 h2
  | returned ret => exact countInv_of_left _ hb (by rw [hl]; rfl)
  | assert_failed => exact countInv_of_left _ hb (by rw [hl]; rfl)

theorem countInv_run (envs : List Env) (s : State) (h : CountInv s) :
    CountInv (copy_file_run envs s) := by
  induction envs generalizing s with
  | nil => exact h
  | cons e t ih => exact ih _ (countInv_step s e h)

theorem countInv_init (insize speed_limitation : Int) (t0 : timeval) (src dst : List Nat) :
    CountInv (copy_file_init insize speed_limitation t0 src dst) :=
  countInv_of_counted _ (Nat.zero_le QD) ⟨rfl, rfl⟩

theorem read_sum_append (a b : List Request) : read_sum (a ++ b) = read_sum a + read_sum b := by
  simp [read_sum, List.map_append, List.sum_append]

theorem read_sum_cons (r : Request) (l : List Request) :
    read_sum (r :: l) = (if r.data.read then (r.data.first_len : Int) else 0) + read_sum l := by
  simp [read_sum]

theorem read_sum_snoc (l : List Request) (r : Request) :
    read_sum (l ++ [r]) = read_sum l + (if r.data.read then (r.data.first_len : Int) else 0) := by
  rw [read_sum_append, read_sum_cons]; simp [read_sum]

theorem read_sum_flushed (l : List Request) :
    read_sum (l.map (fun r => { r with submitted := true })) = read_sum l := by
  induction l with
  | nil => rfl
  | cons a t ih => simp only [List.map_cons, read_sum_cons, ih]

theorem read_sum_nonneg (l : List Request) : 0 ≤ read_sum l := by
  induction l with
  | nil => simp [read_sum]
  | cons a t ih =>
    rw [read_sum_cons]
    split <;> omega

theorem read_sum_split (l : List Request) (i : Nat) (r0 : Request)
    (h : l = l.take i ++ r0 :: l.drop (i + 1)) :
    read_sum l = read_sum (l.take i ++ l.drop (i + 1)) +
      (if r0.data.read then (r0.data.first_len : Int) else 0) := by
  conv_lhs => rw [h]
  rw [read_sum_append, read_sum_append, read_sum_cons]; omega

theorem balInv_of_bal (s : State) (h : Balanced s) : BalInv s := fun _ => h

theorem balInv_of_left (s : State) (hl : s.loc.in_main = false) : BalInv s :=
  fun h => by rw [hl] at h; cases h

theorem throttle_gate_frame (s : State) (env : Env) :
    (throttle_gate s env).insize = s.insize ∧
      (throttle_gate s env).write_left = s.write_left ∧
      (throttle_gate s env).ops = s.ops := by
  simp only [throttle_gate]
  split_ifs <;> exact ⟨rfl, rfl, rfl⟩

theorem chunk_size_bounds (insize : Int) (h0 : 0 ≤ insize) (h1 : insize ≠ 0) :
    0 < chunk_size insize ∧ chunk_size insize ≤ insize ∧ chunk_size insize ≤ BS := by
  unfold chunk_size BS
  split <;> omega

theorem balInv_fill {s : State} (env : Env) (hbal : Balanced s) : BalInv (fill_step s env) := by
  obtain ⟨h0, hs, hlt⟩ := hbal
  rcases fill_step_cases s env with ⟨lg, h⟩ | ⟨hne, _, _, _, l, _, h⟩
  · rw [h]; exact balInv_of_bal _ ⟨h0, hs, hlt⟩
  · rw [h]
    obtain ⟨c1, c2, c3⟩ := chunk_size_bounds s.insize h0 hne
    have hu : ((u64 (chunk_size s.insize) : Nat) : Int) = chunk_size s.insize := by
      simp only [u64, BS] at *; omega
    refine balInv_of_bal _ ⟨?_, ?_, hlt⟩
    · show 0 ≤ s.insize - chunk_size s.insize
      omega
    · show s.write_left = s.insize - chunk_size s.insize + read_sum (s.ops ++ [_])
      rw [read_sum_snoc]
      show s.write_left = s.insize - chunk_size s.insize +
        (read_sum s.ops + ((u64 (chunk_size s.insize) : Nat) : Int))
      rw [hu]; omega

theorem balInv_flush {s : State} (env : Env) (hbal : Balanced s) : BalInv (flush_step s env) := by
  obtain ⟨h0, hs, hlt⟩ := hbal
  by_cases h1 : s.had_reads ≠ s.reads
  · by_cases h2 : env.submit_ret < 0
    · have : flush_step s env = { io_uring_submit s env.submit_ret with loc := Loc.drain } := by
        simp [flush_step, h1, h2]
      rw [this]; exact balInv_of_left _ rfl
    · have : flush_step s env =
          { io_uring_submit s env.submit_ret with got_comp := false, loc := Loc.harvest } := by
        simp [flush_step, h1, h2]
      rw [this]
      have h3 : 0 ≤ env.submit_ret := by omega
      refine balInv_of_bal _ ⟨h0, ?_, hlt⟩
      show s.write_left = s.insize + read_sum (if 0 ≤ env.submit_ret then _ else _)
      rw [if_pos h3, read_sum_flushed]; exact hs
  · have : flush_step s env = { s with got_comp := false, loc := Loc.harvest } := by
      simp [flush_step, h1]
    rw [this]; exact balInv_of_bal _ ⟨h0, hs, hlt⟩

theorem balInv_dispatch (s : State) (r : Request) (res submit_ret : Int)
    (h0 : 0 ≤ s.insize)
    (hs : s.write_left = s.insize + read_sum s.ops +
      (if r.data.read then (r.data.first_len : Int) else 0))
    (hlt : s.write_left < 9223372036854775808) :
    BalInv (harvest_dispatch s r res submit_ret) := by
  have hnn := read_sum_nonneg s.ops
  rcases harvest_dispatch_cases s r res submit_ret with
    ⟨_, _, h⟩ | ⟨_, h⟩ | ⟨_, _, h⟩ | ⟨_, _, _, h⟩ | ⟨_, _, _, hread, h⟩ | ⟨_, _, hread, h⟩
  · rw [h]; exact balInv_of_left _ rfl
  · rw [h]; exact balInv_of_left _ rfl
  · rw [h]
    refine balInv_of_bal _ ⟨h0, ?_, hlt⟩
    show s.write_left = s.insize + read_sum (s.ops ++ [_])
    rw [read_sum_snoc]
    show s.write_left = s.insize + (read_sum s.ops +
      (if r.data.read then (r.data.first_len : Int) else 0))
    omega
  · rw [h]
    refine balInv_of_bal _ ⟨h0, ?_, hlt⟩
    show s.write_left = s.insize + read_sum (s.ops ++ [_])
    rw [read_sum_snoc]
    show s.write_left = s.insize + (read_sum s.ops +
      (if r.data.read then (r.data.first_len : Int) else 0))
    omega
  · rw [h]
    rw [hread] at hs
    simp only [if_true] at hs
    have h1 : s64 (s.write_left - (r.data.first_len : Int)) =
        s.write_left - (r.data.first_len : Int) := by
      simp only [s64]; omega
    have h3 : read_sum (rearmed s r submit_ret).ops = read_sum s.ops := by
      show read_sum (if 0 ≤ submit_ret then _ else _) = _
      split
      · rw [read_sum_flushed, read_sum_snoc]
        show read_sum s.ops + 0 = read_sum s.ops
        omega
      · rw [read_sum_snoc]
        show read_sum s.ops + 0 = read_sum s.ops
        omega
    refine balInv_of_bal _ ⟨h0, ?_, ?_⟩
    · show s64 (s.write_left - (r.data.first_len : Int)) = s.insize + _
      rw [h1, h3]; omega
    · show s64 (s.write_left - (r.data.first_len : Int)) < _
      rw [h1]; omega
  · rw [h]
    rw [hread] at hs
    simp only [Bool.false_eq_true, if_false] at hs
    exact balInv_of_bal _ ⟨h0, by show s.write_left = s.insize + read_sum s.ops; omega, hlt⟩

theorem balInv_harvest {s : State} (env : Env) (hbal : Balanced s) :
    BalInv (harvest_step s env) := by
  rcases harvest_step_cases s env with h | h | ⟨_, _, _, ⟨_, _, h⟩ | h⟩ |
      ⟨_, idx, res, r, s2, _, hk, h⟩
  · rw [h]; exact balInv_of_bal _ hbal
  · rw [h]; exact balInv_of_bal _ hbal
  · rw [h]; exact balInv_of_bal _ hbal
  · rw [h]; exact balInv_of_left _ rfl
  · rw [h]
    obtain ⟨h0, hs, hlt⟩ := hbal
    obtain ⟨r0, hsplit, _, hdata, _, hs2⟩ := complete_some _ _ _ _ _ hk
    have c1 := read_sum_split _ _ _ hsplit
    have e1 : s2.insize = s.insize := by
      have h := congrArg State.insize hs2; exact h
    have e2 : s2.write_left = s.write_left := by
      have h := congrArg State.write_left hs2; exact h
    have e3 : s2.ops = s.ops.take idx ++ s.ops.drop (idx + 1) := by
      have h := congrArg State.ops hs2; exact h
    apply balInv_dispatch
    · rw [e1]; exact h0
    · rw [e1, e2, e3, hdata, hs]
      have c1' : read_sum s.ops = read_sum (s.ops.take idx ++ s.ops.drop (idx + 1)) +
          (if r0.data.read then (r0.data.first_len : Int) else 0) := c1
      omega
    · rw [e2]; exact hlt

theorem drain_step_left {s : State} (env : Env) (hl : s.loc = Loc.drain) :
    (drain_step s env).loc.in_main = false := by
  have hm : s.loc.in_main = false := by rw [hl]; rfl
  rcases drain_step_cases s env with h | ⟨_, h⟩ | ⟨_, _, _, _, h⟩ |
      ⟨hw, idx, res, r, s2, _, hk, ⟨_, h⟩ | ⟨_, h⟩⟩
  · rw [h]; exact hm
  · rw [h]; rfl
  · rw [h]; rfl
  · rw [h]; rfl
  · rw [h]
    obtain ⟨r0, _, _, _, _, hs2⟩ := complete_some _ _ _ _ _ hk
    have e4 : s2.loc = s.loc := by
      have h := congrArg State.loc hs2; exact h
    show s2.loc.in_main = false
    rw [e4]; exact hm

/-- Every step of `copy_file` keeps the balance of the main loop. -/
theorem balInv_step (s : State) (env : Env) (h : BalInv s) :
    BalInv (copy_file_step s env) := by
  unfold copy_file_step
  cases hl : s.loc with
  | loop_head =>
    have hb := h (by rw [hl]; rfl)
    show BalInv (loop_head_step s)
    unfold loop_head_step
    split
    · exact balInv_of_bal _ hb
    · exact balInv_of_left _ rfl
  | throttle =>
    have hb := h (by rw [hl]; rfl)
    obtain ⟨h1, h2, h3⟩ := throttle_gate_frame s env
    apply balInv_of_bal
    show 0 ≤ (throttle_gate s env).insize ∧
      (throttle_gate s env).write_left =
        (throttle_gate s env).insize + read_sum (throttle_gate s env).ops ∧
      (throttle_gate s env).write_left < 9223372036854775808
    rw [h1, h2, h3]; exact hb
  | fill => exact balInv_fill env (h (by rw [hl]; rfl))
  | flush => exact balInv_flush env (h (by rw [hl]; rfl))
  | harvest => exact balInv_harvest env (h (by rw [hl]; rfl))
  | drain =>
    exact balInv_of_left _ (drain_step_left env hl)
  | returned ret => exact balInv_of_left _ (by rw [hl]; rfl)
  | assert_failed => exact balInv_of_left _ (by rw [hl]; rfl)

theorem balInv_run (envs : List Env) (s : State) (h : BalInv s) :
    BalInv (copy_file_run envs s) := by
  induction envs generalizing s with
  | nil => exact h
  | cons e t ih => exact ih _ (balInv_step s e h)

theorem balInv_init (insize speed_limitation : Int) (t0 : timeval) (src dst : List Nat)
    (h0 : 0 ≤ insize) (h1 : insize < 9223372036854775808) :
    BalInv (copy_file_init insize speed_limitation t0 src dst) :=
  balInv_of_bal _ ⟨h0, by show insize = insize + read_sum []; simp [read_sum], h1⟩

/-! ## Further lemmas for the claims -/

theorem run_append (a b : List Env) (s : State) :
    copy_file_run (a ++ b) s = copy_file_run b (copy_file_run a s) := by
  simp [copy_file_run, List.foldl_append]

theorem run_returned (envs : List Env) (s : State) (ret : Int)
    (h : s.loc = Loc.returned ret) : copy_file_run envs s = s := by
  induction envs with
  | nil => rfl
  | cons e t ih =>
    have hs : copy_file_step s e = s := by
      unfold copy_file_step; rw [h]
    show copy_file_run t (copy_file_step s e) = s
    rw [hs]; exact ih

theorem n_reads_add_n_writes (l : List Request) : n_reads l + n_writes l = l.length := by
  induction l with
  | nil => rfl
  | cons a t ih =>
    rw [n_reads_cons, n_writes_cons, List.length_cons]
    split <;> omega

theorem sq_pending_le_length (l : List Request) : sq_pending l ≤ l.length :=
  List.countP_le_length _

theorem map_data_flushed (l : List Request) :
    (l.map (fun q : Request => { q with submitted := true })).map Request.data =
      l.map Request.data := by
  induction l with
  | nil => rfl
  | cons a t ih => simp only [List.map_cons, ih]

theorem map_payload_flushed (l : List Request) :
    (l.map (fun q : Request => { q with submitted := true })).map Request.payload =
      l.map Request.payload := by
  induction l with
  | nil => rfl
  | cons a t ih => simp only [List.map_cons, ih]

/-- Transient and short completions never touch the kind, the original offset
or the original length of a header. -/
theorem requeue_history (rs : List Int) (d : io_data) :
    (rs.foldl requeue_data d).read = d.read ∧
      (rs.foldl requeue_data d).first_offset = d.first_offset ∧
      (rs.foldl requeue_data d).first_len = d.first_len := by
  induction rs generalizing d with
  | nil => exact ⟨rfl, rfl, rfl⟩
  | cons a t ih =>
    obtain ⟨h1, h2, h3⟩ := ih (requeue_data d a)
    have e : (requeue_data d a).read = d.read ∧
        (requeue_data d a).first_offset = d.first_offset ∧
        (requeue_data d a).first_len = d.first_len := by
      unfold requeue_data
      split
      · exact ⟨rfl, rfl, rfl⟩
      · exact ⟨rfl, rfl, rfl⟩
    exact ⟨h1.trans e.1, h2.trans e.2.1, h3.trans e.2.2⟩

/-- A request that is in flight can be completed. -/
theorem complete_of_get (s : State) (idx : Nat) (res : Int) (r0 : Request)
    (hget : s.ops[idx]? = some r0) (hsub : r0.submitted = true) :
    ∃ r s2, complete s idx res = some (r, s2) := by
  unfold complete
  simp only [hget, hsub, if_true]
  split
  · exact ⟨_, _, rfl⟩
  · exact ⟨_, _, rfl⟩

/-- Up to 2047 MB/s the `int` product does not overflow and the budget is the
exact quotient. -/
theorem speed_size_limitation_of_small (V : Int) (h0 : 0 ≤ V) (h1 : V ≤ 2047) :
    speed_size_limitation_of V = V * 1024 * 1024 / 10 := by
  unfold speed_size_limitation_of s32
  have e1 : (V * 1024 + 2147483648) % 4294967296 - 2147483648 = V * 1024 := by omega
  rw [e1]
  have e2 : (V * 1024 * 1024 + 2147483648) % 4294967296 - 2147483648 = V * 1024 * 1024 := by
    omega
  rw [e2]
  exact Int.tdiv_eq_ediv (by omega) (by decide)

/-! ## The claims -/

/-- C1, refuted on the code by a concrete run: the source is `[7, 9]`, the
probed size is 2, there is no throttling and no hard error.  The read
completes in full, its write is queued and the main loop ends; in the final
drain loop the write of the two bytes completes short, with 1 byte.
`copy_file` returns 0 and the destination is `[7]`, not the first two bytes
of the source. -/
theorem copy_file_short_write_in_drain_returns_0 :
    (copy_file_run envs_to_drain
      (copy_file_init 2 0 { tv_sec := 0, tv_usec := 0 } [7, 9] [])).loc = Loc.drain ∧
    (copy_file_run envs_to_drain
      (copy_file_init 2 0 { tv_sec := 0, tv_usec := 0 } [7, 9] [])).ops =
      [{ data := { read := false, first_offset := 0, offset := 0, first_len := 2,
                   iov := { iov_base := 0, iov_len := 2 } },
         payload := [7, 9], submitted := true }] ∧
    copy_file_ret (copy_file_run (envs_to_drain ++ [env_cqe 0 1, env_idle])
      (copy_file_init 2 0 { tv_sec := 0, tv_usec := 0 } [7, 9] [])) = some 0 ∧
    (copy_file_run (envs_to_drain ++ [env_cqe 0 1, env_idle])
      (copy_file_init 2 0 { tv_sec := 0, tv_usec := 0 } [7, 9] [])).dst = [7] ∧
    (copy_file_run (envs_to_drain ++ [env_cqe 0 1, env_idle])
      (copy_file_init 2 0 { tv_sec := 0, tv_usec := 0 } [7, 9] [])).dst ≠
      List.take 2 [7, 9] := by
  decide

/-- C2: in every state of every run of `copy_file`, for every input size,
speed setting and sequence of adapter answers (so after each pass of the
pipeline fill and after each handled completion),
`reads + writes ≤ QD`. -/
theorem reads_plus_writes_le_QD (insize speed_limitation : Int) (t0 : timeval)
    (src dst : List Nat) (envs : List Env) :
    (copy_file_run envs (copy_file_init insize speed_limitation t0 src dst)).reads +
      (copy_file_run envs (copy_file_init insize speed_limitation t0 src dst)).writes ≤ QD :=
  (countInv_run envs _ (countInv_init insize speed_limitation t0 src dst)).1

/-- C3, refuted on the code by a concrete run: a one-byte copy queues its
read, the `io_uring_submit` after the fill fails with `-EBUSY`, the `break`
leaves the main loop, the drain loop has nothing to wait for and `copy_file`
returns 0 with the destination still empty. -/
theorem copy_file_submit_error_returns_0 :
    (copy_file_run [env_idle, env_idle, env_idle, env_idle]
      (copy_file_init 1 0 { tv_sec := 0, tv_usec := 0 } [5] [])).loc = Loc.flush ∧
    (copy_file_run [env_idle, env_idle, env_idle, env_idle]
      (copy_file_init 1 0 { tv_sec := 0, tv_usec := 0 } [5] [])).had_reads ≠
    (copy_file_run [env_idle, env_idle, env_idle, env_idle]
      (copy_file_init 1 0 { tv_sec := 0, tv_usec := 0 } [5] [])).reads ∧
    env_submit_fails.submit_ret < 0 ∧
    copy_file_ret (copy_file_run
      [env_idle, env_idle, env_idle, env_idle, env_submit_fails, env_idle]
      (copy_file_init 1 0 { tv_sec := 0, tv_usec := 0 } [5] [])) = some 0 ∧
    (copy_file_run
      [env_idle, env_idle, env_idle, env_idle, env_submit_fails, env_idle]
      (copy_file_init 1 0 { tv_sec := 0, tv_usec := 0 } [5] [])).dst = [] := by
  decide

/-- C4, refuted on the code by a concrete step: in the drain loop, with one
write in flight, a completion with result `-EAGAIN` makes `copy_file` return
1, and the write is not queued again. -/
theorem drain_transient_returns_1 :
    state_at_drain.loc = Loc.drain ∧ state_at_drain.writes = 1 ∧
    copy_file_ret (copy_file_step state_at_drain (env_cqe 0 (-EAGAIN))) = some 1 ∧
    (copy_file_step state_at_drain (env_cqe 0 (-EAGAIN))).ops = [] := by
  decide

/-- C5, refuted on the code by a concrete step: in the drain loop, the
completion of a 2-byte write with result 1 (short) takes `writes` from 1
to 0. -/
theorem drain_short_write_decrements_writes :
    state_at_drain.loc = Loc.drain ∧
    state_at_drain.ops.map (fun r => (r.data.read, r.data.iov.iov_len)) = [(false, 2)] ∧
    state_at_drain.writes = 1 ∧
    (copy_file_step state_at_drain (env_cqe 0 1)).writes = 0 ∧
    (copy_file_step state_at_drain (env_cqe 0 1)).ops = [] := by
  decide

/-- C6: when a completion with a negative result other than `-EAGAIN` is
handled, in the harvest pass or in the drain loop, `copy_file` returns 1 at
that step: the only call made is the one that fetched the completion, no
request is queued or submitted, the counters stay, and nothing happens
afterwards. -/
theorem hard_error_completion_returns_1 (s : State) (env : Env) (idx : Nat) (res : Int)
    (r0 : Request)
    (hphase : (s.loc = Loc.harvest ∧ s.write_left ≠ 0) ∨ (s.loc = Loc.drain ∧ s.writes ≠ 0))
    (hcqe : env.cqe = CqeResult.completion idx res)
    (hget : s.ops[idx]? = some r0) (hsub : r0.submitted = true)
    (hneg : res < 0) (hne : res ≠ -EAGAIN) :
    copy_file_ret (copy_file_step s env) = some 1 ∧
    (copy_file_step s env).ops = s.ops.take idx ++ s.ops.drop (idx + 1) ∧
    (copy_file_step s env).log = s.log ++
      [if s.loc = Loc.harvest ∧ s.got_comp = true then Call.peek_cqe else Call.wait_cqe] ∧
    (copy_file_step s env).reads = s.reads ∧
    (copy_file_step s env).writes = s.writes ∧
    ∀ envs, copy_file_run envs (copy_file_step s env) = copy_file_step s env := by
  rcases hphase with ⟨hl, hwl⟩ | ⟨hl, hw⟩
  · obtain ⟨r, s2, hk⟩ := complete_of_get (cqe_call s) idx res r0 hget hsub
    obtain ⟨_, _, _, _, _, hs2⟩ := complete_some _ _ _ _ _ hk
    have hstep : copy_file_step s env = { s2 with loc := Loc.returned 1 } := by
      unfold copy_file_step
      rw [hl]
      simp only [harvest_step, hwl, hcqe, hk, if_false, harvest_dispatch, hneg, hne, if_true]
    have hlog : s2.log = s.log ++ [if s.got_comp = true then Call.peek_cqe else Call.wait_cqe] := by
      have h := congrArg State.log hs2; exact h
    rw [hstep]
    refine ⟨rfl, ?_, ?_, ?_, ?_, fun envs => run_returned envs _ 1 rfl⟩
    · have h := congrArg State.ops hs2; exact h
    · show s2.log = _
      rw [hlog]; simp only [hl, true_and]
    · have h := congrArg State.reads hs2; exact h
    · have h := congrArg State.writes hs2; exact h
  · obtain ⟨r, s2, hk⟩ :=
      complete_of_get { s with log := s.log ++ [Call.wait_cqe] } idx res r0 hget hsub
    obtain ⟨_, _, _, _, _, hs2⟩ := complete_some _ _ _ _ _ hk
    have hstep : copy_file_step s env = { s2 with loc := Loc.returned 1 } := by
      unfold copy_file_step
      rw [hl]
      simp only [drain_step, hw, hcqe, hk, if_false, hneg, if_true]
    have hlog : s2.log = s.log ++ [Call.wait_cqe] := by
      have h := congrArg State.log hs2; exact h
    rw [hstep]
    refine ⟨rfl, ?_, ?_, ?_, ?_, fun envs => run_returned envs _ 1 rfl⟩
    · have h := congrArg State.ops hs2; exact h
    · show s2.log = _
      rw [hlog]; simp [hl]
    · have h := congrArg State.reads hs2; exact h
    · have h := congrArg State.writes hs2; exact h

/-- Witness of C6: a two-byte copy waits for its first completion and the
read fails with `-EIO`. -/
theorem hard_error_completion_returns_1_witness :
    copy_file_ret (copy_file_step
      (copy_file_run envs_one_read (copy_file_init 2 0 { tv_sec := 0, tv_usec := 0 } [7, 9] []))
      (env_cqe 0 (-5))) = some 1 :=
  (hard_error_completion_returns_1
    (copy_file_run envs_one_read (copy_file_init 2 0 { tv_sec := 0, tv_usec := 0 } [7, 9] []))
    (env_cqe 0 (-5)) 0 (-5)
    { data := queue_read_data 2 0, payload := [0, 0], submitted := true }
    (Or.inl (by decide)) rfl (by decide) rfl (by decide) (by decide)).1

/-- The harvest pass re-arms a fully read request as a write: take any run
of `copy_file` on a valid size that stands in the harvest pass, and a request queued by `queue_read` with offset `o` and length `L`
whose header has since gone through any sequence `rs` of transient and short
completions.  When its read now completes in full, the step queues it again
as one write with offset `o`, length `L` and the buffer view back at the
start of the payload, next to the untouched other requests; `reads` goes
down by 1, `writes` up by 1 and `write_left` down by `L`. -/
theorem full_read_rearmed_as_write (insize speed_limitation : Int) (t0 : timeval)
    (src dst : List Nat) (envs : List Env) (s : State) (env : Env) (idx : Nat) (res : Int)
    (r : Request) (s2 : State) (o : Int) (L : Nat) (rs : List Int)
    (h0 : 0 ≤ insize) (h1 : insize < 9223372036854775808)
    (hs : s = copy_file_run envs (copy_file_init insize speed_limitation t0 src dst))
    (hl : s.loc = Loc.harvest) (hwl : s.write_left ≠ 0)
    (hcqe : env.cqe = CqeResult.completion idx res)
    (hk : complete (cqe_call s) idx res = some (r, s2))
    (hL : (L : Int) < 18446744073709551616)
    (hist : r.data = rs.foldl requeue_data (queue_read_data L o))
    (hres : 0 ≤ res) (hfull : u64 res = r.data.iov.iov_len) :
    (copy_file_step s env).loc = Loc.harvest ∧
    (copy_file_step s env).ops.map Request.data =
      (s.ops.take idx ++ s.ops.drop (idx + 1)).map Request.data ++
        [{ read := false, first_offset := o, offset := o, first_len := L,
           iov := { iov_base := 0, iov_len := L } }] ∧
    (copy_file_step s env).ops.map Request.payload =
      (s.ops.take idx ++ s.ops.drop (idx + 1)).map Request.payload ++ [r.payload] ∧
    (copy_file_step s env).reads + 1 = s.reads ∧
    (copy_file_step s env).writes = s.writes + 1 ∧
    (copy_file_step s env).write_left = s.write_left - L := by
  have hm : s.loc.in_main = true := by rw [hl]; rfl
  have hc : CountInv s := by
    rw [hs]; exact countInv_run envs _ (countInv_init insize speed_limitation t0 src dst)
  have hb : BalInv s := by
    rw [hs]; exact balInv_run envs _ (balInv_init insize speed_limitation t0 src dst h0 h1)
  obtain ⟨hbound, hcount⟩ := hc
  obtain ⟨hr, hw⟩ := hcount hm
  obtain ⟨b0, bs, blt⟩ := hb hm
  have hbound2 : s.reads + s.writes ≤ 64 := hbound
  obtain ⟨r0, hsplit, _, hdata, _, hs2⟩ := complete_some _ _ _ _ _ hk
  have hsplit2 : s.ops = s.ops.take idx ++ r0 :: s.ops.drop (idx + 1) := hsplit
  obtain ⟨q1, q2, q3⟩ := requeue_history rs (queue_read_data L o)
  rw [← hist] at q1 q2 q3
  have q1b : r.data.read = true := q1
  have q2b : r.data.first_offset = o := q2
  have q3b : r.data.first_len = L := by
    rw [q3]; show u64 (L : Int) = L
    simp only [u64]; omega
  have hr0 : r0.data.read = true := by rw [← hdata]; exact q1b
  have hr0len : r0.data.first_len = L := by rw [← hdata]; exact q3b
  obtain ⟨c1, c2⟩ := counts_split _ _ _ hsplit2
  have c3 := read_sum_split _ _ _ hsplit2
  rw [hr0] at c1 c2 c3
  simp only [if_true] at c1 c2 c3
  rw [hr0len] at c3
  have e1 : s2.reads = s.reads := by
    have h := congrArg State.reads hs2; exact h
  have e2 : s2.writes = s.writes := by
    have h := congrArg State.writes hs2; exact h
  have e3 : s2.ops = s.ops.take idx ++ s.ops.drop (idx + 1) := by
    have h := congrArg State.ops hs2; exact h
  have e4 : s2.loc = s.loc := by
    have h := congrArg State.loc hs2; exact h
  have e5 : s2.write_left = s.write_left := by
    have h := congrArg State.write_left hs2; exact h
  have hlen := n_reads_add_n_writes (s.ops.take idx ++ s.ops.drop (idx + 1))
  have hpend := sq_pending_le_length (s.ops.take idx ++ s.ops.drop (idx + 1))
  have hav : sqe_available s2.ops = true := by
    rw [e3]; unfold sqe_available
    simp only [decide_eq_true_eq, QD]; omega
  have hnn := read_sum_nonneg (s.ops.take idx ++ s.ops.drop (idx + 1))
  have hstep : copy_file_step s env = rearmed s2 r env.submit_ret := by
    unfold copy_file_step
    rw [hl]
    have hlt : ¬ res < 0 := by omega
    simp only [harvest_step, hwl, hcqe, hk, if_false, harvest_dispatch, queue_write,
      queue_prepped, io_uring_submit, rearmed, hlt, hfull, hav, q1b, if_true, ne_eq,
      not_true_eq_false]
  rw [hstep]
  refine ⟨?_, ?_, ?_, ?_, ?_, ?_⟩
  · show s2.loc = Loc.harvest
    rw [e4]; exact hl
  · show (if 0 ≤ env.submit_ret then _ else _ : List Request).map Request.data = _
    have hd : queue_write_data r.data =
        { read := false, first_offset := o, offset := o, first_len := L,
          iov := { iov_base := 0, iov_len := L } } := by
      simp only [queue_write_data, q2b, q3b]
    split
    · rw [map_data_flushed, List.map_append, e3]
      simp only [List.map_cons, List.map_nil, hd]
    · rw [List.map_append, e3]
      simp only [List.map_cons, List.map_nil, hd]
  · show (if 0 ≤ env.submit_ret then _ else _ : List Request).map Request.payload = _
    split
    · rw [map_payload_flushed, List.map_append, e3]
      simp only [List.map_cons, List.map_nil]
    · rw [List.map_append, e3]
      simp only [List.map_cons, List.map_nil]
  · show u64 ((s2.reads : Int) - 1) + 1 = s.reads
    rw [e1]; simp only [u64]; omega
  · show u64 ((s2.writes : Int) + 1) = s.writes + 1
    rw [e2]; simp only [u64]; omega
  · show s64 (s2.write_left - (r.data.first_len : Int)) = s.write_left - L
    rw [e5, q3b]; simp only [s64]; omega

/-- An instance of the re-arming in the harvest pass: in a two-byte copy of
`[7, 9]` the read of the one chunk completes in full. -/
theorem full_read_rearmed_as_write_witness :
    (copy_file_step
      (copy_file_run envs_one_read (copy_file_init 2 0 { tv_sec := 0, tv_usec := 0 } [7, 9] []))
      (env_cqe 0 2)).ops.map Request.data =
      [{ read := false, first_offset := 0, offset := 0, first_len := 2,
         iov := { iov_base := 0, iov_len := 2 } }] ∧
    (copy_file_step
      (copy_file_run envs_one_read (copy_file_init 2 0 { tv_sec := 0, tv_usec := 0 } [7, 9] []))
      (env_cqe 0 2)).write_left = 2 - 2 :=
  have h := full_read_rearmed_as_write 2 0 { tv_sec := 0, tv_usec := 0 } [7, 9] []
    envs_one_read
    (copy_file_run envs_one_read (copy_file_init 2 0 { tv_sec := 0, tv_usec := 0 } [7, 9] []))
    (env_cqe 0 2) 0 2
    { data := queue_read_data 2 0, payload := [7, 9], submitted := true }
    { cqe_call (copy_file_run envs_one_read
        (copy_file_init 2 0 { tv_sec := 0, tv_usec := 0 } [7, 9] [])) with ops := [] }
    0 2 []
    (by decide) (by decide) rfl (by decide) (by decide) rfl (by decide) (by decide) rfl
    (by decide) (by decide)
  ⟨h.2.1, h.2.2.2.2.2⟩

/-- C7, refuted on the code by a concrete run: a copy of five chunks at
1 MB/s.  Four reads use up the budget and are flushed, the read of chunk 0
completes and becomes a write, the gate sleeps, the fifth read is queued, and
the `io_uring_submit` of line 236 fails: `break` leads to the drain loop with
`writes = 1`.  There the read queued by `queue_read` at offset 32768 with
length 32768 completes in full.  The drain loop frees it: no write is queued
for it, `reads` stays 4, `writes` goes from 1 to 0 and `write_left` stays
131072; `copy_file` then returns 0 with nothing written. -/
theorem drain_frees_fully_read_request :
    state_drain_with_reads.loc = Loc.drain ∧
    (state_drain_with_reads.ops.map (fun r => (r.data, r.submitted)))[0]? =
      some (queue_read_data 32768 32768, true) ∧
    state_drain_with_reads.reads = 4 ∧ state_drain_with_reads.writes = 1 ∧
    state_drain_with_reads.write_left = 131072 ∧
    n_writes state_drain_with_reads.ops = 1 ∧
    state_read_freed.loc = Loc.drain ∧
    state_read_freed.log =
      state_drain_with_reads.log ++ [Call.wait_cqe, Call.free, Call.cqe_seen] ∧
    state_read_freed.ops.map (fun r => (r.data.read, r.data.offset, r.data.iov.iov_len)) =
      [(true, 65536, 32768), (true, 98304, 32768), (false, 0, 32768),
       (true, 131072, 32768)] ∧
    n_writes state_read_freed.ops = 1 ∧
    state_read_freed.reads = 4 ∧ state_read_freed.writes = 0 ∧
    state_read_freed.write_left = 131072 ∧
    copy_file_ret (copy_file_step state_read_freed env_idle) = some 0 ∧
    (copy_file_step state_read_freed env_idle).dst = [] := by
  decide

/-- C8, refuted on the code by a concrete argument: for `--speed 4294967297`
the C library reads the whole text as 4294967297 without a range error, the
macro keeps the low 32 bits, and `main` goes on with `speed_limitation = 1`.
The argument is accepted although its value is above `2^31 - 1`, and the
configured speed differs from it. -/
theorem main_accepts_speed_4294967297_as_1 :
    strtoul ['4', '2', '9', '4', '9', '6', '7', '2', '9', '7'] 0 = (4294967297, [], 0) ∧
    main_case_S ['4', '2', '9', '4', '9', '6', '7', '2', '9', '7'] 0 = Except.ok 1 ∧
    ¬ ((4294967297 : Int) ≤ 2 ^ 31 - 1) :=
  ⟨rfl, rfl, by decide⟩

/-- C9, refuted on the code by a concrete value: `--speed 2048` is accepted,
and the budget computed in `int` arithmetic is `-214748364`, because
`2048 * 1024 * 1024 = 2^31` does not fit an `int`; the value of
`2048 * 1024 * 1024 / 10` is `214748364`. -/
theorem speed_size_limitation_overflows_at_2048 :
    main_case_S ['2', '0', '4', '8'] 0 = Except.ok 2048 ∧
    speed_size_limitation_of 2048 = -214748364 ∧
    speed_size_limitation_of 2048 ≠ 2048 * 1024 * 1024 / 10 :=
  ⟨rfl, by decide, by decide⟩

/-- C10: for a source of size 0 and every speed setting, whatever the adapter
would answer, `copy_file` never has a request queued, makes no outside call
after entry (no `malloc`, no submission entry, no submit, no completion
wait), leaves the destination as it is, and has returned 0 after the two
tests of lines 190 and 306. -/
theorem copy_file_zero_size (speed_limitation : Int) (t0 : timeval) (src dst : List Nat) :
    (∀ envs : List Env,
      (copy_file_run envs (copy_file_init 0 speed_limitation t0 src dst)).ops = [] ∧
      (copy_file_run envs (copy_file_init 0 speed_limitation t0 src dst)).log =
        (if speed_limitation > 0 then [Call.gettimeofday] else []) ∧
      (copy_file_run envs (copy_file_init 0 speed_limitation t0 src dst)).dst = dst) ∧
    (∀ (e1 e2 : Env) (envs : List Env),
      copy_file_ret (copy_file_run (e1 :: e2 :: envs)
        (copy_file_init 0 speed_limitation t0 src dst)) = some 0) := by
  have step1 : ∀ e : Env, copy_file_step (copy_file_init 0 speed_limitation t0 src dst) e =
      { copy_file_init 0 speed_limitation t0 src dst with loc := Loc.drain } := by
    intro e; rfl
  have step2 : ∀ e : Env,
      copy_file_step { copy_file_init 0 speed_limitation t0 src dst with loc := Loc.drain } e =
      { copy_file_init 0 speed_limitation t0 src dst with loc := Loc.returned 0 } := by
    intro e; rfl
  have two : ∀ (e1 e2 : Env) (envs : List Env),
      copy_file_run (e1 :: e2 :: envs) (copy_file_init 0 speed_limitation t0 src dst) =
      { copy_file_init 0 speed_limitation t0 src dst with loc := Loc.returned 0 } := by
    intro e1 e2 envs
    show copy_file_run envs (copy_file_step (copy_file_step _ e1) e2) = _
    rw [step1, step2]
    exact run_returned envs _ 0 rfl
  constructor
  · intro envs
    match envs with
    | [] => exact ⟨rfl, rfl, rfl⟩
    | [e1] =>
      have one : copy_file_run [e1] (copy_file_init 0 speed_limitation t0 src dst) =
          copy_file_step (copy_file_init 0 speed_limitation t0 src dst) e1 := rfl
      rw [one, step1]; exact ⟨rfl, rfl, rfl⟩
    | e1 :: e2 :: t =>
      rw [two]; exact ⟨rfl, rfl, rfl⟩
  · intro e1 e2 envs
    rw [two]; rfl

/-! ## Frames -/

theorem sameInput_refl (s : State) : SameInput s s :=
  ⟨rfl, rfl, rfl, rfl, rfl, rfl, rfl⟩

theorem sameInput_trans {a b c : State} (h1 : SameInput a b) (h2 : SameInput b c) :
    SameInput a c := by
  obtain ⟨a1, a2, a3, a4, a5, a6, a7⟩ := h1
  obtain ⟨b1, b2, b3, b4, b5, b6, b7⟩ := h2
  exact ⟨b1.trans a1, b2.trans a2, b3.trans a3, b4.trans a4, b5.trans a5, b6.trans a6,
    b7.trans a7⟩

/-- A delivered completion leaves every variable of `copy_file` as it was. -/
theorem complete_sameInput (s : State) (idx : Nat) (res : Int) (r : Request) (s2 : State)
    (h : complete s idx res = some (r, s2)) :
    SameInput s s2 ∧ s2.loc = s.loc ∧ s2.reads = s.reads ∧ s2.writes = s.writes ∧
      s2.write_left = s.write_left ∧ s2.log = s.log ∧ s2.got_comp = s.got_comp ∧
      s2.had_reads = s.had_reads := by
  obtain ⟨_, _, _, _, _, hs2⟩ := complete_some _ _ _ _ _ h
  refine ⟨⟨?_, ?_, ?_, ?_, ?_, ?_, ?_⟩, ?_, ?_, ?_, ?_, ?_, ?_, ?_⟩
  · have h := congrArg State.insize hs2; exact h
  · have h := congrArg State.offset hs2; exact h
  · have h := congrArg State.speed_size hs2; exact h
  · have h := congrArg State.speed_limitation hs2; exact h
  · have h := congrArg State.speed_size_limitation hs2; exact h
  · have h := congrArg State.speed_time hs2; exact h
  · have h := congrArg State.src hs2; exact h
  · have h := congrArg State.loc hs2; exact h
  · have h := congrArg State.reads hs2; exact h
  · have h := congrArg State.writes hs2; exact h
  · have h := congrArg State.write_left hs2; exact h
  · have h := congrArg State.log hs2; exact h
  · have h := congrArg State.got_comp hs2; exact h
  · have h := congrArg State.had_reads hs2; exact h

/-- The dispatch of a completion writes none of the input variables and ends
in the control point it started from, in `returned 1` or in the failed
assertion. -/
theorem harvest_dispatch_frame (s : State) (r : Request) (res submit_ret : Int) :
    SameInput s (harvest_dispatch s r res submit_ret) ∧
      ((harvest_dispatch s r res submit_ret).loc = s.loc ∨
       (harvest_dispatch s r res submit_ret).loc = Loc.returned 1 ∨
       (harvest_dispatch s r res submit_ret).loc = Loc.assert_failed) := by
  rcases harvest_dispatch_cases s r res submit_ret with
    ⟨_, _, h⟩ | ⟨_, h⟩ | ⟨_, _, h⟩ | ⟨_, _, _, h⟩ | ⟨_, _, _, _, h⟩ | ⟨_, _, _, h⟩
  · rw [h]; exact ⟨sameInput_refl s, Or.inr (Or.inl rfl)⟩
  · rw [h]; exact ⟨sameInput_refl s, Or.inr (Or.inr rfl)⟩
  · rw [h]; exact ⟨sameInput_refl s, Or.inl rfl⟩
  · rw [h]; exact ⟨sameInput_refl s, Or.inl rfl⟩
  · rw [h]; exact ⟨sameInput_refl s, Or.inl rfl⟩
  · rw [h]; exact ⟨sameInput_refl s, Or.inl rfl⟩

/-- Outside the throttle gate and the pipeline fill a step writes none of the
input variables, and it never enters the fill. -/
theorem step_sameInput (s : State) (env : Env) (h1 : s.loc ≠ Loc.throttle)
    (h2 : s.loc ≠ Loc.fill) :
    SameInput s (copy_file_step s env) ∧ (copy_file_step s env).loc ≠ Loc.fill := by
  unfold copy_file_step
  cases hl : s.loc with
  | loop_head =>
    show SameInput s (loop_head_step s) ∧ (loop_head_step s).loc ≠ Loc.fill
    unfold loop_head_step
    split
    · exact ⟨sameInput_refl s, by simp⟩
    · exact ⟨sameInput_refl s, by simp⟩
  | throttle => exact absurd hl h1
  | fill => exact absurd hl h2
  | flush =>
    show SameInput s (flush_step s env) ∧ (flush_step s env).loc ≠ Loc.fill
    simp only [flush_step, io_uring_submit]
    split_ifs <;> exact ⟨sameInput_refl s, by simp⟩
  | harvest =>
    show SameInput s (harvest_step s env) ∧ (harvest_step s env).loc ≠ Loc.fill
    rcases harvest_step_cases s env with h | h | ⟨_, _, _, ⟨_, _, h⟩ | h⟩ |
        ⟨_, idx, res, r, s2, _, hk, h⟩
    · rw [h]; exact ⟨sameInput_refl s, h2⟩
    · rw [h]; exact ⟨sameInput_refl s, by simp⟩
    · rw [h]; exact ⟨sameInput_refl s, by simp⟩
    · rw [h]; exact ⟨sameInput_refl s, by simp⟩
    · rw [h]
      obtain ⟨f1, f2, _⟩ := complete_sameInput _ _ _ _ _ hk
      have f1b : SameInput s s2 := f1
      have f2b : s2.loc = Loc.harvest := by rw [f2]; exact hl
      obtain ⟨g1, g2⟩ := harvest_dispatch_frame s2 r res env.submit_ret
      refine ⟨sameInput_trans f1b g1, ?_⟩
      rcases g2 with g | g | g
      · rw [g, f2b]; simp
      · rw [g]; simp
      · rw [g]; simp
  | drain =>
    show SameInput s (drain_step s env) ∧ (drain_step s env).loc ≠ Loc.fill
    rcases drain_step_cases s env with h | ⟨_, h⟩ | ⟨_, _, _, _, h⟩ |
        ⟨_, idx, res, r, s2, _, hk, ⟨_, h⟩ | ⟨_, h⟩⟩
    · rw [h]; exact ⟨sameInput_refl s, h2⟩
    · rw [h]; exact ⟨sameInput_refl s, by simp⟩
    · rw [h]; exact ⟨sameInput_refl s, by simp⟩
    · rw [h]
      obtain ⟨f1, _⟩ := complete_sameInput _ _ _ _ _ hk
      have f1b : SameInput s s2 := f1
      exact ⟨f1b, by simp⟩
    · rw [h]
      obtain ⟨f1, f2, _⟩ := complete_sameInput _ _ _ _ _ hk
      have f1b : SameInput s s2 := f1
      have f2b : s2.loc = Loc.drain := by rw [f2]; exact hl
      refine ⟨f1b, ?_⟩
      show s2.loc ≠ Loc.fill
      rw [f2b]; simp
  | returned ret => exact ⟨sameInput_refl s, by rw [hl]; simp⟩
  | assert_failed => exact ⟨sameInput_refl s, by rw [hl]; simp⟩

/-- The rate, the budget and the source never change. -/
theorem step_constants (s : State) (env : Env) :
    (copy_file_step s env).speed_limitation = s.speed_limitation ∧
      (copy_file_step s env).speed_size_limitation = s.speed_size_limitation ∧
      (copy_file_step s env).src = s.src := by
  by_cases h1 : s.loc = Loc.throttle
  · unfold copy_file_step
    rw [h1]
    show (throttle_gate s env).speed_limitation = _ ∧
      (throttle_gate s env).speed_size_limitation = _ ∧ (throttle_gate s env).src = _
    simp only [throttle_gate]
    split_ifs <;> exact ⟨rfl, rfl, rfl⟩
  by_cases h2 : s.loc = Loc.fill
  · unfold copy_file_step
    rw [h2]
    show (fill_step s env).speed_limitation = _ ∧
      (fill_step s env).speed_size_limitation = _ ∧ (fill_step s env).src = _
    rcases fill_step_cases s env with ⟨lg, h⟩ | ⟨_, _, _, _, l, _, h⟩
    · rw [h]; exact ⟨rfl, rfl, rfl⟩
    · rw [h]; exact ⟨rfl, rfl, rfl⟩
  obtain ⟨⟨_, _, _, a, b, _, c⟩, _⟩ := step_sameInput s env h1 h2
  exact ⟨a, b, c⟩

theorem run_constants (envs : List Env) (s : State) :
    (copy_file_run envs s).speed_limitation = s.speed_limitation ∧
      (copy_file_run envs s).speed_size_limitation = s.speed_size_limitation ∧
      (copy_file_run envs s).src = s.src := by
  induction envs generalizing s with
  | nil => exact ⟨rfl, rfl, rfl⟩
  | cons e t ih =>
    obtain ⟨a, b, c⟩ := ih (copy_file_step s e)
    obtain ⟨a2, b2, c2⟩ := step_constants s e
    exact ⟨a.trans a2, b.trans b2, c.trans c2⟩

theorem length_flushed (l : List Request) :
    (l.map (fun q : Request => { q with submitted := true })).length = l.length :=
  List.length_map _ _

theorem length_split (l : List Request) (i : Nat) (r0 : Request)
    (h : l = l.take i ++ r0 :: l.drop (i + 1)) :
    l.length = (l.take i ++ l.drop (i + 1)).length + 1 := by
  conv_lhs => rw [h]
  simp only [List.length_append, List.length_cons]
  omega

/-- In the main loop a completion that has been delivered leaves a free
submission entry. -/
theorem sqe_available_after_complete (s : State) (idx : Nat) (res : Int) (r : Request)
    (s2 : State) (hb : s.reads + s.writes ≤ QD) (hc : Counted s)
    (hk : complete s idx res = some (r, s2)) : sqe_available s2.ops = true := by
  obtain ⟨r0, hsplit, _, _, _, hs2⟩ := complete_some _ _ _ _ _ hk
  have e3 : s2.ops = s.ops.take idx ++ s.ops.drop (idx + 1) := by
    have h := congrArg State.ops hs2; exact h
  have hlen := length_split _ _ _ hsplit
  have hsum := n_reads_add_n_writes s.ops
  have hpend := sq_pending_le_length (s.ops.take idx ++ s.ops.drop (idx + 1))
  have hb2 : s.reads + s.writes ≤ 64 := hb
  obtain ⟨c1, c2⟩ := hc
  rw [e3]; unfold sqe_available
  simp only [decide_eq_true_eq, QD]; omega

theorem safeInv_dispatch (s : State) (r : Request) (res submit_ret : Int)
    (hl : s.loc ≠ Loc.assert_failed)
    (hav : sqe_available s.ops = true)
    (hlen : s.ops.length + 1 ≤ s.reads + s.writes)
    (hb : s.reads + s.writes ≤ QD)
    (hr : r.data.read = true → 1 ≤ s.reads)
    (hw : r.data.read = false → 1 ≤ s.writes) :
    SafeInv (harvest_dispatch s r res submit_ret) := by
  have hb2 : s.reads + s.writes ≤ 64 := hb
  rcases harvest_dispatch_cases s r res submit_ret with
    ⟨_, _, h⟩ | ⟨hna, h⟩ | ⟨_, _, h⟩ | ⟨_, _, _, h⟩ | ⟨_, _, _, hread, h⟩ | ⟨_, _, hread, h⟩
  · rw [h]; exact ⟨by simp, by show s.ops.length ≤ s.reads + s.writes; omega⟩
  · rw [hav] at hna; cases hna
  · rw [h]
    refine ⟨hl, ?_⟩
    show (s.ops ++ [_]).length ≤ s.reads + s.writes
    simp only [List.length_append, List.length_singleton]; omega
  · rw [h]
    refine ⟨hl, ?_⟩
    show (s.ops ++ [_]).length ≤ s.reads + s.writes
    simp only [List.length_append, List.length_singleton]; omega
  · rw [h]
    have h1 := hr hread
    have e1 : u64 ((s.reads : Int) - 1) = s.reads - 1 := by simp only [u64]; omega
    have e2 : u64 ((s.writes : Int) + 1) = s.writes + 1 := by simp only [u64]; omega
    refine ⟨hl, ?_⟩
    show (if 0 ≤ submit_ret then _ else _ : List Request).length ≤
      u64 ((s.reads : Int) - 1) + u64 ((s.writes : Int) + 1)
    rw [e1, e2]
    split
    · rw [length_flushed]
      simp only [List.length_append, List.length_singleton]; omega
    · simp only [List.length_append, List.length_singleton]; omega
  · rw [h]
    have h1 := hw hread
    have e2 : u64 ((s.writes : Int) - 1) = s.writes - 1 := by simp only [u64]; omega
    refine ⟨hl, ?_⟩
    show s.ops.length ≤ s.reads + u64 ((s.writes : Int) - 1)
    rw [e2]; omega

/-- A request of the given kind in the list makes its count positive. -/
theorem counts_pos_of_split (l : List Request) (i : Nat) (r0 : Request)
    (h : l = l.take i ++ r0 :: l.drop (i + 1)) :
    (r0.data.read = true → 1 ≤ n_reads l) ∧ (r0.data.read = false → 1 ≤ n_writes l) := by
  obtain ⟨c1, c2⟩ := counts_split l i r0 h
  constructor
  · intro hr; rw [hr] at c1; simp only [if_true] at c1; omega
  · intro hr; rw [hr] at c2; simp only [Bool.false_eq_true, if_false] at c2; omega

/-- Every step keeps the assertion of `queue_prepped` unfailed and the live
requests covered by the counters. -/
theorem safeInv_step (s : State) (env : Env) (hc : CountInv s) (h : SafeInv s) :
    SafeInv (copy_file_step s env) := by
  obtain ⟨hb, hcount⟩ := hc
  obtain ⟨hna, hlen⟩ := h
  have hb2 : s.reads + s.writes ≤ 64 := hb
  unfold copy_file_step
  cases hl : s.loc with
  | loop_head =>
    show SafeInv (loop_head_step s)
    unfold loop_head_step
    split
    · exact ⟨by simp, hlen⟩
    · exact ⟨by simp, hlen⟩
  | throttle =>
    obtain ⟨h1, h2, h3⟩ := throttle_gate_counters s env
    refine ⟨by show Loc.fill ≠ _; simp, ?_⟩
    show (throttle_gate s env).ops.length ≤
      (throttle_gate s env).reads + (throttle_gate s env).writes
    rw [h1, h2, h3]; exact hlen
  | fill =>
    show SafeInv (fill_step s env)
    rcases fill_step_cases s env with ⟨lg, h⟩ | ⟨_, hqd, _, _, l, hlc, h⟩
    · rw [h]; exact ⟨by simp, hlen⟩
    · rw [h]
      have hlt : s.reads + s.writes < 64 := by
        simp only [QD, u64] at hqd; omega
      have hu : u64 ((s.reads : Int) + 1) = s.reads + 1 := by
        simp only [u64]; omega
      refine ⟨?_, ?_⟩
      · show l ≠ Loc.assert_failed
        rcases hlc with hx | hx
        · rw [hx]; simp
        · rw [hx, hl]; simp
      · show (s.ops ++ [_]).length ≤ u64 ((s.reads : Int) + 1) + s.writes
        rw [hu]
        simp only [List.length_append, List.length_singleton]; omega
  | flush =>
    show SafeInv (flush_step s env)
    simp only [flush_step, io_uring_submit]
    split_ifs
    all_goals first
      | exact ⟨by simp, hlen⟩
      | exact ⟨by simp, by
          show (s.ops.map _).length ≤ s.reads + s.writes
          rw [List.length_map]; exact hlen⟩
  | harvest =>
    show SafeInv (harvest_step s env)
    have hcnt : Counted s := hcount (by rw [hl]; rfl)
    rcases harvest_step_cases s env with h | h | ⟨_, _, _, ⟨_, _, h⟩ | h⟩ |
        ⟨_, idx, res, r, s2, _, hk, h⟩
    · rw [h]; exact ⟨hna, hlen⟩
    · rw [h]; exact ⟨by simp, hlen⟩
    · rw [h]; exact ⟨by simp, hlen⟩
    · rw [h]; exact ⟨by simp, hlen⟩
    · rw [h]
      have hcnt2 : Counted (cqe_call s) := hcnt
      have hav := sqe_available_after_complete (cqe_call s) idx res r s2 hb hcnt2 hk
      obtain ⟨r0, hsplit, _, hdata, _, hs2⟩ := complete_some _ _ _ _ _ hk
      obtain ⟨_, f2, f3, f4, _⟩ := complete_sameInput _ _ _ _ _ hk
      have hsplit2 : s.ops = s.ops.take idx ++ r0 :: s.ops.drop (idx + 1) := hsplit
      have e3 : s2.ops = s.ops.take idx ++ s.ops.drop (idx + 1) := by
        have h := congrArg State.ops hs2; exact h
      have f3b : s2.reads = s.reads := f3
      have f4b : s2.writes = s.writes := f4
      have hlen2 := length_split _ _ _ hsplit2
      have hsum := n_reads_add_n_writes s.ops
      obtain ⟨p1, p2⟩ := counts_pos_of_split _ _ _ hsplit2
      obtain ⟨c1, c2⟩ := hcnt
      apply safeInv_dispatch
      · rw [f2]; show s.loc ≠ _; rw [hl]; simp
      · exact hav
      · rw [e3, f3b, f4b]; omega
      · rw [f3b, f4b]; exact hb
      · intro hr; rw [f3b, c1]; exact p1 (by rw [← hdata]; exact hr)
      · intro hr; rw [f4b, c2]; exact p2 (by rw [← hdata]; exact hr)
  | drain =>
    show SafeInv (drain_step s env)
    rcases drain_step_cases s env with h | ⟨_, h⟩ | ⟨_, _, _, _, h⟩ |
        ⟨hw, idx, res, r, s2, _, hk, ⟨_, h⟩ | ⟨_, h⟩⟩
    · rw [h]; exact ⟨hna, hlen⟩
    · rw [h]; exact ⟨by simp, hlen⟩
    · rw [h]; exact ⟨by simp, hlen⟩
    · rw [h]
      obtain ⟨r0, hsplit, _, _, _, hs2⟩ := complete_some _ _ _ _ _ hk
      obtain ⟨_, _, f3, f4, _⟩ := complete_sameInput _ _ _ _ _ hk
      have hsplit2 : s.ops = s.ops.take idx ++ r0 :: s.ops.drop (idx + 1) := hsplit
      have e3 : s2.ops = s.ops.take idx ++ s.ops.drop (idx + 1) := by
        have h := congrArg State.ops hs2; exact h
      have f3b : s2.reads = s.reads := f3
      have f4b : s2.writes = s.writes := f4
      have hlen2 := length_split _ _ _ hsplit2
      refine ⟨by simp, ?_⟩
      show s2.ops.length ≤ s2.reads + s2.writes
      rw [e3, f3b, f4b]; omega
    · rw [h]
      obtain ⟨r0, hsplit, _, _, _, hs2⟩ := complete_some _ _ _ _ _ hk
      obtain ⟨_, f2, f3, f4, _⟩ := complete_sameInput _ _ _ _ _ hk
      have hsplit2 : s.ops = s.ops.take idx ++ r0 :: s.ops.drop (idx + 1) := hsplit
      have e3 : s2.ops = s.ops.take idx ++ s.ops.drop (idx + 1) := by
        have h := congrArg State.ops hs2; exact h
      have f3b : s2.reads = s.reads := f3
      have f4b : s2.writes = s.writes := f4
      have hlen2 := length_split _ _ _ hsplit2
      have e2 : u64 ((s.writes : Int) - 1) = s.writes - 1 := by simp only [u64]; omega
      refine ⟨?_, ?_⟩
      · show s2.loc ≠ _
        rw [f2]; show s.loc ≠ _; rw [hl]; simp
      · show s2.ops.length ≤ s2.reads + u64 ((s2.writes : Int) - 1)
        rw [e3, f3b, f4b, e2]; omega
  | returned ret => exact ⟨hna, hlen⟩
  | assert_failed => exact absurd hl hna

theorem safeInv_run (envs : List Env) (s : State) (hc : CountInv s) (h : SafeInv s) :
    SafeInv (copy_file_run envs s) := by
  induction envs generalizing s with
  | nil => exact h
  | cons e t ih => exact ih _ (countInv_step s e hc) (safeInv_step s e hc h)

theorem safeInv_init (insize speed_limitation : Int) (t0 : timeval) (src dst : List Nat) :
    SafeInv (copy_file_init insize speed_limitation t0 src dst) :=
  ⟨by show Loc.loop_head ≠ _; simp, Nat.zero_le _⟩

/-- The call `queue_read` returns 0 exactly when `malloc` succeeds and a
submission entry is free. -/
theorem queue_read_ret (s : State) (malloc_ok : Bool) (size offset : Int) :
    (queue_read s malloc_ok size offset).2 = 0 ↔
      (malloc_ok = true ∧ sqe_available s.ops = true) := by
  unfold queue_read
  cases malloc_ok
  · simp
  · cases sqe_available s.ops
    · simp
    · simp

/-- What `complete` hands back is the request found at `idx`, after the
transfer. -/
theorem complete_request (s : State) (idx : Nat) (res : Int) (r : Request) (s2 : State)
    (h : complete s idx res = some (r, s2)) :
    ∃ r0 : Request, s.ops[idx]? = some r0 ∧ r0.submitted = true ∧
      r = after_io s.src r0 res := by
  unfold complete at h
  cases hget : s.ops[idx]? with
  | none => simp [hget] at h
  | some r0 =>
    simp only [hget] at h
    refine ⟨r0, rfl, ?_⟩
    split at h
    · rename_i hs
      unfold after_io
      split at h
      · rename_i hr
        cases h
        exact ⟨hs, by rw [if_pos hr]⟩
      · rename_i hr
        cases h
        exact ⟨hs, by rw [if_neg hr]⟩
    · cases h

theorem after_io_data (src : List Nat) (r : Request) (res : Int) :
    (after_io src r res).data = r.data := by
  unfold after_io
  split <;> rfl

theorem mem_of_mem_removed {α : Type} (l : List α) (i : Nat) (a : α)
    (h : a ∈ l.take i ++ l.drop (i + 1)) : a ∈ l := by
  rcases List.mem_append.mp h with h1 | h1
  · exact List.mem_of_mem_take h1
  · exact List.mem_of_mem_drop h1

theorem mem_of_getElem? {α : Type} (l : List α) (i : Nat) (a : α) (h : l[i]? = some a) :
    a ∈ l := by
  obtain ⟨hi, ha⟩ := List.getElem?_eq_some.mp h
  rw [← ha]; exact List.getElem_mem hi

/-- A property of requests that holds for what `queue_read` creates and
survives flushing and the three ways the harvest pass puts a request back
holds for every live request after any step. -/
theorem ops_forall_step (P : Request → Prop) (s : State) (env : Env)
    (hP : ∀ r ∈ s.ops, P r)
    (hflush : ∀ r, P r → P { r with submitted := true })
    (hnew : s.loc = Loc.fill → s.insize ≠ 0 →
      P { data := queue_read_data (chunk_size s.insize) s.offset
          payload := List.replicate (u64 (chunk_size s.insize)) 0
          submitted := false })
    (htrans : ∀ idx r0, env.cqe = CqeResult.completion idx (-EAGAIN) →
      s.ops[idx]? = some r0 → P r0 →
      P { after_io s.src r0 (-EAGAIN) with data := r0.data, submitted := false })
    (hshort : ∀ idx res r0, env.cqe = CqeResult.completion idx res →
      s.ops[idx]? = some r0 → P r0 → 0 ≤ res → u64 res ≠ r0.data.iov.iov_len →
      P { after_io s.src r0 res with data := short_adjust r0.data res, submitted := false })
    (hfull : ∀ idx res r0, env.cqe = CqeResult.completion idx res →
      s.ops[idx]? = some r0 → P r0 → 0 ≤ res → u64 res = r0.data.iov.iov_len →
      r0.data.read = true →
      P { after_io s.src r0 res with data := queue_write_data r0.data, submitted := false }) :
    ∀ r ∈ (copy_file_step s env).ops, P r := by
  have hmap : ∀ l : List Request, (∀ r ∈ l, P r) →
      ∀ r ∈ l.map (fun q : Request => { q with submitted := true }), P r := by
    intro l hl r hr
    obtain ⟨q, hq, rfl⟩ := List.mem_map.mp hr
    exact hflush q (hl q hq)
  have hsnoc : ∀ (l : List Request) (x : Request), (∀ r ∈ l, P r) → P x →
      ∀ r ∈ l ++ [x], P r := by
    intro l x hl hx r hr
    rcases List.mem_append.mp hr with h1 | h1
    · exact hl r h1
    · rw [List.mem_singleton.mp h1]; exact hx
  unfold copy_file_step
  cases hl : s.loc with
  | loop_head =>
    show ∀ r ∈ (loop_head_step s).ops, P r
    unfold loop_head_step
    split <;> exact hP
  | throttle =>
    obtain ⟨_, _, h3⟩ := throttle_gate_counters s env
    show ∀ r ∈ (throttle_gate s env).ops, P r
    rw [h3]; exact hP
  | fill =>
    show ∀ r ∈ (fill_step s env).ops, P r
    rcases fill_step_cases s env with ⟨lg, h⟩ | ⟨h0, _, _, _, l, _, h⟩
    · rw [h]; exact hP
    · rw [h]; exact hsnoc _ _ hP (hnew hl h0)
  | flush =>
    show ∀ r ∈ (flush_step s env).ops, P r
    simp only [flush_step, io_uring_submit]
    split_ifs
    all_goals first
      | exact hP
      | exact hmap _ hP
  | harvest =>
    show ∀ r ∈ (harvest_step s env).ops, P r
    rcases harvest_step_cases s env with h | h | ⟨_, _, _, ⟨_, _, h⟩ | h⟩ |
        ⟨_, idx, res, r, s2, hcqe, hk, h⟩
    · rw [h]; exact hP
    · rw [h]; exact hP
    · rw [h]; exact hP
    · rw [h]; exact hP
    · rw [h]
      obtain ⟨r0, hget, _, hr⟩ := complete_request _ _ _ _ _ hk
      have hget2 : s.ops[idx]? = some r0 := hget
      have hr2 : r = after_io s.src r0 res := hr
      obtain ⟨_, _, _, _, _, hs2⟩ := complete_some _ _ _ _ _ hk
      have e3 : s2.ops = s.ops.take idx ++ s.ops.drop (idx + 1) := by
        have h := congrArg State.ops hs2; exact h
      have hP0 : P r0 := hP r0 (mem_of_getElem? _ _ _ hget2)
      have hP2 : ∀ q ∈ s2.ops, P q := by
        intro q hq; rw [e3] at hq; exact hP q (mem_of_mem_removed _ _ _ hq)
      have hd : r.data = r0.data := by rw [hr2]; exact after_io_data _ _ _
      rcases harvest_dispatch_cases s2 r res env.submit_ret with
        ⟨_, _, g⟩ | ⟨_, g⟩ | ⟨_, hres, g⟩ | ⟨_, h0, hne, g⟩ | ⟨_, h0, heq, hread, g⟩ |
        ⟨_, _, _, g⟩
      · rw [g]; exact hP2
      · rw [g]; exact hP2
      · rw [g]
        refine hsnoc _ _ hP2 ?_
        rw [hres] at hcqe hr2
        have := htrans idx r0 hcqe hget2 hP0
        rw [hd, hr2]; exact this
      · rw [g]
        refine hsnoc _ _ hP2 ?_
        rw [hd] at hne ⊢
        have := hshort idx res r0 hcqe hget2 hP0 h0 hne
        rw [hr2]; exact this
      · rw [g]
        rw [hd] at heq hread
        have hx := hfull idx res r0 hcqe hget2 hP0 h0 heq hread
        have hx2 : P { r with data := queue_write_data r.data, submitted := false } := by
          rw [hd, hr2]; exact hx
        show ∀ q ∈ (if 0 ≤ env.submit_ret then _ else _ : List Request), P q
        split
        · exact hmap _ (hsnoc _ _ hP2 hx2)
        · exact hsnoc _ _ hP2 hx2
      · rw [g]; exact hP2
  | drain =>
    show ∀ r ∈ (drain_step s env).ops, P r
    rcases drain_step_cases s env with h | ⟨_, h⟩ | ⟨_, _, _, _, h⟩ |
        ⟨_, idx, res, r, s2, _, hk, ⟨_, h⟩ | ⟨_, h⟩⟩
    · rw [h]; exact hP
    · rw [h]; exact hP
    · rw [h]; exact hP
    · rw [h]
      obtain ⟨_, _, _, _, _, hs2⟩ := complete_some _ _ _ _ _ hk
      have e3 : s2.ops = s.ops.take idx ++ s.ops.drop (idx + 1) := by
        have h := congrArg State.ops hs2; exact h
      intro q hq
      have hq2 : q ∈ s2.ops := hq
      rw [e3] at hq2; exact hP q (mem_of_mem_removed _ _ _ hq2)
    · rw [h]
      obtain ⟨_, _, _, _, _, hs2⟩ := complete_some _ _ _ _ _ hk
      have e3 : s2.ops = s.ops.take idx ++ s.ops.drop (idx + 1) := by
        have h := congrArg State.ops hs2; exact h
      intro q hq
      have hq2 : q ∈ s2.ops := hq
      rw [e3] at hq2; exact hP q (mem_of_mem_removed _ _ _ hq2)
  | returned ret => exact hP
  | assert_failed => exact hP

theorem u64_lt (n : Int) : u64 n < 18446744073709551616 := by
  simp only [u64]; omega

theorem sizeOk_step (s : State) (env : Env) (h : ∀ r ∈ s.ops, SizeOk r) :
    ∀ r ∈ (copy_file_step s env).ops, SizeOk r := by
  apply ops_forall_step SizeOk s env h
  · intro r hr; exact hr
  · intro _ _; exact ⟨u64_lt _, u64_lt _⟩
  · intro idx r0 _ _ hr; exact hr
  · intro idx res r0 _ _ hr _ _; exact ⟨u64_lt _, hr.2⟩
  · intro idx res r0 _ _ hr _ _ _; exact ⟨hr.2, hr.2⟩

theorem sizeOk_run (envs : List Env) (s : State) (h : ∀ r ∈ s.ops, SizeOk r) :
    ∀ r ∈ (copy_file_run envs s).ops, SizeOk r := by
  induction envs generalizing s with
  | nil => exact h
  | cons e t ih => exact ih _ (sizeOk_step s e h)

/-- The outcomes of one pass of the fill loop, with the reason for leaving
after a queued read. -/
theorem fill_step_cases_budget (s : State) (env : Env) :
    (∃ lg, fill_step s env = { s with loc := Loc.flush, log := lg }) ∨
    (s.speed_limitation > 0 ∧
        s.speed_size + chunk_size s.insize ≥ s.speed_size_limitation ∧
        fill_step s env = fill_queued s Loc.flush) ∨
    (¬ (s.speed_limitation > 0 ∧
        s.speed_size + chunk_size s.insize ≥ s.speed_size_limitation) ∧
      fill_step s env = fill_queued s s.loc) := by
  by_cases h0 : s.insize = 0
  · exact Or.inl ⟨s.log, by simp only [fill_step, h0, if_true]⟩
  by_cases h1 : QD ≤ u64 ((s.reads : Int) + (s.writes : Int))
  · exact Or.inl ⟨s.log, by simp only [fill_step, h0, h1, if_true, if_false]⟩
  have h2 : ¬ (¬ (s.insize > BS) ∧ chunk_size s.insize = 0) := by
    intro h; unfold chunk_size at h; rw [if_neg h.1] at h; exact h0 h.2
  by_cases h3 : env.malloc_ok = true
  · by_cases h4 : sqe_available s.ops = true
    · by_cases h5 : s.speed_limitation > 0 ∧
          s.speed_size + chunk_size s.insize ≥ s.speed_size_limitation
      · exact Or.inr (Or.inl ⟨h5.1, h5.2, by
          simp only [fill_step, queue_read, fill_queued, h0, h1, h2, h3, h4, h5, if_true,
            if_false, ne_eq, not_true_eq_false, and_self]⟩)
      · exact Or.inr (Or.inr ⟨h5, by
          simp only [fill_step, queue_read, fill_queued, h0, h1, h2, h3, h4, h5, if_true,
            if_false, ne_eq, not_true_eq_false]⟩)
    · exact Or.inl ⟨_, by
        simp only [fill_step, queue_read, h0, h1, h2, h3, h4, if_true, if_false, ne_eq,
          one_ne_zero, not_false_eq_true]; rfl⟩
  · exact Or.inl ⟨_, by
      simp only [fill_step, queue_read, h0, h1, h2, h3, if_true, if_false, ne_eq,
        one_ne_zero, not_false_eq_true]; rfl⟩

theorem chunk_size_le (insize : Int) : chunk_size insize ≤ BS := by
  unfold chunk_size
  split <;> omega

theorem throttleInv_step (B : Int) (hB : 0 < B) (s : State) (env : Env)
    (h : ThrottleInv B s) : ThrottleInv B (copy_file_step s env) := by
  obtain ⟨hsp, hlim, hlt, hfill⟩ := h
  have hbs : (0 : Int) ≤ (BS : Int) := by unfold BS; omega
  by_cases h1 : s.loc = Loc.throttle
  · have hstep : copy_file_step s env = throttle_step s env := by
      unfold copy_file_step; rw [h1]
    rw [hstep]
    have key : (throttle_gate s env).speed_limitation > 0 ∧
        (throttle_gate s env).speed_size_limitation = B ∧
        (throttle_gate s env).speed_size < B := by
      simp only [throttle_gate, hsp, if_true]
      split_ifs with c1 c2
      · exact ⟨hsp, hlim, hB⟩
      · exact ⟨hsp, hlim, hB⟩
      · refine ⟨hsp, hlim, ?_⟩
        show s.speed_size < B
        rw [hlim] at c2; omega
    obtain ⟨k1, k2, k3⟩ := key
    exact ⟨k1, k2, by show (throttle_gate s env).speed_size < B + BS; omega, fun _ => k3⟩
  by_cases h2 : s.loc = Loc.fill
  · have hstep : copy_file_step s env = fill_step s env := by
      unfold copy_file_step; rw [h2]
    rw [hstep]
    have hlt2 := hfill h2
    have hc := chunk_size_le s.insize
    rcases fill_step_cases_budget s env with ⟨lg, g⟩ | ⟨_, _, g⟩ | ⟨hn, g⟩
    · rw [g]; exact ⟨hsp, hlim, hlt, fun hx => by cases hx⟩
    · rw [g]
      refine ⟨hsp, hlim, ?_, fun hx => by cases hx⟩
      show s.speed_size + chunk_size s.insize < B + BS
      omega
    · rw [g]
      refine ⟨hsp, hlim, ?_, fun _ => ?_⟩
      · show s.speed_size + chunk_size s.insize < B + BS
        omega
      · show s.speed_size + chunk_size s.insize < B
        rw [hlim] at hn
        by_contra hge
        exact hn ⟨hsp, by omega⟩
  · obtain ⟨⟨_, _, a3, a4, a5, _, _⟩, hnf⟩ := step_sameInput s env h1 h2
    refine ⟨by rw [a4]; exact hsp, by rw [a5]; exact hlim, by rw [a3]; exact hlt, ?_⟩
    intro hx; exact absurd hx hnf

theorem throttleInv_run (B : Int) (hB : 0 < B) (envs : List Env) (s : State)
    (h : ThrottleInv B s) : ThrottleInv B (copy_file_run envs s) := by
  induction envs generalizing s with
  | nil => exact h
  | cons e t ih => exact ih _ (throttleInv_step B hB s e h)

theorem posLen_step (s : State) (env : Env) (hb : BalInv s) (h : ∀ r ∈ s.ops, PosLen r) :
    ∀ r ∈ (copy_file_step s env).ops, PosLen r := by
  apply ops_forall_step PosLen s env h
  · intro r hr; exact hr
  · intro hl h0
    have hm : s.loc.in_main = true := by rw [hl]; rfl
    obtain ⟨c1, c2, c3⟩ := chunk_size_bounds s.insize (hb hm).1 h0
    show 0 < u64 (chunk_size s.insize) ∧ u64 (chunk_size s.insize) ≤ BS
    simp only [u64, BS] at *; omega
  · intro idx r0 _ _ hr; exact hr
  · intro idx res r0 _ _ hr _ _; exact hr
  · intro idx res r0 _ _ hr _ _ _; exact hr

theorem posLen_run (envs : List Env) (s : State) (hb : BalInv s)
    (h : ∀ r ∈ s.ops, PosLen r) : ∀ r ∈ (copy_file_run envs s).ops, PosLen r := by
  induction envs generalizing s with
  | nil => exact h
  | cons e t ih => exact ih _ (balInv_step s e hb) (posLen_step s e hb h)

/-- When every live read has a positive length and the lengths add up to 0,
no read is live. -/
theorem n_reads_eq_zero_of_read_sum (l : List Request) (h : ∀ r ∈ l, PosLen r)
    (hsum : read_sum l = 0) : n_reads l = 0 := by
  induction l with
  | nil => rfl
  | cons a t ih =>
    have ha := h a (List.mem_cons_self a t)
    have ht : ∀ r ∈ t, PosLen r := fun r hr => h r (List.mem_cons_of_mem a hr)
    have hnn := read_sum_nonneg t
    rw [read_sum_cons] at hsum
    rw [n_reads_cons]
    by_cases hr : a.data.read = true
    · rw [if_pos hr] at hsum
      have := ha.1
      omega
    · rw [if_neg hr] at hsum
      rw [if_neg hr, ih ht (by omega)]

theorem n_reads_removed_le (l : List Request) (i : Nat) :
    n_reads (l.take i ++ l.drop (i + 1)) ≤ n_reads l := by
  have h1 : n_reads l = n_reads (l.take i ++ l.drop i) := by rw [List.take_append_drop]
  rw [h1, n_reads_append, n_reads_append]
  have h2 : n_reads (l.drop (i + 1)) ≤ n_reads (l.drop i) := by
    have : l.drop (i + 1) = (l.drop i).drop 1 := by
      simp [List.drop_drop, Nat.add_comm]
    rw [this]
    cases l.drop i with
    | nil => simp
    | cons a t =>
      rw [List.drop_succ_cons, List.drop_zero, n_reads_cons]; omega
  omega

/-- After the main loop has been left, it is never entered again and no read
request appears. -/
theorem left_step (s : State) (env : Env) (hl : s.loc.in_main = false) :
    (copy_file_step s env).loc.in_main = false ∧
      n_reads (copy_file_step s env).ops ≤ n_reads s.ops := by
  unfold copy_file_step
  cases hc : s.loc with
  | loop_head => rw [hc] at hl; cases hl
  | throttle => rw [hc] at hl; cases hl
  | fill => rw [hc] at hl; cases hl
  | flush => rw [hc] at hl; cases hl
  | harvest => rw [hc] at hl; cases hl
  | drain =>
    refine ⟨drain_step_left env hc, ?_⟩
    show n_reads (drain_step s env).ops ≤ n_reads s.ops
    rcases drain_step_cases s env with h | ⟨_, h⟩ | ⟨_, _, _, _, h⟩ |
        ⟨_, idx, res, r, s2, _, hk, ⟨_, h⟩ | ⟨_, h⟩⟩
    · rw [h]
    · rw [h]
    · rw [h]
    · rw [h]
      obtain ⟨_, _, _, _, _, hs2⟩ := complete_some _ _ _ _ _ hk
      have e3 : s2.ops = s.ops.take idx ++ s.ops.drop (idx + 1) := by
        have h := congrArg State.ops hs2; exact h
      show n_reads s2.ops ≤ _
      rw [e3]; exact n_reads_removed_le _ _
    · rw [h]
      obtain ⟨_, _, _, _, _, hs2⟩ := complete_some _ _ _ _ _ hk
      have e3 : s2.ops = s.ops.take idx ++ s.ops.drop (idx + 1) := by
        have h := congrArg State.ops hs2; exact h
      show n_reads s2.ops ≤ _
      rw [e3]; exact n_reads_removed_le _ _
  | returned ret =>
    show s.loc.in_main = false ∧ n_reads s.ops ≤ n_reads s.ops
    exact ⟨hl, Nat.le_refl _⟩
  | assert_failed =>
    show s.loc.in_main = false ∧ n_reads s.ops ≤ n_reads s.ops
    exact ⟨hl, Nat.le_refl _⟩

theorem left_run (envs : List Env) (s : State) (hl : s.loc.in_main = false) :
    (copy_file_run envs s).loc.in_main = false ∧
      n_reads (copy_file_run envs s).ops ≤ n_reads s.ops := by
  induction envs generalizing s with
  | nil => exact ⟨hl, Nat.le_refl _⟩
  | cons e t ih =>
    obtain ⟨a, b⟩ := left_step s e hl
    obtain ⟨c, d⟩ := ih _ a
    exact ⟨c, Nat.le_trans d b⟩

/-- A completion can only be delivered for a request that is counted. -/
theorem complete_read_counted (s : State) (idx : Nat) (res : Int) (r : Request) (s2 : State)
    (hk : complete s idx res = some (r, s2)) (hr : r.data.read = true) :
    1 ≤ n_reads s.ops := by
  obtain ⟨r0, hsplit, _, hdata, _, _⟩ := complete_some _ _ _ _ _ hk
  exact (counts_pos_of_split _ _ _ hsplit).1 (by rw [← hdata]; exact hr)

theorem splice_length (buf : List Nat) (pos : Nat) (bytes : List Nat)
    (h : pos + bytes.length ≤ buf.length) : (splice buf pos bytes).length = buf.length := by
  unfold splice
  simp only [List.length_append, List.length_take, List.length_drop]
  omega

theorem after_io_payload_length (src : List Nat) (r : Request) (res : Int)
    (h1 : r.data.iov.iov_base + r.data.iov.iov_len ≤ r.payload.length)
    (h2 : res ≤ (r.data.iov.iov_len : Int)) :
    (after_io src r res).payload.length = r.payload.length := by
  unfold after_io
  split
  · show (splice _ _ _).length = _
    apply splice_length
    have : ((src.drop r.data.offset.toNat).take res.toNat).length ≤ res.toNat := by
      rw [List.length_take]; exact Nat.min_le_left _ _
    omega
  · rfl

theorem contract_ok_spec (s : State) (env : Env) (idx : Nat) (res : Int) (r0 : Request)
    (h : contract_ok s env = true) (hcqe : env.cqe = CqeResult.completion idx res)
    (hget : s.ops[idx]? = some r0) : res ≤ (r0.data.iov.iov_len : Int) := by
  unfold contract_ok at h
  rw [hcqe] at h
  simp only [hget, decide_eq_true_eq] at h
  exact h

theorem geometry_step (s : State) (env : Env) (hb : BalInv s)
    (hcon : contract_ok s env = true) (h : ∀ r ∈ s.ops, Geometry r) :
    ∀ r ∈ (copy_file_step s env).ops, Geometry r := by
  apply ops_forall_step Geometry s env h
  · intro r hr; exact hr
  · intro hl h0
    have hm : s.loc.in_main = true := by rw [hl]; rfl
    obtain ⟨c1, c2, c3⟩ := chunk_size_bounds s.insize (hb hm).1 h0
    have hu : ((u64 (chunk_size s.insize) : Nat) : Int) = chunk_size s.insize := by
      simp only [u64, BS] at *; omega
    refine ⟨rfl, ?_, ?_, Nat.le_refl _, ?_, ?_⟩
    · show ((0 : Nat) : Int) = s.offset - s.offset
      omega
    · show 0 < u64 (chunk_size s.insize)
      omega
    · show (List.replicate (u64 (chunk_size s.insize)) 0).length = u64 (chunk_size s.insize)
      exact List.length_replicate _ _
    · show u64 (chunk_size s.insize) ≤ BS
      omega
  · intro idx r0 hcqe hget hr
    obtain ⟨g1, g2, g3, g4, g5, g6⟩ := hr
    have hlen := after_io_payload_length s.src r0 (-EAGAIN) (by omega) (by unfold EAGAIN; omega)
    exact ⟨g1, g2, g3, g4, hlen.trans g5, g6⟩
  · intro idx res r0 hcqe hget hr h0 hne
    obtain ⟨g1, g2, g3, g4, g5, g6⟩ := hr
    have hc := contract_ok_spec s env idx res r0 hcon hcqe hget
    have hlen := after_io_payload_length s.src r0 res (by omega) hc
    have hbs : BS = 32768 := rfl
    have hlt : res < (r0.data.iov.iov_len : Int) := by
      have : u64 res = res.toNat := by simp only [u64]; omega
      rw [this] at hne
      omega
    have hu : u64 ((r0.data.iov.iov_len : Int) - res) = r0.data.iov.iov_len - res.toNat := by
      simp only [u64]; omega
    refine ⟨?_, ?_, ?_, ?_, hlen.trans g5, g6⟩
    · show r0.data.offset + res + ((u64 ((r0.data.iov.iov_len : Int) - res) : Nat) : Int) =
        r0.data.first_offset + (r0.data.first_len : Int)
      rw [hu]; omega
    · show ((r0.data.iov.iov_base + res.toNat : Nat) : Int) =
        r0.data.offset + res - r0.data.first_offset
      omega
    · show 0 < u64 ((r0.data.iov.iov_len : Int) - res)
      rw [hu]; omega
    · show u64 ((r0.data.iov.iov_len : Int) - res) ≤ r0.data.first_len
      rw [hu]; omega
  · intro idx res r0 hcqe hget hr h0 heq hread
    obtain ⟨g1, g2, g3, g4, g5, g6⟩ := hr
    have hc := contract_ok_spec s env idx res r0 hcon hcqe hget
    have hlen := after_io_payload_length s.src r0 res (by omega) hc
    refine ⟨rfl, ?_, ?_, Nat.le_refl _, hlen.trans g5, g6⟩
    · show ((0 : Nat) : Int) = r0.data.first_offset - r0.data.first_offset
      omega
    · show 0 < r0.data.first_len
      omega

theorem geometry_run (envs : List Env) (s : State) (hb : BalInv s)
    (hcon : contract_run envs s = true) (h : ∀ r ∈ s.ops, Geometry r) :
    ∀ r ∈ (copy_file_run envs s).ops, Geometry r := by
  induction envs generalizing s with
  | nil => exact h
  | cons e t ih =>
    have hc : contract_ok s e = true ∧ contract_run t (copy_file_step s e) = true := by
      have : (contract_ok s e && contract_run t (copy_file_step s e)) = true := hcon
      exact Bool.and_eq_true_iff.mp this
    exact ih _ (balInv_step s e hb) hc.2 (geometry_step s e hb hc.1 h)

/-! ## The history of queued requests -/

theorem trace_run_state (envs : List Env) (t : Trace) :
    (trace_run envs t).state = copy_file_run envs t.state := by
  induction envs generalizing t with
  | nil => rfl
  | cons e es ih => exact ih (trace_step t e)

theorem throttle_gate_offset (s : State) (env : Env) :
    (throttle_gate s env).offset = s.offset := by
  simp only [throttle_gate]
  split_ifs <;> rfl

theorem chunks_succ (N : Int) (m : Nat) : chunks N (m + 1) = chunks N m ++ [chunk N m] := by
  unfold chunks
  rw [List.range_succ, List.map_append, List.map_singleton]

theorem chunks_length (N : Int) (m : Nat) : (chunks N m).length = m := by
  unfold chunks
  rw [List.length_map, List.length_range]

/-- Outside the fill no read is queued and cursor and remaining input stay. -/
theorem step_cursor (s : State) (env : Env) (h : s.loc ≠ Loc.fill) :
    (copy_file_step s env).insize = s.insize ∧ (copy_file_step s env).offset = s.offset ∧
      queued_by s env = [] := by
  refine ⟨?_, ?_, by unfold queued_by; rw [if_neg h]⟩
  · by_cases ht : s.loc = Loc.throttle
    · unfold copy_file_step; rw [ht]
      exact (throttle_gate_frame s env).1
    · exact (step_sameInput s env ht h).1.1
  · by_cases ht : s.loc = Loc.throttle
    · unfold copy_file_step; rw [ht]
      exact throttle_gate_offset s env
    · exact (step_sameInput s env ht h).1.2.1

theorem chunkInv_step (N : Int) (t : Trace) (env : Env) (h : ChunkInv N t) :
    ChunkInv N (trace_step t env) := by
  obtain ⟨h1, h2, h3, h4, h5⟩ := h
  by_cases hl : t.state.loc = Loc.fill
  · have hstep : copy_file_step t.state env = fill_step t.state env := by
      unfold copy_file_step; rw [hl]
    rcases fill_step_cases t.state env with ⟨lg, hf⟩ | ⟨h0, _, _, _, l, _, hf⟩
    · have hq : queued_by t.state env = [] := by
        unfold queued_by
        rw [if_pos hl, hstep, hf]
        show (List.drop t.state.ops.length t.state.ops).map _ = []
        rw [List.drop_length]; rfl
      unfold ChunkInv trace_step
      show 0 ≤ (copy_file_step t.state env).insize ∧
        (copy_file_step t.state env).offset + (copy_file_step t.state env).insize = N ∧
        t.reads_queued ++ queued_by t.state env =
          chunks N (t.reads_queued ++ queued_by t.state env).length ∧
        (copy_file_step t.state env).offset =
          min N (((t.reads_queued ++ queued_by t.state env).length : Int) * BS) ∧
        ((t.reads_queued ++ queued_by t.state env).length : Int) * BS < N + BS
      rw [hq, List.append_nil, hstep, hf]
      exact ⟨h1, h2, h3, h4, h5⟩
    · have hq : queued_by t.state env =
          [(t.state.offset, u64 (chunk_size t.state.insize))] := by
        unfold queued_by
        rw [if_pos hl, hstep, hf]
        show (List.drop t.state.ops.length (t.state.ops ++ [_])).map _ = _
        rw [List.drop_left]; rfl
      obtain ⟨c1, c2, c3⟩ := chunk_size_bounds t.state.insize h1 h0
      have hoff : t.state.offset = (t.reads_queued.length : Int) * 32768 := by
        simp only [BS] at h4 h5; omega
      have hu : ((u64 (chunk_size t.state.insize) : Nat) : Int) = chunk_size t.state.insize := by
        simp only [u64, BS] at *; omega
      have hcs : chunk_size t.state.insize = min (32768 : Int) (N - t.state.offset) := by
        unfold chunk_size BS; split <;> omega
      have hnew : (t.state.offset, u64 (chunk_size t.state.insize)) =
          chunk N t.reads_queued.length := by
        unfold chunk
        simp only [BS] at *
        refine Prod.ext ?_ ?_
        · show t.state.offset = _
          rw [hoff]; norm_num
        · show u64 (chunk_size t.state.insize) = _
          norm_num
          omega
      unfold ChunkInv trace_step
      show 0 ≤ (copy_file_step t.state env).insize ∧
        (copy_file_step t.state env).offset + (copy_file_step t.state env).insize = N ∧
        t.reads_queued ++ queued_by t.state env =
          chunks N (t.reads_queued ++ queued_by t.state env).length ∧
        (copy_file_step t.state env).offset =
          min N (((t.reads_queued ++ queued_by t.state env).length : Int) * BS) ∧
        ((t.reads_queued ++ queued_by t.state env).length : Int) * BS < N + BS
      rw [hq, hstep, hf, List.length_append, List.length_singleton, chunks_succ, ← h3, hnew]
      refine ⟨?_, ?_, rfl, ?_, ?_⟩
      · show 0 ≤ t.state.insize - chunk_size t.state.insize
        omega
      · show t.state.offset + chunk_size t.state.insize +
          (t.state.insize - chunk_size t.state.insize) = N
        omega
      · show t.state.offset + chunk_size t.state.insize =
          min N (((t.reads_queued.length + 1 : Nat) : Int) * BS)
        simp only [BS] at *
        push_cast
        omega
      · simp only [BS] at *
        push_cast
        omega
  · obtain ⟨e1, e2, e3⟩ := step_cursor t.state env hl
    unfold ChunkInv trace_step
    show 0 ≤ (copy_file_step t.state env).insize ∧
      (copy_file_step t.state env).offset + (copy_file_step t.state env).insize = N ∧
      t.reads_queued ++ queued_by t.state env =
        chunks N (t.reads_queued ++ queued_by t.state env).length ∧
      (copy_file_step t.state env).offset =
        min N (((t.reads_queued ++ queued_by t.state env).length : Int) * BS) ∧
      ((t.reads_queued ++ queued_by t.state env).length : Int) * BS < N + BS
    rw [e1, e2, e3, List.append_nil]
    exact ⟨h1, h2, h3, h4, h5⟩

theorem chunkInv_run (N : Int) (envs : List Env) (t : Trace) (h : ChunkInv N t) :
    ChunkInv N (trace_run envs t) := by
  induction envs generalizing t with
  | nil => exact h
  | cons e es ih => exact ih _ (chunkInv_step N t e h)

theorem n_writes_removed_le (l : List Request) (i : Nat) :
    n_writes (l.take i ++ l.drop (i + 1)) ≤ n_writes l := by
  have h1 : n_writes l = n_writes (l.take i ++ l.drop i) := by rw [List.take_append_drop]
  rw [h1, n_writes_append, n_writes_append]
  have h2 : n_writes (l.drop (i + 1)) ≤ n_writes (l.drop i) := by
    have : l.drop (i + 1) = (l.drop i).drop 1 := by
      simp [List.drop_drop, Nat.add_comm]
    rw [this]
    cases l.drop i with
    | nil => simp
    | cons a t =>
      rw [List.drop_succ_cons, List.drop_zero, n_writes_cons]; omega
  omega

/-- A state that has returned or failed an assertion does not move. -/
theorem step_fixed (s : State) (env : Env) (hm : s.loc.in_main = false)
    (hd : s.loc ≠ Loc.drain) : copy_file_step s env = s := by
  unfold copy_file_step
  cases hl : s.loc with
  | loop_head => rw [hl] at hm; cases hm
  | throttle => rw [hl] at hm; cases hm
  | fill => rw [hl] at hm; cases hm
  | flush => rw [hl] at hm; cases hm
  | harvest => rw [hl] at hm; cases hm
  | drain => exact absurd hl hd
  | returned ret => rfl
  | assert_failed => rfl

/-- The drain loop leaves the list of requests as it is or takes one out. -/
theorem drain_step_ops (s : State) (env : Env) :
    (drain_step s env).ops = s.ops ∨
      ∃ idx, (drain_step s env).ops = s.ops.take idx ++ s.ops.drop (idx + 1) := by
  rcases drain_step_cases s env with h | ⟨_, h⟩ | ⟨_, _, _, _, h⟩ |
      ⟨_, idx, res, r, s2, _, hk, ⟨_, h⟩ | ⟨_, h⟩⟩
  · rw [h]; exact Or.inl rfl
  · rw [h]; exact Or.inl rfl
  · rw [h]; exact Or.inl rfl
  · rw [h]
    obtain ⟨_, _, _, _, _, hs2⟩ := complete_some _ _ _ _ _ hk
    have e3 : s2.ops = s.ops.take idx ++ s.ops.drop (idx + 1) := by
      have h := congrArg State.ops hs2; exact h
    exact Or.inr ⟨idx, e3⟩
  · rw [h]
    obtain ⟨_, _, _, _, _, hs2⟩ := complete_some _ _ _ _ _ hk
    have e3 : s2.ops = s.ops.take idx ++ s.ops.drop (idx + 1) := by
      have h := congrArg State.ops hs2; exact h
    exact Or.inr ⟨idx, e3⟩

/-- The dispatch of a completion that had `nr` reads and `nw` writes live
before its delivery: unless it returns, a read that leaves is matched by a
write that appears. -/
theorem dispatch_counts (s : State) (r : Request) (res submit_ret : Int) (nr nw : Nat)
    (hr : nr = n_reads s.ops + (if r.data.read then 1 else 0))
    (hw : nw = n_writes s.ops + (if r.data.read then 0 else 1))
    (h1 : (harvest_dispatch s r res submit_ret).loc ≠ Loc.returned 1)
    (h2 : (harvest_dispatch s r res submit_ret).loc ≠ Loc.assert_failed) :
    n_writes (harvest_dispatch s r res submit_ret).ops - nw +
      n_reads (harvest_dispatch s r res submit_ret).ops = nr := by
  rcases harvest_dispatch_cases s r res submit_ret with
    ⟨_, _, g⟩ | ⟨_, g⟩ | ⟨_, _, g⟩ | ⟨_, _, _, g⟩ | ⟨_, _, _, hread, g⟩ | ⟨_, _, hread, g⟩
  · rw [g] at h1; exact absurd rfl h1
  · rw [g] at h2; exact absurd rfl h2
  · rw [g]
    show n_writes (s.ops ++ [_]) - nw + n_reads (s.ops ++ [_]) = nr
    rw [n_writes_snoc, n_reads_snoc]
    show n_writes s.ops + (if r.data.read then 0 else 1) - nw +
      (n_reads s.ops + (if r.data.read then 1 else 0)) = nr
    rw [← hr, ← hw]; omega
  · rw [g]
    show n_writes (s.ops ++ [_]) - nw + n_reads (s.ops ++ [_]) = nr
    rw [n_writes_snoc, n_reads_snoc]
    show n_writes s.ops + (if r.data.read then 0 else 1) - nw +
      (n_reads s.ops + (if r.data.read then 1 else 0)) = nr
    rw [← hr, ← hw]; omega
  · rw [g]
    rw [hread] at hr hw
    simp only [if_true] at hr hw
    have h3 : n_reads (rearmed s r submit_ret).ops = n_reads s.ops := by
      show n_reads (if 0 ≤ submit_ret then _ else _) = _
      split
      · rw [n_reads_flushed, n_reads_snoc]; rfl
      · rw [n_reads_snoc]; rfl
    have h4 : n_writes (rearmed s r submit_ret).ops = n_writes s.ops + 1 := by
      show n_writes (if 0 ≤ submit_ret then _ else _) = _
      split
      · rw [n_writes_flushed, n_writes_snoc]; rfl
      · rw [n_writes_snoc]; rfl
    rw [h3, h4]
    omega
  · rw [g]
    rw [hread] at hr hw
    simp only [Bool.false_eq_true, if_false] at hr hw
    show n_writes s.ops - nw + n_reads s.ops = nr
    omega

/-- Conservation of queued reads: in every step that does not return 1 or
fail, the writes it queues and the reads live after it are the reads live
before it and the reads it queues. -/
theorem step_conserves (s : State) (env : Env)
    (hs : s.loc.in_main = true ∨ n_reads s.ops = 0)
    (hl2 : (copy_file_step s env).loc.in_main = true ∨
      (copy_file_step s env).loc = Loc.drain ∨ (copy_file_step s env).loc = Loc.returned 0) :
    writes_added s env + n_reads (copy_file_step s env).ops =
      n_reads s.ops + (queued_by s env).length := by
  by_cases hf : s.loc = Loc.fill
  · have hstep : copy_file_step s env = fill_step s env := by
      unfold copy_file_step; rw [hf]
    unfold writes_added queued_by
    rw [if_pos hf, hstep]
    rcases fill_step_cases s env with ⟨lg, h⟩ | ⟨h0, _, _, _, l, _, h⟩
    · rw [h]
      show n_writes s.ops - n_writes s.ops + n_reads s.ops =
        n_reads s.ops + ((List.drop s.ops.length s.ops).map _).length
      rw [List.drop_length, List.map_nil, List.length_nil]; omega
    · rw [h]
      show n_writes (s.ops ++ [_]) - n_writes s.ops + n_reads (s.ops ++ [_]) =
        n_reads s.ops + ((List.drop s.ops.length (s.ops ++ [_])).map _).length
      rw [List.drop_left, n_writes_snoc, n_reads_snoc, List.map_singleton,
        List.length_singleton]
      show n_writes s.ops + 0 - n_writes s.ops + (n_reads s.ops + 1) = n_reads s.ops + 1
      omega
  · have hq : (queued_by s env).length = 0 := by
      unfold queued_by; rw [if_neg hf]; rfl
    rw [hq]
    unfold writes_added
    have hsame : ∀ s2 : State, s2.ops = s.ops →
        n_writes s2.ops - n_writes s.ops + n_reads s2.ops = n_reads s.ops + 0 := by
      intro s2 h; rw [h]; omega
    cases hl : s.loc with
    | loop_head =>
      have hstep : copy_file_step s env = loop_head_step s := by
        unfold copy_file_step; rw [hl]
      rw [hstep]
      apply hsame
      unfold loop_head_step
      split <;> rfl
    | throttle =>
      have hstep : copy_file_step s env = throttle_step s env := by
        unfold copy_file_step; rw [hl]
      rw [hstep]
      apply hsame
      exact (throttle_gate_frame s env).2.2
    | fill => exact absurd hl hf
    | flush =>
      have hstep : copy_file_step s env = flush_step s env := by
        unfold copy_file_step; rw [hl]
      rw [hstep]
      simp only [flush_step, io_uring_submit]
      split_ifs
      all_goals first
        | (show n_writes s.ops - n_writes s.ops + n_reads s.ops = n_reads s.ops + 0; omega)
        | (show n_writes (s.ops.map _) - n_writes s.ops + n_reads (s.ops.map _) =
            n_reads s.ops + 0
           rw [n_writes_flushed, n_reads_flushed]; omega)
    | harvest =>
      have hstep : copy_file_step s env = harvest_step s env := by
        unfold copy_file_step; rw [hl]
      rw [hstep] at hl2 ⊢
      rcases harvest_step_cases s env with h | h | ⟨_, _, _, ⟨_, _, h⟩ | h⟩ |
          ⟨_, idx, res, r, s2, _, hk, h⟩
      · rw [h]; exact hsame _ rfl
      · rw [h]; exact hsame _ rfl
      · rw [h]; exact hsame _ rfl
      · rw [h]; exact hsame _ rfl
      · rw [h] at hl2 ⊢
        obtain ⟨r0, hsplit, _, hdata, _, hs2⟩ := complete_some _ _ _ _ _ hk
        obtain ⟨c1, c2⟩ := counts_split _ _ _ hsplit
        have e3 : s2.ops = s.ops.take idx ++ s.ops.drop (idx + 1) := by
          have h := congrArg State.ops hs2; exact h
        have c1b : n_reads s.ops = n_reads s2.ops + (if r.data.read then 1 else 0) := by
          rw [e3, hdata]; exact c1
        have c2b : n_writes s.ops = n_writes s2.ops + (if r.data.read then 0 else 1) := by
          rw [e3, hdata]; exact c2
        have := dispatch_counts s2 r res env.submit_ret _ _ c1b c2b
          (by intro hx; rw [hx] at hl2; rcases hl2 with a | a | a <;> cases a)
          (by intro hx; rw [hx] at hl2; rcases hl2 with a | a | a <;> cases a)
        omega
    | drain =>
      have hstep : copy_file_step s env = drain_step s env := by
        unfold copy_file_step; rw [hl]
      rw [hstep]
      have hn : n_reads s.ops = 0 := by
        rcases hs with a | a
        · rw [hl] at a; cases a
        · exact a
      rcases drain_step_ops s env with h | ⟨idx, h⟩
      · exact hsame _ h
      · rw [h]
        have a1 := n_reads_removed_le s.ops idx
        have a2 := n_writes_removed_le s.ops idx
        omega
    | returned ret =>
      have hstep : copy_file_step s env = s := by
        unfold copy_file_step; rw [hl]
      rw [hstep]; exact hsame _ rfl
    | assert_failed =>
      have hstep : copy_file_step s env = s := by
        unfold copy_file_step; rw [hl]
      rw [hstep]; exact hsame _ rfl

/-- When no flush fails, the main loop is left for the drain loop only from
its test, with nothing left to queue or to write. -/
theorem enters_drain (s : State) (env : Env) (hsub : 0 ≤ env.submit_ret)
    (hm : s.loc.in_main = true)
    (hl2 : (copy_file_step s env).loc = Loc.drain ∨
      (copy_file_step s env).loc = Loc.returned 0) :
    s.insize = 0 ∧ s.write_left = 0 ∧ (copy_file_step s env).ops = s.ops ∧
      (copy_file_step s env).insize = s.insize := by
  cases hl : s.loc with
  | loop_head =>
    have hstep : copy_file_step s env = loop_head_step s := by
      unfold copy_file_step; rw [hl]
    rw [hstep] at hl2 ⊢
    unfold loop_head_step at hl2 ⊢
    by_cases hc : s.insize ≠ 0 ∨ s.write_left ≠ 0
    · rw [if_pos hc] at hl2
      rcases hl2 with a | a <;> cases a
    · rw [if_neg hc]
      have h1 : s.insize = 0 := by
        by_contra hx; exact hc (Or.inl hx)
      have h2 : s.write_left = 0 := by
        by_contra hx; exact hc (Or.inr hx)
      exact ⟨h1, h2, rfl, rfl⟩
  | throttle =>
    have hstep : copy_file_step s env = throttle_step s env := by
      unfold copy_file_step; rw [hl]
    rw [hstep] at hl2
    rcases hl2 with a | a <;> cases a
  | fill =>
    have hstep : copy_file_step s env = fill_step s env := by
      unfold copy_file_step; rw [hl]
    rw [hstep] at hl2
    rcases fill_step_cases s env with ⟨lg, h⟩ | ⟨_, _, _, _, l, hl3, h⟩
    · rw [h] at hl2
      rcases hl2 with a | a <;> cases a
    · rw [h] at hl2
      have hl4 : l = Loc.drain ∨ l = Loc.returned 0 := hl2
      rcases hl3 with b | b
      · rw [b] at hl4; rcases hl4 with a | a <;> cases a
      · rw [b, hl] at hl4; rcases hl4 with a | a <;> cases a
  | flush =>
    have hstep : copy_file_step s env = flush_step s env := by
      unfold copy_file_step; rw [hl]
    rw [hstep] at hl2
    have hns : ¬ env.submit_ret < 0 := by omega
    simp only [flush_step, io_uring_submit, hns, if_false] at hl2
    split at hl2 <;> rcases hl2 with a | a <;> cases a
  | harvest =>
    have hstep : copy_file_step s env = harvest_step s env := by
      unfold copy_file_step; rw [hl]
    rw [hstep] at hl2
    rcases harvest_step_cases s env with h | h | ⟨_, _, _, ⟨_, _, h⟩ | h⟩ |
        ⟨_, idx, res, r, s2, _, hk, h⟩
    · rw [h, hl] at hl2; rcases hl2 with a | a <;> cases a
    · rw [h] at hl2; rcases hl2 with a | a <;> cases a
    · rw [h] at hl2; rcases hl2 with a | a <;> cases a
    · rw [h] at hl2; rcases hl2 with a | a <;> cases a
    · rw [h] at hl2
      obtain ⟨_, hloc, _⟩ := complete_sameInput _ _ _ _ _ hk
      have hloc2 : s2.loc = Loc.harvest := by rw [hloc]; exact hl
      rcases (harvest_dispatch_frame s2 r res env.submit_ret).2 with b | b | b
      · rw [b, hloc2] at hl2; rcases hl2 with a | a <;> cases a
      · rw [b] at hl2; rcases hl2 with a | a <;> cases a
      · rw [b] at hl2; rcases hl2 with a | a <;> cases a
  | drain => rw [hl] at hm; cases hm
  | returned ret => rw [hl] at hm; cases hm
  | assert_failed => rw [hl] at hm; cases hm

theorem writeInv_step (t : Trace) (env : Env) (hsub : 0 ≤ env.submit_ret)
    (hb : BalInv t.state) (hp : ∀ r ∈ t.state.ops, PosLen r) (h : WriteInv t) :
    WriteInv (trace_step t env) := by
  obtain ⟨w1, w2⟩ := h
  show ((copy_file_step t.state env).loc.in_main = true →
      t.writes_queued + writes_added t.state env + n_reads (copy_file_step t.state env).ops =
        (t.reads_queued ++ queued_by t.state env).length) ∧
    ((copy_file_step t.state env).loc = Loc.drain ∨
        (copy_file_step t.state env).loc = Loc.returned 0 →
      t.writes_queued + writes_added t.state env =
          (t.reads_queued ++ queued_by t.state env).length ∧
        (copy_file_step t.state env).insize = 0 ∧
        n_reads (copy_file_step t.state env).ops = 0)
  rw [List.length_append]
  constructor
  · intro hm2
    have hm : t.state.loc.in_main = true := by
      by_contra hx
      have hx2 : t.state.loc.in_main = false := by simpa using hx
      have := (left_step t.state env hx2).1
      rw [this] at hm2; cases hm2
    have hc := step_conserves t.state env (Or.inl hm) (Or.inl hm2)
    have := w1 hm
    omega
  · intro hd
    by_cases hm : t.state.loc.in_main = true
    · obtain ⟨e1, e2, e3, e4⟩ := enters_drain t.state env hsub hm hd
      obtain ⟨_, b2, _⟩ := hb hm
      have hn : n_reads t.state.ops = 0 :=
        n_reads_eq_zero_of_read_sum _ hp (by omega)
      have hc := step_conserves t.state env (Or.inl hm) (Or.inr hd)
      have := w1 hm
      rw [e3] at hc ⊢
      rw [e4]
      exact ⟨by omega, e1, hn⟩
    · have hm2 : t.state.loc.in_main = false := by simpa using hm
      have hd0 : t.state.loc = Loc.drain ∨ t.state.loc = Loc.returned 0 := by
        by_cases h1 : t.state.loc = Loc.drain
        · exact Or.inl h1
        · have hfix := step_fixed t.state env hm2 h1
          rw [hfix] at hd
          rcases hd with a | a
          · exact absurd a h1
          · exact Or.inr a
      obtain ⟨a1, a2, a3⟩ := w2 hd0
      have hc := step_conserves t.state env (Or.inr a3) (Or.inr hd)
      have hle := (left_step t.state env hm2).2
      have hnf : t.state.loc ≠ Loc.fill := by
        intro hx; rw [hx] at hm2; cases hm2
      have hins := (step_cursor t.state env hnf).1
      rw [hins]
      exact ⟨by omega, a2, by omega⟩

theorem writeInv_run (envs : List Env) (t : Trace) (hsub : ∀ e ∈ envs, 0 ≤ e.submit_ret)
    (hb : BalInv t.state) (hp : ∀ r ∈ t.state.ops, PosLen r) (h : WriteInv t) :
    WriteInv (trace_run envs t) := by
  induction envs generalizing t with
  | nil => exact h
  | cons e es ih =>
    exact ih (trace_step t e) (fun x hx => hsub x (List.mem_cons_of_mem e hx))
      (balInv_step t.state e hb) (posLen_step t.state e hb hp)
      (writeInv_step t e (hsub e (List.mem_cons_self e es)) hb hp h)

theorem chunkInv_init (N speed_limitation : Int) (t0 : timeval) (src dst : List Nat)
    (h0 : 0 ≤ N) : ChunkInv N (trace_init (copy_file_init N speed_limitation t0 src dst)) := by
  refine ⟨h0, ?_, rfl, ?_, ?_⟩
  · show (0 : Int) + N = N
    omega
  · show (0 : Int) = min N (((0 : Nat) : Int) * BS)
    simp only [BS]; omega
  · show (((0 : Nat) : Int)) * BS < N + BS
    simp only [BS]; omega

theorem writeInv_init (N speed_limitation : Int) (t0 : timeval) (src dst : List Nat) :
    WriteInv (trace_init (copy_file_init N speed_limitation t0 src dst)) := by
  refine ⟨fun _ => rfl, ?_⟩
  intro h
  rcases h with a | a <;> cases a

/-- The chunks of the specification tile `[0, N)`: each is a non-empty
range inside `[0, N)`, the first starts at 0, each starts where the one
before ends, the last ends at `N`; every position is in one of them and no
two overlap. -/
theorem chunk_tiling (N : Int) :
    (∀ k, k < n_chunks N →
      0 ≤ (chunk N k).1 ∧ 0 < (chunk N k).2 ∧ (chunk N k).1 + ((chunk N k).2 : Int) ≤ N ∧
      (k + 1 < n_chunks N → (chunk N (k + 1)).1 = (chunk N k).1 + ((chunk N k).2 : Int)) ∧
      (k + 1 = n_chunks N → (chunk N k).1 + ((chunk N k).2 : Int) = N)) ∧
    (chunk N 0).1 = 0 ∧
    (∀ x : Int, 0 ≤ x → x < N →
      ∃ k, k < n_chunks N ∧ (chunk N k).1 ≤ x ∧ x < (chunk N k).1 + ((chunk N k).2 : Int)) ∧
    (∀ j k, j < k → (chunk N j).1 + ((chunk N j).2 : Int) ≤ (chunk N k).1) := by
  refine ⟨?_, ?_, ?_, ?_⟩
  · intro k hk
    simp only [chunk, n_chunks, BS] at *
    push_cast at *
    omega
  · show ((0 : Nat) : Int) * BS = 0
    simp
  · intro x hx0 hx1
    refine ⟨(x / 32768).toNat, ?_⟩
    simp only [chunk, n_chunks, BS] at *
    push_cast at *
    omega
  · intro j k hjk
    simp only [chunk, BS] at *
    push_cast at *
    omega

/-! ## A re-queued request that is never flushed -/

/-- No completion can be delivered while no live request has been handed to
the kernel. -/
theorem complete_none_of_unsubmitted (s : State) (idx : Nat) (res : Int)
    (h : ∀ r ∈ s.ops, r.submitted = false) : complete s idx res = none := by
  cases hk : complete s idx res with
  | none => rfl
  | some p =>
    obtain ⟨r, s2⟩ := p
    obtain ⟨r0, hget, hsub, _⟩ := complete_request _ _ _ _ _ hk
    have := h r0 (mem_of_getElem? _ _ _ hget)
    rw [this] at hsub; cases hsub

/-- A stuck state stays stuck whatever the adapter answers: no step changes
the requests, the counters, the remaining amounts or the destination, and
the only way out of the main loop is `return 1`. -/
theorem stuck_step (s : State) (env : Env) (h : Stuck s) :
    Stuck (copy_file_step s env) ∧ (copy_file_step s env).ops = s.ops ∧
      (copy_file_step s env).dst = s.dst ∧ (copy_file_step s env).reads = s.reads ∧
      (copy_file_step s env).writes = s.writes := by
  obtain ⟨h1, h2, h3, hl⟩ := h
  rcases hl with hl | hl | ⟨hl, hh⟩ | ⟨hl, hh⟩ | hl | hl
  · have hstep : copy_file_step s env = { s with loc := Loc.throttle } := by
      unfold copy_file_step; rw [hl]
      show loop_head_step s = _
      unfold loop_head_step
      rw [if_pos (Or.inr h3)]
    rw [hstep]
    exact ⟨⟨h1, h2, h3, Or.inr (Or.inl rfl)⟩, rfl, rfl, rfl, rfl⟩
  · have hstep : copy_file_step s env = throttle_step s env := by
      unfold copy_file_step; rw [hl]
    obtain ⟨f1, f2, f3⟩ := throttle_gate_frame s env
    obtain ⟨g1, g2, _⟩ := throttle_gate_counters s env
    have gd : (throttle_gate s env).dst = s.dst := by
      simp only [throttle_gate]
      split_ifs <;> rfl
    rw [hstep]
    refine ⟨⟨?_, ?_, ?_, Or.inr (Or.inr (Or.inl ⟨rfl, rfl⟩))⟩, f3, gd, g1, g2⟩
    · show ∀ r ∈ (throttle_gate s env).ops, r.submitted = false
      rw [f3]; exact h1
    · show (throttle_gate s env).insize = 0
      rw [f1]; exact h2
    · show (throttle_gate s env).write_left ≠ 0
      rw [f2]; exact h3
  · have hstep : copy_file_step s env = { s with loc := Loc.flush } := by
      unfold copy_file_step; rw [hl]
      show fill_step s env = _
      simp only [fill_step, h2, if_true]
    rw [hstep]
    exact ⟨⟨h1, h2, h3, Or.inr (Or.inr (Or.inr (Or.inl ⟨rfl, hh⟩)))⟩, rfl, rfl, rfl, rfl⟩
  · have hstep : copy_file_step s env = { s with got_comp := false, loc := Loc.harvest } := by
      unfold copy_file_step; rw [hl]
      show flush_step s env = _
      simp only [flush_step, hh, ne_eq, not_true_eq_false, if_false]
    rw [hstep]
    exact ⟨⟨h1, h2, h3, Or.inr (Or.inr (Or.inr (Or.inr (Or.inl rfl))))⟩, rfl, rfl, rfl, rfl⟩
  · have hstep : copy_file_step s env = harvest_step s env := by
      unfold copy_file_step; rw [hl]
    rw [hstep]
    rcases harvest_step_cases s env with g | g | ⟨_, _, _, ⟨_, _, g⟩ | g⟩ |
        ⟨_, idx, res, r, s2, _, hk, _⟩
    · rw [g]
      exact ⟨⟨h1, h2, h3, Or.inr (Or.inr (Or.inr (Or.inr (Or.inl hl))))⟩, rfl, rfl, rfl, rfl⟩
    · rw [g]
      exact ⟨⟨h1, h2, h3, Or.inl rfl⟩, rfl, rfl, rfl, rfl⟩
    · rw [g]
      exact ⟨⟨h1, h2, h3, Or.inl rfl⟩, rfl, rfl, rfl, rfl⟩
    · rw [g]
      exact ⟨⟨h1, h2, h3, Or.inr (Or.inr (Or.inr (Or.inr (Or.inr rfl))))⟩, rfl, rfl, rfl, rfl⟩
    · have hn := complete_none_of_unsubmitted (cqe_call s) idx res h1
      rw [hn] at hk; cases hk
  · have hstep : copy_file_step s env = s := by
      unfold copy_file_step; rw [hl]
    rw [hstep]
    exact ⟨⟨h1, h2, h3, Or.inr (Or.inr (Or.inr (Or.inr (Or.inr hl))))⟩, rfl, rfl, rfl, rfl⟩

/-- From a stuck state on, nothing is queued and nothing reaches the
destination. -/
theorem stuck_trace_run (envs : List Env) (t : Trace) (h : Stuck t.state) :
    Stuck (trace_run envs t).state ∧
      (trace_run envs t).reads_queued = t.reads_queued ∧
      (trace_run envs t).writes_queued = t.writes_queued ∧
      (trace_run envs t).state.ops = t.state.ops ∧
      (trace_run envs t).state.dst = t.state.dst ∧
      (trace_run envs t).state.reads = t.state.reads ∧
      (trace_run envs t).state.writes = t.state.writes := by
  induction envs generalizing t with
  | nil => exact ⟨h, rfl, rfl, rfl, rfl, rfl, rfl⟩
  | cons e es ih =>
    obtain ⟨s1, s2, s3, s4, s5⟩ := stuck_step t.state e h
    have hq : queued_by t.state e = [] := by
      unfold queued_by
      split
      · rw [s2, List.drop_length]; rfl
      · rfl
    have hw : writes_added t.state e = 0 := by
      unfold writes_added
      rw [s2]; omega
    obtain ⟨i1, i2, i3, i4, i5, i6, i7⟩ := ih (trace_step t e) s1
    refine ⟨i1, ?_, ?_, ?_, ?_, ?_, ?_⟩
    · show (trace_run es (trace_step t e)).reads_queued = t.reads_queued
      rw [i2]
      show t.reads_queued ++ queued_by t.state e = t.reads_queued
      rw [hq, List.append_nil]
    · show (trace_run es (trace_step t e)).writes_queued = t.writes_queued
      rw [i3]
      show t.writes_queued + writes_added t.state e = t.writes_queued
      rw [hw]; rfl
    · show (trace_run es (trace_step t e)).state.ops = t.state.ops
      rw [i4]; exact s2
    · show (trace_run es (trace_step t e)).state.dst = t.state.dst
      rw [i5]; exact s3
    · show (trace_run es (trace_step t e)).state.reads = t.state.reads
      rw [i6]; exact s4
    · show (trace_run es (trace_step t e)).state.writes = t.state.writes
      rw [i7]; exact s5

theorem trace_run_append (a b : List Env) (t : Trace) :
    trace_run (a ++ b) t = trace_run b (trace_run a t) := by
  unfold trace_run
  rw [List.foldl_append]

/-! ## The claims, continued -/

/-- C11, refuted on the code by a concrete invocation of the gate: the copy
of five chunks at 1 MB/s has used up its budget, the window starts at time 0
and the clock reads 4294.967301 s, so 4294967301 microseconds (more than
100000) have elapsed.  Line 196 stores the difference in the 32-bit
`speed_val`, which becomes 5; the test of line 197 for more than 100000
elapsed microseconds misses, and the gate sleeps 99995 microseconds and takes
the time after the sleep as the new window start, where the claim has a reset
to the time read and no sleep. -/
theorem throttle_gate_sleeps_after_long_pause :
    state_budget_used.loc = Loc.throttle ∧
    state_budget_used.speed_limitation > 0 ∧
    state_budget_used.speed_size = 131072 ∧
    state_budget_used.speed_size_limitation = 104857 ∧
    (env_late.now.tv_sec * 1000000 + env_late.now.tv_usec) -
      (state_budget_used.speed_time.tv_sec * 1000000 +
        state_budget_used.speed_time.tv_usec) = 4294967301 ∧
    (4294967301 : Int) > 100000 ∧
    (throttle_gate state_budget_used env_late).log =
      state_budget_used.log ++
        [Call.gettimeofday, Call.usleep 99995, Call.gettimeofday] ∧
    (throttle_gate state_budget_used env_late).speed_time = env_late.now2 ∧
    (throttle_gate state_budget_used env_late).speed_time ≠ env_late.now := by
  decide

/-- The throttle gate in terms of the value it computes: with throttling
active and `e` the elapsed microseconds since window start as the gate stores
them in the 32-bit `speed_val` (the elapsed time itself only while that lies
in `[0, 2^32)`): if `e > 100000` the
window start becomes the time read and the admitted bytes 0, with no sleep;
otherwise, if the admitted bytes have reached the budget, the gate sleeps
exactly `100000 - e` microseconds, a value from 0 to 100000, then takes the
time after the sleep as window start and sets the admitted bytes to 0;
otherwise it only reads the clock. -/
theorem throttle_gate_by_stored_elapsed (s : State) (env : Env)
    (h : s.speed_limitation > 0) :
    (elapsed s.speed_time env.now > 100000 →
      throttle_gate s env =
        { s with
          speed_time := env.now
          speed_size := 0
          log := s.log ++ [Call.gettimeofday] }) ∧
    (elapsed s.speed_time env.now ≤ 100000 → s.speed_size ≥ s.speed_size_limitation →
      100000 - elapsed s.speed_time env.now ≤ 100000 ∧
      throttle_gate s env =
        { s with
          speed_time := env.now2
          speed_size := 0
          log := s.log ++ [Call.gettimeofday,
            Call.usleep (100000 - elapsed s.speed_time env.now), Call.gettimeofday] }) ∧
    (elapsed s.speed_time env.now ≤ 100000 → s.speed_size < s.speed_size_limitation →
      throttle_gate s env = { s with log := s.log ++ [Call.gettimeofday] }) ∧
    (0 ≤ (env.now.tv_sec * 1000000 + env.now.tv_usec) -
          (s.speed_time.tv_sec * 1000000 + s.speed_time.tv_usec) →
      (env.now.tv_sec * 1000000 + env.now.tv_usec) -
          (s.speed_time.tv_sec * 1000000 + s.speed_time.tv_usec) < 4294967296 →
      (elapsed s.speed_time env.now : Int) =
        (env.now.tv_sec * 1000000 + env.now.tv_usec) -
          (s.speed_time.tv_sec * 1000000 + s.speed_time.tv_usec)) := by
  refine ⟨?_, ?_, ?_, ?_⟩
  · intro h1
    simp only [throttle_gate, h, h1, if_true]
  · intro h1 h2
    have h1n : ¬ elapsed s.speed_time env.now > 100000 := by omega
    have hu : u32 (100000 - (elapsed s.speed_time env.now : Int)) =
        100000 - elapsed s.speed_time env.now := by
      simp only [u32]; omega
    refine ⟨by omega, ?_⟩
    simp only [throttle_gate, h, h1n, h2, if_true, if_false, hu]
  · intro h1 h2
    have h1n : ¬ elapsed s.speed_time env.now > 100000 := by omega
    have h2n : ¬ s.speed_size ≥ s.speed_size_limitation := by omega
    simp only [throttle_gate, h, h1n, h2n, if_true, if_false]
  · intro h1 h2
    simp only [elapsed, u32]; omega

/-- An instance of the gate: with 5 in `speed_val` and the budget used up,
the gate sleeps 99995 microseconds. -/
theorem throttle_gate_by_stored_elapsed_witness :
    100000 - elapsed state_budget_used.speed_time env_late.now ≤ 100000 ∧
    throttle_gate state_budget_used env_late =
      { state_budget_used with
        speed_time := env_late.now2
        speed_size := 0
        log := state_budget_used.log ++ [Call.gettimeofday,
          Call.usleep (100000 - elapsed state_budget_used.speed_time env_late.now),
          Call.gettimeofday] } :=
  (throttle_gate_by_stored_elapsed state_budget_used env_late (by decide)).2.1
    (by decide) (by decide)

/-- What is queued up to any point of a transfer and at a return of 0: for a
source of `N ≥ 0` bytes, the reads queued by `queue_read` up
to any point of the transfer are the first chunks, in order, chunk `k` with
file offset `k * BS` and length `min(BS, N - k * BS)`.  When no flush fails
and `copy_file` has returned 0, they are all `ceil(N / BS)` chunks and as
many writes have been queued.  The chunks are contiguous, pairwise disjoint
and cover `[0, N)` exactly.  For `N = BS` this is one read and one write. -/
theorem reads_queued_are_the_chunks (N speed_limitation : Int) (t0 : timeval)
    (src dst : List Nat) (envs : List Env)
    (h0 : 0 ≤ N) (h1 : N < 9223372036854775808) :
    (trace_run envs (trace_init (copy_file_init N speed_limitation t0 src dst))).state =
      copy_file_run envs (copy_file_init N speed_limitation t0 src dst) ∧
    (∃ m, m ≤ n_chunks N ∧
      (trace_run envs (trace_init (copy_file_init N speed_limitation t0 src dst))).reads_queued
        = chunks N m) ∧
    ((∀ e ∈ envs, 0 ≤ e.submit_ret) →
      (copy_file_run envs (copy_file_init N speed_limitation t0 src dst)).loc =
        Loc.returned 0 →
      (trace_run envs (trace_init (copy_file_init N speed_limitation t0 src dst))).reads_queued
        = chunks N (n_chunks N) ∧
      (trace_run envs (trace_init (copy_file_init N speed_limitation t0 src dst))).writes_queued
        = n_chunks N ∧
      (N = 32768 →
        (trace_run envs
          (trace_init (copy_file_init N speed_limitation t0 src dst))).reads_queued
          = [(0, 32768)] ∧
        (trace_run envs
          (trace_init (copy_file_init N speed_limitation t0 src dst))).writes_queued = 1)) ∧
    (∀ k, chunk N k = ((k : Int) * 32768, (min (32768 : Int) (N - (k : Int) * 32768)).toNat)) ∧
    (∀ k, k < n_chunks N →
      0 ≤ (chunk N k).1 ∧ 0 < (chunk N k).2 ∧ (chunk N k).1 + ((chunk N k).2 : Int) ≤ N ∧
      (k + 1 < n_chunks N → (chunk N (k + 1)).1 = (chunk N k).1 + ((chunk N k).2 : Int)) ∧
      (k + 1 = n_chunks N → (chunk N k).1 + ((chunk N k).2 : Int) = N)) ∧
    (chunk N 0).1 = 0 ∧
    (∀ x : Int, 0 ≤ x → x < N →
      ∃ k, k < n_chunks N ∧ (chunk N k).1 ≤ x ∧ x < (chunk N k).1 + ((chunk N k).2 : Int)) ∧
    (∀ j k, j < k → (chunk N j).1 + ((chunk N j).2 : Int) ≤ (chunk N k).1) := by
  have hst : (trace_run envs
      (trace_init (copy_file_init N speed_limitation t0 src dst))).state =
      copy_file_run envs (copy_file_init N speed_limitation t0 src dst) :=
    trace_run_state envs (trace_init (copy_file_init N speed_limitation t0 src dst))
  have hci := chunkInv_run N envs _ (chunkInv_init N speed_limitation t0 src dst h0)
  obtain ⟨c1, c2, c3, c4, c5⟩ := hci
  have hm : (trace_run envs
      (trace_init (copy_file_init N speed_limitation t0 src dst))).reads_queued.length
        ≤ n_chunks N := by
    simp only [n_chunks, BS] at *
    push_cast at *
    omega
  refine ⟨hst, ⟨_, hm, c3⟩, ?_, fun k => rfl, chunk_tiling N⟩
  intro hsub hret
  have hwi := writeInv_run envs _ hsub
    (balInv_init N speed_limitation t0 src dst h0 h1) (fun r hr => by cases hr)
    (writeInv_init N speed_limitation t0 src dst)
  rw [← hst] at hret
  obtain ⟨w1, w2, _⟩ := hwi.2 (Or.inr hret)
  have hlen : (trace_run envs
      (trace_init (copy_file_init N speed_limitation t0 src dst))).reads_queued.length
        = n_chunks N := by
    simp only [n_chunks, BS] at *
    push_cast at *
    omega
  rw [hlen] at c3 w1
  refine ⟨c3, w1, ?_⟩
  intro hN
  rw [c3, w1, hN]
  exact ⟨by decide, by decide⟩

/-- An instance with full completions: a copy of exactly `BS` bytes in which
every call succeeds and both completions are full returns 0 after one read
of `[0, BS)` and one write. -/
theorem reads_queued_are_the_chunks_witness :
    (copy_file_run envs_one_chunk
      (copy_file_init 32768 0 { tv_sec := 0, tv_usec := 0 } (List.replicate 32768 7) [])).loc
      = Loc.returned 0 ∧
    (trace_run envs_one_chunk (trace_init
      (copy_file_init 32768 0 { tv_sec := 0, tv_usec := 0 }
        (List.replicate 32768 7) []))).reads_queued = [(0, 32768)] ∧
    (trace_run envs_one_chunk (trace_init
      (copy_file_init 32768 0 { tv_sec := 0, tv_usec := 0 }
        (List.replicate 32768 7) []))).writes_queued = 1 :=
  have h := (reads_queued_are_the_chunks 32768 0 { tv_sec := 0, tv_usec := 0 }
    (List.replicate 32768 7) [] envs_one_chunk (by decide) (by decide)).2.2.1
    (by decide) (by decide)
  ⟨by decide, (h.2.2 rfl).1, (h.2.2 rfl).2⟩

/-- C12, refuted on the code by a concrete run: a copy of exactly `BS` bytes
in which no call fails.  The one read `(0, BS)` is queued and flushed and
completes short, with 1 byte.  Lines 280-285 put it back with `queue_prepped`
and do not call `io_uring_submit`; nothing is left to queue, so no flush
follows and the request is never handed to the kernel.  Whatever the adapter
answers from then on, one read has been queued, no write is ever queued,
nothing reaches the destination and `copy_file` never returns 0. -/
theorem short_read_of_one_chunk_never_written (envs : List Env) :
    n_chunks 32768 = 1 ∧ chunks 32768 1 = [(0, 32768)] ∧
    trace_short_read.state =
      copy_file_run envs_short_read
        (copy_file_init 32768 0 { tv_sec := 0, tv_usec := 0 } (List.replicate 32768 7) []) ∧
    trace_short_read.state.loc = Loc.harvest ∧
    trace_short_read.state.log =
      [Call.malloc 32768, Call.get_sqe, Call.submit, Call.wait_cqe, Call.get_sqe,
       Call.cqe_seen] ∧
    trace_short_read.state.ops.map (fun r => (r.data, r.submitted)) =
      [({ read := true, first_offset := 0, offset := 1, first_len := 32768,
          iov := { iov_base := 1, iov_len := 32767 } }, false)] ∧
    (trace_run envs trace_short_read).state =
      copy_file_run (envs_short_read ++ envs)
        (copy_file_init 32768 0 { tv_sec := 0, tv_usec := 0 } (List.replicate 32768 7) []) ∧
    (trace_run envs trace_short_read).reads_queued = [(0, 32768)] ∧
    (trace_run envs trace_short_read).writes_queued = 0 ∧
    n_writes (trace_run envs trace_short_read).state.ops = 0 ∧
    (trace_run envs trace_short_read).state.writes = 0 ∧
    (trace_run envs trace_short_read).state.dst = [] ∧
    copy_file_ret (trace_run envs trace_short_read).state ≠ some 0 := by
  have hst : Stuck trace_short_read.state := by
    unfold Stuck; decide
  obtain ⟨⟨_, _, _, hl⟩, i2, i3, i4, i5, _, i7⟩ := stuck_trace_run envs trace_short_read hst
  refine ⟨by decide, by decide, trace_run_state _ _, by decide, by decide, by decide, ?_, ?_,
    ?_, ?_, ?_, ?_, ?_⟩
  · show (trace_run envs (trace_run envs_short_read _)).state = _
    rw [← trace_run_append, trace_run_state]
    rfl
  · rw [i2]; decide
  · rw [i3]; decide
  · rw [i4]; decide
  · rw [i7]; decide
  · rw [i5]; decide
  · unfold copy_file_ret
    rcases hl with a | a | ⟨a, _⟩ | ⟨a, _⟩ | a | a <;> rw [a] <;> simp

/-- C13: in every state of a run that stands in the harvest pass, when the
request with header offset `o`, remaining length `len` and buffer position
`p` completes with a result `n`, `0 ≤ n < len`, the step puts the same
request back at the end of the list, prepared and not yet flushed, with the
same kind and original range, offset `o + n`, remaining length `len - n` and
buffer position `p + n`; the counters and `write_left` stay. -/
theorem short_completion_requeued (insize speed_limitation : Int) (t0 : timeval)
    (src dst : List Nat) (envs : List Env) (s : State) (env : Env) (idx n : Nat)
    (r : Request) (s2 : State)
    (hs : s = copy_file_run envs (copy_file_init insize speed_limitation t0 src dst))
    (hl : s.loc = Loc.harvest) (hwl : s.write_left ≠ 0)
    (hcqe : env.cqe = CqeResult.completion idx n)
    (hk : complete (cqe_call s) idx n = some (r, s2))
    (hn : n < r.data.iov.iov_len) :
    (copy_file_step s env).loc = Loc.harvest ∧
    (copy_file_step s env).ops =
      (s.ops.take idx ++ s.ops.drop (idx + 1)) ++
        [{ data :=
             { read := r.data.read
               first_offset := r.data.first_offset
               offset := r.data.offset + n
               first_len := r.data.first_len
               iov := { iov_base := r.data.iov.iov_base + n
                        iov_len := r.data.iov.iov_len - n } }
           payload := r.payload
           submitted := false }] ∧
    (copy_file_step s env).reads = s.reads ∧
    (copy_file_step s env).writes = s.writes ∧
    (copy_file_step s env).write_left = s.write_left := by
  have hc : CountInv s := by
    rw [hs]; exact countInv_run envs _ (countInv_init insize speed_limitation t0 src dst)
  have hsz : ∀ q ∈ s.ops, SizeOk q := by
    rw [hs]
    exact sizeOk_run envs _ (fun q hq => by cases hq)
  have hcnt : Counted (cqe_call s) := hc.2 (by rw [hl]; rfl)
  have hav := sqe_available_after_complete (cqe_call s) idx n r s2 hc.1 hcnt hk
  obtain ⟨r0, hget, _, hr⟩ := complete_request _ _ _ _ _ hk
  have hget2 : s.ops[idx]? = some r0 := hget
  have hd : r.data = r0.data := by rw [hr]; exact after_io_data _ _ _
  have hsz0 := hsz r0 (mem_of_getElem? _ _ _ hget2)
  have hlen : r.data.iov.iov_len < 18446744073709551616 := by
    rw [hd]; exact hsz0.1
  obtain ⟨_, f2, f3, f4, f5, _⟩ := complete_sameInput _ _ _ _ _ hk
  obtain ⟨_, _, _, _, _, hs2⟩ := complete_some _ _ _ _ _ hk
  have e3 : s2.ops = s.ops.take idx ++ s.ops.drop (idx + 1) := by
    have h := congrArg State.ops hs2; exact h
  have hne : u64 (n : Int) ≠ r.data.iov.iov_len := by
    simp only [u64]; omega
  have hnl : ¬ ((n : Int) < 0) := by omega
  have hstep : copy_file_step s env = requeued s2 r (short_adjust r.data n) := by
    unfold copy_file_step
    rw [hl]
    simp only [harvest_step, hwl, hcqe, hk, if_false, harvest_dispatch, queue_prepped,
      requeued, hnl, hne, hav, if_true, ne_eq, not_false_eq_true]
  have hadj : short_adjust r.data n =
      { read := r.data.read
        first_offset := r.data.first_offset
        offset := r.data.offset + n
        first_len := r.data.first_len
        iov := { iov_base := r.data.iov.iov_base + n
                 iov_len := r.data.iov.iov_len - n } } := by
    have hu : u64 ((r.data.iov.iov_len : Int) - (n : Int)) = r.data.iov.iov_len - n := by
      simp only [u64]; omega
    simp only [short_adjust, hu, Int.toNat_ofNat]
  rw [hstep]
  refine ⟨?_, ?_, ?_, ?_, ?_⟩
  · show s2.loc = Loc.harvest
    rw [f2]; exact hl
  · show s2.ops ++ [_] = _
    rw [e3, hadj]
  · exact f3
  · exact f4
  · exact f5

/-- Witness of C13: the read of a two-byte copy of `[7, 9]` completes with
1 byte and is put back for the second byte. -/
theorem short_completion_requeued_witness :
    (copy_file_step
      (copy_file_run envs_one_read (copy_file_init 2 0 { tv_sec := 0, tv_usec := 0 } [7, 9] []))
      (env_cqe 0 1)).ops =
      [{ data := { read := true, first_offset := 0, offset := 1, first_len := 2,
                   iov := { iov_base := 1, iov_len := 1 } },
         payload := [7, 0], submitted := false }] :=
  (short_completion_requeued 2 0 { tv_sec := 0, tv_usec := 0 } [7, 9] [] envs_one_read
    (copy_file_run envs_one_read (copy_file_init 2 0 { tv_sec := 0, tv_usec := 0 } [7, 9] []))
    (env_cqe 0 1) 0 1
    { data := queue_read_data 2 0, payload := [7, 0], submitted := true }
    { cqe_call (copy_file_run envs_one_read
        (copy_file_init 2 0 { tv_sec := 0, tv_usec := 0 } [7, 9] [])) with ops := [] }
    rfl (by decide) (by decide) rfl (by decide) (by decide)).2.1

/-- C14: in every state of a run with no rate configured, the throttle gate
does nothing (no clock read, no sleep), and a pass of the fill whose
`queue_read` succeeds leaves the fill only with `reads + writes = QD` or with
nothing left to read. -/
theorem no_rate_no_sleep_no_early_stop (insize : Int) (t0 : timeval) (src dst : List Nat)
    (envs : List Env) (s : State) (env : Env)
    (hs : s = copy_file_run envs (copy_file_init insize 0 t0 src dst)) :
    throttle_gate s env = s ∧
    (s.loc = Loc.fill →
      (queue_read s env.malloc_ok (chunk_size s.insize) s.offset).2 = 0 →
      (copy_file_step s env).loc = Loc.flush →
      (copy_file_step s env).reads + (copy_file_step s env).writes = QD ∨
        (copy_file_step s env).insize = 0) := by
  have hsp : s.speed_limitation = 0 := by
    rw [hs]; exact (run_constants envs _).1
  have hc : CountInv s := by
    rw [hs]; exact countInv_run envs _ (countInv_init insize 0 t0 src dst)
  have hb : s.reads + s.writes ≤ 64 := hc.1
  have hnot : ¬ s.speed_limitation > 0 := by omega
  refine ⟨by simp only [throttle_gate, hnot, if_false], ?_⟩
  intro hl hq hexit
  have hstep : copy_file_step s env = fill_step s env := by
    unfold copy_file_step; rw [hl]
  rw [hstep] at hexit ⊢
  by_cases h0 : s.insize = 0
  · right
    simp only [fill_step, h0, if_true]
  by_cases h1 : QD ≤ u64 ((s.reads : Int) + (s.writes : Int))
  · left
    simp only [fill_step, h0, h1, if_true, if_false]
    simp only [QD, u64] at h1 ⊢; omega
  · exfalso
    have h2 : ¬ (¬ (s.insize > BS) ∧ chunk_size s.insize = 0) := by
      intro h; unfold chunk_size at h; rw [if_neg h.1] at h; exact h0 h.2
    have h5 : ¬ (s.speed_limitation > 0 ∧
        s.speed_size + chunk_size s.insize ≥ s.speed_size_limitation) := fun h => hnot h.1
    obtain ⟨h3, h4⟩ := (queue_read_ret s env.malloc_ok (chunk_size s.insize) s.offset).mp hq
    have hst : fill_step s env = fill_queued s s.loc := by
      simp only [fill_step, queue_read, fill_queued, h0, h1, h2, h3, h4, h5, if_true,
        if_false, ne_eq, not_true_eq_false]
    rw [hst] at hexit
    have : s.loc = Loc.flush := hexit
    rw [hl] at this; cases this

/-- Witness of C14: a two-byte copy without a rate leaves the fill after its
one read, with nothing left to read. -/
theorem no_rate_no_sleep_no_early_stop_witness :
    (copy_file_step (copy_file_run [env_idle, env_idle, env_idle]
        (copy_file_init 2 0 { tv_sec := 0, tv_usec := 0 } [7, 9] [])) env_idle).reads +
      (copy_file_step (copy_file_run [env_idle, env_idle, env_idle]
        (copy_file_init 2 0 { tv_sec := 0, tv_usec := 0 } [7, 9] [])) env_idle).writes = QD ∨
    (copy_file_step (copy_file_run [env_idle, env_idle, env_idle]
        (copy_file_init 2 0 { tv_sec := 0, tv_usec := 0 } [7, 9] [])) env_idle).insize = 0 :=
  (no_rate_no_sleep_no_early_stop 2 { tv_sec := 0, tv_usec := 0 } [7, 9] []
    [env_idle, env_idle, env_idle] _ env_idle rfl).2 (by decide) (by decide) (by decide)

/-- C15: in every state of the fill in which `queue_read` fails for the next
chunk (no memory or no free submission entry), the step leaves the fill with
`insize`, `offset`, `reads`, `speed_size` and every other variable as they
were and without returning; the next step reaches the harvest pass, unless
reads queued earlier in this fill are flushed and that submit fails. -/
theorem queue_read_failure_is_backpressure (s : State) (env env2 : Env)
    (hl : s.loc = Loc.fill)
    (hfail : (queue_read s env.malloc_ok (chunk_size s.insize) s.offset).2 ≠ 0) :
    (copy_file_step s env).loc = Loc.flush ∧
    (copy_file_step s env).insize = s.insize ∧
    (copy_file_step s env).offset = s.offset ∧
    (copy_file_step s env).reads = s.reads ∧
    (copy_file_step s env).speed_size = s.speed_size ∧
    (copy_file_step s env).writes = s.writes ∧
    (copy_file_step s env).write_left = s.write_left ∧
    (copy_file_step s env).ops = s.ops ∧
    copy_file_ret (copy_file_step s env) = none ∧
    ((copy_file_step (copy_file_step s env) env2).loc = Loc.harvest ∨
      (s.had_reads ≠ s.reads ∧ env2.submit_ret < 0)) := by
  have hstep : copy_file_step s env = fill_step s env := by
    unfold copy_file_step; rw [hl]
  rcases fill_step_cases s env with ⟨lg, h⟩ | ⟨_, _, h3, h4, _⟩
  · rw [hstep, h]
    refine ⟨rfl, rfl, rfl, rfl, rfl, rfl, rfl, rfl, rfl, ?_⟩
    have hflush : copy_file_step { s with loc := Loc.flush, log := lg } env2 =
        flush_step { s with loc := Loc.flush, log := lg } env2 := rfl
    rw [hflush]
    by_cases h1 : s.had_reads ≠ s.reads
    · by_cases h2 : env2.submit_ret < 0
      · exact Or.inr ⟨h1, h2⟩
      · left
        simp only [flush_step, h1, h2, if_true, if_false, ne_eq, not_false_eq_true]
    · left
      simp only [flush_step, h1, if_false]
  · exact absurd ((queue_read_ret _ _ _ _).mpr ⟨h3, h4⟩) hfail

/-- Witness of C15: the first `queue_read` of a two-byte copy finds no
memory. -/
theorem queue_read_failure_is_backpressure_witness :
    (copy_file_step (copy_file_run [env_idle, env_idle]
        (copy_file_init 2 0 { tv_sec := 0, tv_usec := 0 } [7, 9] [])) env_no_memory).loc =
      Loc.flush ∧
    (copy_file_step (copy_file_run [env_idle, env_idle]
        (copy_file_init 2 0 { tv_sec := 0, tv_usec := 0 } [7, 9] [])) env_no_memory).insize =
      (copy_file_run [env_idle, env_idle]
        (copy_file_init 2 0 { tv_sec := 0, tv_usec := 0 } [7, 9] [])).insize :=
  have h := queue_read_failure_is_backpressure
    (copy_file_run [env_idle, env_idle]
      (copy_file_init 2 0 { tv_sec := 0, tv_usec := 0 } [7, 9] []))
    env_no_memory env_idle (by decide) (by decide)
  ⟨h.1, h.2.1⟩

/-- C16: in every state of the main loop of every run on a valid size,
`write_left` is `insize` plus the sum of the original lengths of the reads
in flight; so `write_left = 0` there means `insize = 0`, `reads = 0` and no
read in flight; and once the main loop is left through its condition, no
later state has a read in flight: every completion the drain loop can be
handed is that of a write. -/
theorem write_left_is_insize_plus_reads_in_flight (insize speed_limitation : Int)
    (t0 : timeval) (src dst : List Nat) (envs : List Env) (s : State)
    (h0 : 0 ≤ insize) (h1 : insize < 9223372036854775808)
    (hs : s = copy_file_run envs (copy_file_init insize speed_limitation t0 src dst)) :
    (s.loc.in_main = true → s.write_left = s.insize + read_sum s.ops) ∧
    (s.loc.in_main = true → s.write_left = 0 →
      s.insize = 0 ∧ s.reads = 0 ∧ n_reads s.ops = 0) ∧
    (s.loc = Loc.loop_head → s.insize = 0 → s.write_left = 0 →
      ∀ (e : Env) (envs2 : List Env),
        (copy_file_step s e).loc = Loc.drain ∧
        (copy_file_run envs2 (copy_file_step s e)).loc.in_main = false ∧
        n_reads (copy_file_run envs2 (copy_file_step s e)).ops = 0 ∧
        ∀ (idx : Nat) (res : Int) (r : Request) (s2 : State),
          complete (copy_file_run envs2 (copy_file_step s e)) idx res = some (r, s2) →
          r.data.read = false) := by
  have hb : BalInv s := by
    rw [hs]; exact balInv_run envs _ (balInv_init insize speed_limitation t0 src dst h0 h1)
  have hc : CountInv s := by
    rw [hs]; exact countInv_run envs _ (countInv_init insize speed_limitation t0 src dst)
  have hp : ∀ r ∈ s.ops, PosLen r := by
    rw [hs]
    exact posLen_run envs _ (balInv_init insize speed_limitation t0 src dst h0 h1)
      (fun q hq => by cases hq)
  have key : s.loc.in_main = true → s.write_left = 0 →
      s.insize = 0 ∧ s.reads = 0 ∧ n_reads s.ops = 0 := by
    intro hm hz
    obtain ⟨b0, b1, _⟩ := hb hm
    have hnn := read_sum_nonneg s.ops
    have hsum : read_sum s.ops = 0 := by omega
    have hn := n_reads_eq_zero_of_read_sum s.ops hp hsum
    exact ⟨by omega, by rw [(hc.2 hm).1]; exact hn, hn⟩
  refine ⟨fun hm => (hb hm).2.1, key, ?_⟩
  intro hl hi hw e envs2
  have hm : s.loc.in_main = true := by rw [hl]; rfl
  obtain ⟨_, _, hn⟩ := key hm hw
  have hstep : copy_file_step s e = { s with loc := Loc.drain } := by
    unfold copy_file_step
    rw [hl]
    simp only [loop_head_step, hi, hw, ne_eq, not_true_eq_false, or_self, if_false]
  rw [hstep]
  obtain ⟨a, b⟩ := left_run envs2 { s with loc := Loc.drain } rfl
  have hz : n_reads (copy_file_run envs2 { s with loc := Loc.drain }).ops = 0 := by
    have b2 : n_reads (copy_file_run envs2 { s with loc := Loc.drain }).ops ≤ n_reads s.ops := b
    omega
  refine ⟨rfl, a, hz, ?_⟩
  intro idx res r s2 hk
  by_contra hr
  have hr2 : r.data.read = true := by
    cases hx : r.data.read
    · exact absurd hx hr
    · rfl
  have := complete_read_counted _ _ _ _ _ hk hr2
  omega

/-- Witness of C16: a two-byte copy at the head of the main loop after its
read has completed and its write is in flight. -/
theorem write_left_is_insize_plus_reads_in_flight_witness :
    n_reads (copy_file_run [env_cqe 0 2]
      (copy_file_step (copy_file_run (envs_one_read ++ [env_cqe 0 2, env_idle])
        (copy_file_init 2 0 { tv_sec := 0, tv_usec := 0 } [7, 9] [])) env_idle)).ops = 0 :=
  ((write_left_is_insize_plus_reads_in_flight 2 0 { tv_sec := 0, tv_usec := 0 } [7, 9] []
    (envs_one_read ++ [env_cqe 0 2, env_idle]) _ (by decide) (by decide) rfl).2.2
    (by decide) (by decide) (by decide) env_idle [env_cqe 0 2]).2.2.1

/-- C17: take a run on a valid size in which no completion reports more
bytes than its request asked for.  Every live request then has
`offset + iov_len = first_offset + first_len`, buffer position
`offset - first_offset` and `0 < iov_len ≤ first_len`; its region ends inside
the payload, and each file position `x` of the region goes with the buffer
position `x - first_offset`, which lies inside the payload. -/
theorem in_flight_request_geometry (insize speed_limitation : Int) (t0 : timeval)
    (src dst : List Nat) (envs : List Env) (r : Request)
    (h0 : 0 ≤ insize) (h1 : insize < 9223372036854775808)
    (hcon : contract_run envs (copy_file_init insize speed_limitation t0 src dst) = true)
    (hr : r ∈ (copy_file_run envs (copy_file_init insize speed_limitation t0 src dst)).ops) :
    r.data.offset + (r.data.iov.iov_len : Int) =
      r.data.first_offset + (r.data.first_len : Int) ∧
    (r.data.iov.iov_base : Int) = r.data.offset - r.data.first_offset ∧
    0 < r.data.iov.iov_len ∧ r.data.iov.iov_len ≤ r.data.first_len ∧
    r.data.iov.iov_base + r.data.iov.iov_len ≤ r.payload.length ∧
    ∀ x : Int, r.data.offset ≤ x → x < r.data.offset + (r.data.iov.iov_len : Int) →
      (r.data.iov.iov_base : Int) + (x - r.data.offset) = x - r.data.first_offset ∧
      0 ≤ x - r.data.first_offset ∧ x - r.data.first_offset < (r.payload.length : Int) := by
  obtain ⟨g1, g2, g3, g4, g5, _⟩ :=
    geometry_run envs _ (balInv_init insize speed_limitation t0 src dst h0 h1) hcon
      (fun q hq => by cases hq) r hr
  refine ⟨g1, g2, g3, g4, by omega, ?_⟩
  intro x hx1 hx2
  omega

/-- Witness of C17: the read of a two-byte copy has completed with 1 byte
and is queued again for the second byte. -/
theorem in_flight_request_geometry_witness :
    ({ data := { read := true, first_offset := 0, offset := 1, first_len := 2,
                 iov := { iov_base := 1, iov_len := 1 } },
       payload := [7, 0], submitted := false } : Request) ∈
      (copy_file_run (envs_one_read ++ [env_cqe 0 1])
        (copy_file_init 2 0 { tv_sec := 0, tv_usec := 0 } [7, 9] [])).ops ∧
    ((1 : Int) + ((1 : Nat) : Int) = 0 + ((2 : Nat) : Int) ∧ ((1 : Nat) : Int) = 1 - 0) :=
  have h := in_flight_request_geometry 2 0 { tv_sec := 0, tv_usec := 0 } [7, 9] []
    (envs_one_read ++ [env_cqe 0 1])
    { data := { read := true, first_offset := 0, offset := 1, first_len := 2,
                iov := { iov_base := 1, iov_len := 1 } },
      payload := [7, 0], submitted := false }
    (by decide) (by decide) (by decide) (by decide)
  ⟨by decide, h.1, h.2.1⟩

/-- C18: with throttling active and a positive budget `B`, in every state of
every run the admitted bytes `speed_size` are below `B + BS`, so at most
`B + BS - 1`, and they are below `B` whenever a pass of the pipeline fill
starts. -/
theorem admitted_bytes_below_budget_plus_BS (insize speed_limitation : Int) (t0 : timeval)
    (src dst : List Nat) (envs : List Env)
    (hsp : speed_limitation > 0) (hB : 0 < speed_size_limitation_of speed_limitation) :
    (copy_file_run envs (copy_file_init insize speed_limitation t0 src dst)).speed_size <
      speed_size_limitation_of speed_limitation + BS ∧
    (copy_file_run envs (copy_file_init insize speed_limitation t0 src dst)).speed_size ≤
      speed_size_limitation_of speed_limitation + BS - 1 ∧
    ((copy_file_run envs (copy_file_init insize speed_limitation t0 src dst)).loc = Loc.fill →
      (copy_file_run envs (copy_file_init insize speed_limitation t0 src dst)).speed_size <
        speed_size_limitation_of speed_limitation) := by
  have hinit : ThrottleInv (speed_size_limitation_of speed_limitation)
      (copy_file_init insize speed_limitation t0 src dst) := by
    refine ⟨hsp, rfl, ?_, fun _ => hB⟩
    show (0 : Int) < speed_size_limitation_of speed_limitation + BS
    unfold BS; omega
  obtain ⟨_, _, h3, h4⟩ := throttleInv_run _ hB envs _ hinit
  exact ⟨h3, by omega, h4⟩

/-- Witness of C18: at 1 MB/s the budget is 104857; after four chunks of a
five-chunk copy 131072 bytes are admitted, fewer than 104857 + 32768. -/
theorem admitted_bytes_below_budget_plus_BS_witness :
    (copy_file_run envs_budget_used
      (copy_file_init 163840 1 { tv_sec := 0, tv_usec := 0 }
        (List.replicate 163840 0) [])).speed_size <
      speed_size_limitation_of 1 + BS :=
  (admitted_bytes_below_budget_plus_BS 163840 1 { tv_sec := 0, tv_usec := 0 }
    (List.replicate 163840 0) [] envs_budget_used (by decide) (by decide)).1

/-- C19: in every state of every run, for every size, rate and sequence of
adapter answers, the assertion `assert(sqe)` of `queue_prepped` has not
failed, and the prepared entries not yet flushed number at most
`reads + writes`, which is at most `QD`. -/
theorem assert_sqe_never_fails (insize speed_limitation : Int) (t0 : timeval)
    (src dst : List Nat) (envs : List Env) :
    (copy_file_run envs (copy_file_init insize speed_limitation t0 src dst)).loc ≠
      Loc.assert_failed ∧
    sq_pending (copy_file_run envs (copy_file_init insize speed_limitation t0 src dst)).ops ≤
      (copy_file_run envs (copy_file_init insize speed_limitation t0 src dst)).reads +
      (copy_file_run envs (copy_file_init insize speed_limitation t0 src dst)).writes ∧
    (copy_file_run envs (copy_file_init insize speed_limitation t0 src dst)).reads +
      (copy_file_run envs (copy_file_init insize speed_limitation t0 src dst)).writes ≤ QD := by
  have hc := countInv_run envs _ (countInv_init insize speed_limitation t0 src dst)
  obtain ⟨h1, h2⟩ := safeInv_run envs _ (countInv_init insize speed_limitation t0 src dst)
    (safeInv_init insize speed_limitation t0 src dst)
  have h3 := sq_pending_le_length
    (copy_file_run envs (copy_file_init insize speed_limitation t0 src dst)).ops
  exact ⟨h1, by omega, hc.1⟩

end IoUringCp
